import Mathlib

/-!
# gort: decoding and formatting of `go test -json` events

A shallow embedding of `internal/gotest` (`decoder.go`, `fmt.go`) and of the
standard-library functions these two files call, followed by the properties
proved about them.

* `fmt.go` calls `strings.ReplaceAll`, `strings.Contains`, `strings.Split` and
  `fmt.Sprintf`; `decoder.go` calls `json.Unmarshal` and `fmt.Errorf`.  The
  library functions are modelled after their documented behaviour, for the
  arguments the two files pass.
* Go strings are modelled as Lean strings, i.e. as sequences of Unicode code
  points: the model covers the Go strings that hold valid UTF-8.  All bytes the
  code inspects (`_`, `/`, the JSON punctuation) are ASCII, so working on code
  points instead of bytes does not change any result on such strings.
* A `float64` is modelled by its three bit fields, and the conversion of a
  number literal by exact arithmetic on naturals: no floating-point operation
  of Lean is used.
* The JSON scanner is a recursive descent with a fuel; it is proved to accept
  exactly the texts of the RFC 8259 grammar nested within the depth limit of
  `encoding/json`, with the value each text denotes (`json.scan_iff`,
  `json.scan_agrees`), so the fuel it is given is never exhausted.
* The messages of the errors of `encoding/json` are not modelled: the message
  of the error `ParseJSONOutput` returns is stated for every function that
  gives them (`wrapError.Error`).
* `json.Marshal`, which neither file calls, is modelled for the statement of
  the decode round trip, with the encoder of `float64` and the shortest
  formatting of `strconv.FormatFloat` it writes the number with; the digits are
  those of `roundShortest`, computed by exact arithmetic on naturals, and are
  proved to be read back to the same `float64` (`json.floatEncoder_spec`).
-/

set_option autoImplicit false

namespace gotest

/-! ## Data model -/

/-- An IEEE-754 binary64 value (Go `float64`) given by its three bit fields: the sign bit,
the 11-bit biased exponent and the 52-bit fraction.  Equality is equality of the bit fields:
it tells `-0.0` from `+0.0`, which the operator `==` of Go does not. -/
structure Float64 where
  sign : Bool
  exp : Nat
  frac : Nat
deriving DecidableEq, Repr

/-- The zero value of `float64`, `+0.0`. -/
def Float64.zero : Float64 := ⟨false, 0, 0⟩

/-- The rational number denoted by a finite binary64 value. -/
def Float64.toRat (x : Float64) : ℚ :=
  (if x.sign then -1 else 1) *
    (if x.exp = 0 then (x.frac : ℚ) * (2 : ℚ) ^ (-1074 : ℤ)
     else ((2 ^ 52 + x.frac : ℕ) : ℚ) * (2 : ℚ) ^ ((x.exp : ℤ) - 1075))

/-- The struct `TEvent` of `decoder.go`: a single line of Go's testing output. -/
structure TEvent where
  Action : String
  Package : String
  Test : String
  Elapsed : Float64
deriving DecidableEq, Repr

/-- The Go zero value `TEvent{}`. -/
def TEvent.zero : TEvent := ⟨"", "", "", Float64.zero⟩

/-! ## The `strings` functions used by `fmt.go`

`fmt.go` calls them with the one-byte arguments `"_"`, `" "` and `"/"`; they are
modelled for a one-character pattern. -/

namespace strings

/-- Go `strings.ReplaceAll(s, old, new)` for one-character `old` and `new`. -/
def ReplaceAll (s : String) (old new : Char) : String :=
  ⟨s.data.map fun c => if c = old then new else c⟩

/-- Go `strings.Contains(s, substr)` for a one-character `substr`. -/
def Contains (s : String) (substr : Char) : Bool :=
  s.data.any fun c => c = substr

/-- The pieces of a character list between the occurrences of `sep`. -/
def splitChars (sep : Char) : List Char → List (List Char)
  | [] => [[]]
  | c :: cs =>
    if c = sep then [] :: splitChars sep cs
    else
      match splitChars sep cs with
      | [] => [[c]]
      | seg :: segs => (c :: seg) :: segs

/-- Go `strings.Split(s, sep)` for a one-character `sep`: the substrings between the
separators, `Count(s, sep) + 1` of them. -/
def Split (s : String) (sep : Char) : List String :=
  (splitChars sep s.data).map String.mk

end strings

/-! ## `fmt.go` -/

/-- Modelled from the spec: the unexported method `isPassed`, called by `String` and declared
in a file that is not part of the sources at hand.  The spec: "if `action == "pass"`, prefix the
display name with a checkmark glyph". -/
def TEvent.isPassed (tEvt : TEvent) : Bool :=
  decide (tEvt.Action = "pass")

/-- Modelled from the spec: the method `IsRelevant`, exercised by `decoder_test.go` and declared
in a file that is not part of the sources at hand.  The spec: "Returns true if and only if both
of the following hold: `event.action` is exactly `"pass"` or exactly `"fail"`, AND `event.test`
is a non-empty string." -/
def TEvent.IsRelevant (tEvt : TEvent) : Bool :=
  (decide (tEvt.Action = "pass") || decide (tEvt.Action = "fail")) && !decide (tEvt.Test = "")

/-- Go `fmt.Sprintf(format, arg)` for a format `pre ++ "%s" ++ post` with a single verb. -/
def Sprintf (pre post arg : String) : String :=
  pre ++ arg ++ post

/-- The method `String` of `fmt.go`.  Indexing a slice out of range panics in Go; the panic is
the result `none`. -/
def TEvent.String (tEvt : TEvent) : Option String :=
  let evtName := strings.ReplaceAll tEvt.Test '_' ' '
  let evtName? :=
    if strings.Contains evtName '/' then (strings.Split evtName '/')[1]?
    else some evtName
  match evtName? with
  | none => none
  | some evtName =>
    if tEvt.isPassed then some (Sprintf "\x1b[32m✓ " "\x1b[0m" evtName)
    else some (Sprintf "\x1b[31m✗ " "\x1b[0m" evtName)

/-! ## The `encoding/json` functions used by `decoder.go`

`decoder.go` calls `json.Unmarshal(data, &event)` with a `*TEvent`.  `Unmarshal` first runs the
scanner over the whole input (`checkValid`) and fails with a `SyntaxError` on the first byte that
does not continue a JSON text; only then does it decode.  The scanner is modelled as a recursive
descent over the input that also yields the tree of values, the decoder as a function of that
tree, specialised to the target type `TEvent`. -/

namespace json

/-- A JSON value as the decoder sees it: strings and keys unquoted, numbers as their literal. -/
inductive Value where
  | null
  | bool (b : Bool)
  | number (lit : String)
  | string (s : String)
  | array (elems : List Value)
  | object (members : List (String × Value))
deriving Repr

/-- The constant `maxNestingDepth` of the scanner. -/
def maxNestingDepth : Nat := 10000

/-- The function `isSpace` of the scanner: the four JSON whitespace characters. -/
def isSpace (c : Char) : Bool :=
  c = ' ' || c = '\t' || c = '\r' || c = '\n'

/-- Drops leading whitespace. -/
def skipSpace : List Char → List Char
  | [] => []
  | c :: cs => if isSpace c then skipSpace cs else c :: cs

/-- The decimal digits `0`..`9`. -/
def isDigit (c : Char) : Bool :=
  decide ('0' ≤ c) && decide (c ≤ '9')

/-- The hexadecimal digits, in either case (scanner states `stateInStringEscU...`). -/
def isHexDigit (c : Char) : Bool :=
  isDigit c || (decide ('a' ≤ c) && decide (c ≤ 'f')) || (decide ('A' ≤ c) && decide (c ≤ 'F'))

/-- The characters that may follow a backslash, `u` apart (scanner state `stateInStringEsc`). -/
def isEscape (c : Char) : Bool :=
  c = 'b' || c = 'f' || c = 'n' || c = 'r' || c = 't' || c = '\\' || c = '/' || c = '"'

/-- Scans a string literal after its opening quote (scanner states `stateInString`,
`stateInStringEsc`, `stateInStringEscU...`): the text up to the closing quote, escapes left
as written, and the input after the closing quote. -/
def scanString : List Char → Option (List Char × List Char)
  | [] => none
  | c :: cs =>
    if c = '"' then some ([], cs)
    else if c = '\\' then
      match cs with
      | [] => none
      | e :: cs1 =>
        if e = 'u' then
          match cs1 with
          | h1 :: h2 :: h3 :: h4 :: cs2 =>
            if isHexDigit h1 && isHexDigit h2 && isHexDigit h3 && isHexDigit h4 then
              (scanString cs2).map fun p => ('\\' :: 'u' :: h1 :: h2 :: h3 :: h4 :: p.1, p.2)
            else none
          | _ => none
        else if isEscape e then (scanString cs1).map fun p => ('\\' :: e :: p.1, p.2)
        else none
    else if c.toNat < 0x20 then none
    else (scanString cs).map fun p => (c :: p.1, p.2)

/-- The value of a hexadecimal digit. -/
def hexValue (c : Char) : Nat :=
  if isDigit c then c.toNat - '0'.toNat
  else if decide ('a' ≤ c) && decide (c ≤ 'f') then c.toNat - 'a'.toNat + 10
  else c.toNat - 'A'.toNat + 10

/-- The number four hexadecimal digits write. -/
def hex4 (h1 h2 h3 h4 : Char) : Nat :=
  ((hexValue h1 * 16 + hexValue h2) * 16 + hexValue h3) * 16 + hexValue h4

/-- The function `getu4`: the code unit of a leading `\uXXXX`, if there is one. -/
def getu4 : List Char → Option Nat
  | b :: u :: h1 :: h2 :: h3 :: h4 :: _ =>
    if b = '\\' && u = 'u' && isHexDigit h1 && isHexDigit h2 && isHexDigit h3 && isHexDigit h4
    then some (hex4 h1 h2 h3 h4) else none
  | _ => none

/-- The character a single-letter escape stands for. -/
def unescape (e : Char) : Char :=
  if e = 'b' then '\x08' else if e = 'f' then '\x0c' else if e = 'n' then '\n'
  else if e = 'r' then '\r' else if e = 't' then '\t' else e

/-- The constant `unicode.ReplacementChar`, U+FFFD. -/
def replacementChar : Char := Char.ofNat 0xFFFD

/-- The function `unquote`, applied to the text between the quotes of a scanned literal.
A `\u` escape of a surrogate that is not the first half of a valid pair becomes U+FFFD.  The
two results `[]` inside an escape stand for the failure of `unquote` on a text the scanner
would have refused; they are never reached on the text of a scanned literal. -/
def unquote : List Char → List Char
  | [] => []
  | c :: cs =>
    if c = '\\' then
      match cs with
      | [] => []
      | e :: cs1 =>
        if e = 'u' then
          match cs1 with
          | h1 :: h2 :: h3 :: h4 :: cs2 =>
            let rr := hex4 h1 h2 h3 h4
            if 0xD800 ≤ rr ∧ rr < 0xE000 then
              match cs2 with
              | b :: u :: l1 :: l2 :: l3 :: l4 :: cs3 =>
                match getu4 (b :: u :: l1 :: l2 :: l3 :: l4 :: cs3) with
                | some rr1 =>
                  if rr < 0xDC00 ∧ 0xDC00 ≤ rr1 ∧ rr1 < 0xE000 then
                    Char.ofNat ((rr - 0xD800) * 0x400 + (rr1 - 0xDC00) + 0x10000) :: unquote cs3
                  else replacementChar :: unquote (b :: u :: l1 :: l2 :: l3 :: l4 :: cs3)
                | none => replacementChar :: unquote (b :: u :: l1 :: l2 :: l3 :: l4 :: cs3)
              | rest => replacementChar :: unquote rest
            else Char.ofNat rr :: unquote cs2
          | _ => []
        else unescape e :: unquote cs1
    else c :: unquote cs

/-- The longest prefix of digits and the rest. -/
def spanDigits : List Char → List Char × List Char
  | [] => ([], [])
  | c :: cs =>
    if isDigit c then ((spanDigits cs).1.cons c, (spanDigits cs).2) else ([], c :: cs)

/-- The exponent part of a number, if one starts here (scanner states `stateE`, `stateESign`,
`stateE0`): `some` of the part and the rest, or `none` when `e` is not followed by digits. -/
def scanExponent (s : List Char) : Option (List Char × List Char) :=
  match s with
  | e :: cs =>
    if e = 'e' || e = 'E' then
      match cs with
      | sg :: ds =>
        if sg = '+' || sg = '-' then
          match spanDigits ds with
          | ([], _) => none
          | (d, rest) => some (e :: sg :: d, rest)
        else
          match spanDigits (sg :: ds) with
          | ([], _) => none
          | (d, rest) => some (e :: d, rest)
      | [] => none
    else some ([], s)
  | [] => some ([], [])

/-- The fraction part of a number, if one starts here (scanner states `stateDot`,
`stateDot0`). -/
def scanFraction (s : List Char) : Option (List Char × List Char) :=
  match s with
  | p :: cs =>
    if p = '.' then
      match spanDigits cs with
      | ([], _) => none
      | (d, rest) => some (p :: d, rest)
    else some ([], s)
  | [] => some ([], [])

/-- The integer part of a number after the optional minus sign (scanner states `state0`,
`state1`): a single `0`, or a digit `1`..`9` followed by digits. -/
def scanInteger (s : List Char) : Option (List Char × List Char) :=
  match s with
  | c :: cs =>
    if c = '0' then some ([c], cs)
    else if isDigit c then some (c :: (spanDigits cs).1, (spanDigits cs).2)
    else none
  | [] => none

/-- Scans a number literal: the literal and the input after it. -/
def scanNumber (s : List Char) : Option (List Char × List Char) :=
  let signed : List Char × List Char :=
    match s with
    | c :: cs => if c = '-' then ([c], cs) else ([], s)
    | [] => ([], [])
  match scanInteger signed.2 with
  | none => none
  | some (ip, s1) =>
    match scanFraction s1 with
    | none => none
    | some (fp, s2) =>
      match scanExponent s2 with
      | none => none
      | some (ep, s3) => some (signed.1 ++ ip ++ fp ++ ep, s3)

/-- Strips the word `w` from the front of the input (the literals `true`, `false`, `null`). -/
def scanWord : List Char → List Char → Option (List Char)
  | [], s => some s
  | _ :: _, [] => none
  | w :: ws, c :: cs => if c = w then scanWord ws cs else none

mutual
/-- Scans one value at the head of the input, `depth` containers being open: the value and
the input after it.  The scanner of Go pushes a state for every `[` and `{` and fails when more
than `maxNestingDepth` are open.  `fuel` bounds the number of nested calls; it is not
exhausted when it exceeds twice the length of the text of the value. -/
def scanValue : Nat → Nat → List Char → Option (Value × List Char)
  | 0, _, _ => none
  | fuel + 1, depth, s =>
    match s with
    | [] => none
    | c :: cs =>
      if c = '{' then
        if depth < maxNestingDepth then
          match skipSpace cs with
          | [] => none
          | c2 :: r =>
            if c2 = '}' then some (.object [], r)
            else (scanMembers fuel (depth + 1) (c2 :: r)).map fun p => (.object p.1, p.2)
        else none
      else if c = '[' then
        if depth < maxNestingDepth then
          match skipSpace cs with
          | [] => none
          | c2 :: r =>
            if c2 = ']' then some (.array [], r)
            else (scanElements fuel (depth + 1) (c2 :: r)).map fun p => (.array p.1, p.2)
        else none
      else if c = '"' then
        (scanString cs).map fun p => (.string ⟨unquote p.1⟩, p.2)
      else if c = '-' || isDigit c then
        (scanNumber (c :: cs)).map fun p => (.number ⟨p.1⟩, p.2)
      else if c = 't' then (scanWord "rue".data cs).map fun r => (.bool true, r)
      else if c = 'f' then (scanWord "alse".data cs).map fun r => (.bool false, r)
      else if c = 'n' then (scanWord "ull".data cs).map fun r => (.null, r)
      else none
/-- Scans the elements of an array from the start of an element up to the closing bracket. -/
def scanElements : Nat → Nat → List Char → Option (List Value × List Char)
  | 0, _, _ => none
  | fuel + 1, depth, s =>
    match scanValue fuel depth (skipSpace s) with
    | none => none
    | some (v, r) =>
      match skipSpace r with
      | [] => none
      | c :: r2 =>
        if c = ',' then (scanElements fuel depth r2).map fun p => (v :: p.1, p.2)
        else if c = ']' then some ([v], r2)
        else none
/-- Scans the members of an object from the start of a key up to the closing brace. -/
def scanMembers : Nat → Nat → List Char → Option (List (String × Value) × List Char)
  | 0, _, _ => none
  | fuel + 1, depth, s =>
    match skipSpace s with
    | [] => none
    | q :: r =>
      if q = '"' then
        match scanString r with
        | none => none
        | some (key, r1) =>
          match skipSpace r1 with
          | [] => none
          | c :: r2 =>
            if c = ':' then
              match scanValue fuel depth (skipSpace r2) with
              | none => none
              | some (v, r3) =>
                match skipSpace r3 with
                | [] => none
                | c3 :: r4 =>
                  if c3 = ',' then
                    (scanMembers fuel depth r4).map fun p => ((⟨unquote key⟩, v) :: p.1, p.2)
                  else if c3 = '}' then some ([(⟨unquote key⟩, v)], r4)
                  else none
            else none
      else none
end

/-- The scanner run over a whole input (`checkValid`): `none` when the input is not one JSON
value surrounded by optional whitespace, or nests deeper than `maxNestingDepth`. -/
def scan (data : List Char) : Option Value :=
  match scanValue (2 * data.length + 1) 0 (skipSpace data) with
  | none => none
  | some (v, rest) => if skipSpace rest = [] then some v else none

end json

/-! ## `strconv.ParseFloat` on the literals the scanner lets through -/

namespace strconv

/-- The value of a run of decimal digits. -/
def digitsValue (ds : List Char) : Nat :=
  ds.foldl (fun n c => 10 * n + (c.toNat - '0'.toNat)) 0

/-- The value of the digits of an exponent as `readFloat` accumulates it: a digit is taken in
only while the value is below 10000, so that the exponent of a literal is capped. -/
def exponentValue (ds : List Char) : Nat :=
  ds.foldl (fun e c => if e < 10000 then 10 * e + (c.toNat - '0'.toNat) else e) 0

/-- Reads a JSON number literal as sign, decimal mantissa and decimal exponent: the literal
is read as `± mant * 10 ^ exp`, which is the number it denotes unless the exponent written is
10000 or more. -/
def readFloat (lit : List Char) : Bool × Nat × Int :=
  let signed : Bool × List Char :=
    match lit with
    | c :: cs => if c = '-' then (true, cs) else (false, lit)
    | [] => (false, [])
  let ip := json.spanDigits signed.2
  let fp : List Char × List Char :=
    match ip.2 with
    | c :: cs => if c = '.' then json.spanDigits cs else ([], ip.2)
    | [] => ([], [])
  let e : Int :=
    match fp.2 with
    | _ :: sg :: ds =>
      if sg = '-' then -(exponentValue ds : Int)
      else if sg = '+' then (exponentValue ds : Int)
      else (exponentValue (sg :: ds) : Int)
    | _ => 0
  (signed.1, digitsValue (ip.1 ++ fp.1), e - (fp.1.length : Int))

/-- The number of binary digits of `n`, counted in at most `fuel` halvings. -/
def bitLen : Nat → Nat → Nat
  | 0, _ => 0
  | fuel + 1, n => if n = 0 then 0 else bitLen fuel (n / 2) + 1

/-- The integer `e` with `2 ^ e ≤ num / den < 2 ^ (e + 1)`, for positive `num` and `den`. -/
def floorLog2 (num den : Nat) : Int :=
  let e0 : Int := (bitLen num num : Int) - (bitLen den den : Int)
  let below : Bool :=
    if 0 ≤ e0 then decide (num < den * 2 ^ e0.toNat) else decide (num * 2 ^ (-e0).toNat < den)
  if below then e0 - 1 else e0

/-- The integer nearest to `n / d`, the even one of the two when `n / d` is halfway. -/
def divRoundEven (n d : Nat) : Nat :=
  let q := n / d
  let r := n % d
  if d < 2 * r ∨ (2 * r = d ∧ q % 2 = 1) then q + 1 else q

/-- The binary64 value `q * 2 ^ k` for `q ≤ 2 ^ 53` and `k ≥ -1074`, with `q ≥ 2 ^ 52` unless
`k = -1074` (a subnormal value); `none` when the exponent is beyond the finite range. -/
def pack (neg : Bool) (q : Nat) (k : Int) : Option Float64 :=
  let k1 : Int := if q = 2 ^ 53 then k + 1 else k
  let m := if q = 2 ^ 53 then 2 ^ 52 else q
  if m < 2 ^ 52 then some ⟨neg, 0, m⟩
  else if 2047 ≤ k1 + 1075 then none
  else some ⟨neg, (k1 + 1075).toNat, m - 2 ^ 52⟩

/-- The binary64 value nearest to the rational `num / den`, ties to even, with the sign
`neg`; `none` when it is beyond the finite range (`ParseFloat` then reports `ErrRange`).  The
quotient is rounded at the position of the last of 53 significant bits, and not below the
position `2 ^ -1074` of the subnormal values. -/
def nearestFloat64 (neg : Bool) (num den : Nat) : Option Float64 :=
  if num = 0 then some ⟨neg, 0, 0⟩
  else
    let k : Int := max (floorLog2 num den - 52) (-1074)
    if k < 0 then pack neg (divRoundEven (num * 2 ^ (-k).toNat) den) k
    else pack neg (divRoundEven num (den * 2 ^ k.toNat)) k

/-- Go `strconv.ParseFloat(s, 64)` on a JSON number literal: the nearest `float64`, or `none`
for the error `ErrRange`. -/
def ParseFloat (s : String) : Option Float64 :=
  match readFloat s.data with
  | (neg, mant, e) =>
    if 0 ≤ e then nearestFloat64 neg (mant * 10 ^ e.toNat) 1
    else nearestFloat64 neg mant (10 ^ (-e).toNat)

end strconv

/-! ## The decoder of `encoding/json`, for the target type `TEvent` -/

namespace json

/-- The errors `Unmarshal` returns: the scanner's `*SyntaxError`, and the
`*UnmarshalTypeError` of a JSON value that does not fit its Go target (`Value` describes the
JSON value, `Field` names the struct field, empty for the struct itself).  The offsets into
the input that both errors carry, and the message of a syntax error, are left out: two errors
of the model are equal when the Go errors are equal up to these. -/
inductive Error where
  | SyntaxError
  | UnmarshalTypeError (Value : String) (Field : String)
deriving DecidableEq, Repr

/-- The four exported fields of `TEvent`. -/
inductive Field where
  | Action
  | Package
  | Test
  | Elapsed
deriving DecidableEq, Repr

/-- The JSON name of a field, from its struct tag. -/
def Field.name : Field → String
  | .Action => "Action"
  | .Package => "Package"
  | .Test => "Test"
  | .Elapsed => "Elapsed"

/-- The fields of `TEvent` in declaration order. -/
def fields : List Field := [.Action, .Package, .Test, .Elapsed]

/-- The function `foldRune`: the representative of a character among those that differ from it
only in case.  Only the classes of the ASCII letters are modelled, which decides every
comparison with the (ASCII) field names: a small letter folds to its capital, the Kelvin sign
U+212A to `K` and the long s U+017F to `S`. -/
def foldRune (c : Char) : Char :=
  if decide ('a' ≤ c) && decide (c ≤ 'z') then Char.ofNat (c.toNat - 32)
  else if c = '\u212a' then 'K'
  else if c = '\u017f' then 'S'
  else c

/-- The function `foldName`: a name with every character folded. -/
def foldName (s : String) : String :=
  ⟨s.data.map foldRune⟩

/-- The field an object key selects: the field with exactly that name, else the field whose
name equals the key up to case folding, else none (the key is then skipped). -/
def findField (key : String) : Option Field :=
  match fields.find? fun f => decide (f.name = key) with
  | some f => some f
  | none => fields.find? fun f => decide (foldName f.name = foldName key)

/-- The state of a decoder: the target, and the first error saved so far. -/
structure decodeState where
  event : TEvent
  savedError : Option Error
deriving DecidableEq, Repr

/-- The method `saveError`: keeps the first error and goes on decoding. -/
def saveError (d : decodeState) (err : Error) : decodeState :=
  match d.savedError with
  | none => { d with savedError := some err }
  | some _ => d

/-- Stores a string in a field (`literalStore`, case of a string literal): fields of kind
string take it, the `float64` field does not. -/
def storeString (d : decodeState) (f : Field) (s : String) : decodeState :=
  match f with
  | .Action => { d with event := { d.event with Action := s } }
  | .Package => { d with event := { d.event with Package := s } }
  | .Test => { d with event := { d.event with Test := s } }
  | .Elapsed => saveError d (.UnmarshalTypeError "string" f.name)

/-- Stores a number in a field (`literalStore`, case of a number): the `float64` field takes
what `ParseFloat` returns and refuses a literal out of range, the string fields refuse any
number. -/
def storeNumber (d : decodeState) (f : Field) (lit : String) : decodeState :=
  match f with
  | .Elapsed =>
    match strconv.ParseFloat lit with
    | some x => { d with event := { d.event with Elapsed := x } }
    | none => saveError d (.UnmarshalTypeError ("number " ++ lit) f.name)
  | _ => saveError d (.UnmarshalTypeError "number" f.name)

/-- Decodes a value into a field (`value`, then `array`, `object` or `literalStore`): `null`
leaves a string or a `float64` as it is, a boolean, an array or an object fits neither. -/
def storeValue (d : decodeState) (f : Field) (v : Value) : decodeState :=
  match v with
  | .null => d
  | .bool _ => saveError d (.UnmarshalTypeError "bool" f.name)
  | .number lit => storeNumber d f lit
  | .string s => storeString d f s
  | .array _ => saveError d (.UnmarshalTypeError "array" f.name)
  | .object _ => saveError d (.UnmarshalTypeError "object" f.name)

/-- Decodes the members of an object into the struct (`object`), in the order of the input: a
key that selects no field is skipped with its value. -/
def decodeMembers (d : decodeState) : List (String × Value) → decodeState
  | [] => d
  | (key, v) :: ms =>
    match findField key with
    | some f => decodeMembers (storeValue d f v) ms
    | none => decodeMembers d ms

/-- Decodes a top-level value into the struct (`value` on `*TEvent`): an object is decoded
member by member, `null` has no effect, any other value does not fit a struct. -/
def decodeValue (d : decodeState) (v : Value) : decodeState :=
  match v with
  | .object ms => decodeMembers d ms
  | .null => d
  | .bool _ => saveError d (.UnmarshalTypeError "bool" "")
  | .number _ => saveError d (.UnmarshalTypeError "number" "")
  | .string _ => saveError d (.UnmarshalTypeError "string" "")
  | .array _ => saveError d (.UnmarshalTypeError "array" "")

/-- Go `json.Unmarshal(data, &v)` for `v` of type `TEvent`: the struct after the call and the
error returned.  An input the scanner refuses leaves the struct untouched. -/
def Unmarshal (data : String) (v : TEvent) : TEvent × Option Error :=
  match scan data.data with
  | none => (v, some .SyntaxError)
  | some val =>
    let d := decodeValue ⟨v, none⟩ val
    (d.event, d.savedError)

end json

/-! ## `decoder.go` -/

/-- The error `fmt.Errorf("failed to decode JSON. %w", err)` builds: it wraps `err`. -/
structure wrapError where
  format : String
  err : json.Error
deriving DecidableEq, Repr

/-- Go `fmt.Errorf(format, err)` for a format with the single verb `%w`. -/
def Errorf (format : String) (err : json.Error) : wrapError :=
  ⟨format, err⟩

/-- The function `ParseJSONOutput` of `decoder.go`: the event and the error it returns, `none`
for a nil error. -/
def ParseJSONOutput (data : String) : TEvent × Option wrapError :=
  let event := TEvent.zero
  match json.Unmarshal data event with
  | (event, some err) => (event, some (Errorf "failed to decode JSON. %w" err))
  | (event, none) => (event, none)

/-! ## Notions the statements use -/

namespace json

/-- A value of the wrong type for the field it is decoded into: a string for `Elapsed`; a
number, a boolean, an array or an object for one of the string fields. -/
def Mismatch (f : Field) (v : Value) : Prop :=
  match f, v with
  | .Elapsed, .string _ => True
  | .Elapsed, _ => False
  | _, .number _ => True
  | _, .bool _ => True
  | _, .array _ => True
  | _, .object _ => True
  | _, _ => False

/-- The value an event holds in a field. -/
def Field.value (f : Field) (ev : TEvent) : String ⊕ Float64 :=
  match f with
  | .Action => .inl ev.Action
  | .Package => .inl ev.Package
  | .Test => .inl ev.Test
  | .Elapsed => .inr ev.Elapsed

/-- The JSON value each field is given by an object whose keys `Action`, `Package` and `Test`
hold the strings `a`, `p`, `t` and whose key `Elapsed` holds the number literal `n`. -/
def given (a p t n : String) : Field → Value
  | .Action => .string a
  | .Package => .string p
  | .Test => .string t
  | .Elapsed => .number n

end json

/-! ## The JSON grammar (RFC 8259)

What "syntactically valid JSON" means, stated on the text alone and independently of the
scanner. -/

namespace grammar

/-- The rule `ws`: any run of space, horizontal tab, line feed and carriage return. -/
def IsWS (w : List Char) : Prop :=
  ∀ c ∈ w, c = ' ' ∨ c = '\t' ∨ c = '\n' ∨ c = '\r'

/-- The rule `1*DIGIT`. -/
def IsDigits (ds : List Char) : Prop :=
  ds ≠ [] ∧ ∀ c ∈ ds, '0' ≤ c ∧ c ≤ '9'

/-- The rule `int = zero / ( digit1-9 *DIGIT )`. -/
def IsInt (t : List Char) : Prop :=
  t = ['0'] ∨ (IsDigits t ∧ t.head? ≠ some '0')

/-- The rule `frac = decimal-point 1*DIGIT`. -/
def IsFrac (t : List Char) : Prop :=
  ∃ ds, t = '.' :: ds ∧ IsDigits ds

/-- The rule `exp = e [ minus / plus ] 1*DIGIT`. -/
def IsExp (t : List Char) : Prop :=
  ∃ e sg ds, t = e :: (sg ++ ds) ∧ (e = 'e' ∨ e = 'E') ∧
    (sg = [] ∨ sg = ['+'] ∨ sg = ['-']) ∧ IsDigits ds

/-- The rule `number = [ minus ] int [ frac ] [ exp ]`. -/
def IsNumber (t : List Char) : Prop :=
  ∃ m i f e, t = m ++ i ++ f ++ e ∧ (m = [] ∨ m = ['-']) ∧ IsInt i ∧
    (f = [] ∨ IsFrac f) ∧ (e = [] ∨ IsExp e)

/-- The rule `HEXDIG`, in either case. -/
def IsHex (c : Char) : Prop :=
  ('0' ≤ c ∧ c ≤ '9') ∨ ('a' ≤ c ∧ c ≤ 'f') ∨ ('A' ≤ c ∧ c ≤ 'F')

/-- The rule `*char`: unescaped characters from U+0020 on other than the quotation mark and
the backslash, two-character escapes, and `\u` followed by four hexadecimal digits. -/
inductive IsChars : List Char → Prop
  | nil : IsChars []
  | unescaped (c : Char) (cs : List Char) :
      0x20 ≤ c.toNat → c ≠ '"' → c ≠ '\\' → IsChars cs → IsChars (c :: cs)
  | escape (e : Char) (cs : List Char) :
      e = '"' ∨ e = '\\' ∨ e = '/' ∨ e = 'b' ∨ e = 'f' ∨ e = 'n' ∨ e = 'r' ∨ e = 't' →
      IsChars cs → IsChars ('\\' :: e :: cs)
  | unicode (h1 h2 h3 h4 : Char) (cs : List Char) :
      IsHex h1 → IsHex h2 → IsHex h3 → IsHex h4 → IsChars cs →
      IsChars ('\\' :: 'u' :: h1 :: h2 :: h3 :: h4 :: cs)

mutual
/-- The rule `value = false / null / true / object / array / number / string`, with
`array = begin-array [ value *( value-separator value ) ] end-array` and
`object = begin-object [ member *( value-separator member ) ] end-object`, together with the
value a text denotes: `IsValue v t` says that `t` is a text of the rule and stands for `v`. -/
inductive IsValue : json.Value → List Char → Prop
  | false : IsValue (.bool false) ['f', 'a', 'l', 's', 'e']
  | null : IsValue .null ['n', 'u', 'l', 'l']
  | true : IsValue (.bool true) ['t', 'r', 'u', 'e']
  | number (t : List Char) : IsNumber t → IsValue (.number ⟨t⟩) t
  | string (cs : List Char) : IsChars cs →
      IsValue (.string ⟨json.unquote cs⟩) ('"' :: (cs ++ ['"']))
  | emptyArray (w : List Char) : IsWS w → IsValue (.array []) ('[' :: (w ++ [']']))
  | array (vs : List json.Value) (t : List Char) : IsElements vs t →
      IsValue (.array vs) ('[' :: (t ++ [']']))
  | emptyObject (w : List Char) : IsWS w → IsValue (.object []) ('{' :: (w ++ ['}']))
  | object (ms : List (String × json.Value)) (t : List Char) : IsMembers ms t →
      IsValue (.object ms) ('{' :: (t ++ ['}']))
/-- One or more values separated by commas, each with optional whitespace around it. -/
inductive IsElements : List json.Value → List Char → Prop
  | one (v : json.Value) (w1 t w2 : List Char) : IsWS w1 → IsValue v t → IsWS w2 →
      IsElements [v] (w1 ++ t ++ w2)
  | cons (v : json.Value) (vs : List json.Value) (w1 t w2 r : List Char) : IsWS w1 →
      IsValue v t → IsWS w2 → IsElements vs r → IsElements (v :: vs) (w1 ++ t ++ w2 ++ ',' :: r)
/-- One or more members `string : value` separated by commas, with optional whitespace around
the key and the value. -/
inductive IsMembers : List (String × json.Value) → List Char → Prop
  | one (v : json.Value) (w1 k w2 w3 t w4 : List Char) : IsWS w1 → IsChars k → IsWS w2 →
      IsWS w3 → IsValue v t → IsWS w4 →
      IsMembers [(⟨json.unquote k⟩, v)]
        (w1 ++ '"' :: (k ++ ['"']) ++ w2 ++ ':' :: (w3 ++ t ++ w4))
  | cons (v : json.Value) (ms : List (String × json.Value)) (w1 k w2 w3 t w4 r : List Char) :
      IsWS w1 → IsChars k → IsWS w2 → IsWS w3 → IsValue v t → IsWS w4 → IsMembers ms r →
      IsMembers ((⟨json.unquote k⟩, v) :: ms)
        (w1 ++ '"' :: (k ++ ['"']) ++ w2 ++ ':' :: (w3 ++ t ++ w4) ++ ',' :: r)
end

/-- The rule `JSON-text = ws value ws`, together with the value the text denotes. -/
def IsJSONTextOf (v : json.Value) (s : List Char) : Prop :=
  ∃ w1 t w2, s = w1 ++ t ++ w2 ∧ IsWS w1 ∧ IsValue v t ∧ IsWS w2

/-- A syntactically valid JSON text. -/
def IsJSONText (s : List Char) : Prop :=
  ∃ v, IsJSONTextOf v s

/-- The values in which arrays and objects are nested at most `n` deep. -/
inductive NestedWithin : Nat → json.Value → Prop
  | null (n : Nat) : NestedWithin n .null
  | bool (n : Nat) (b : Bool) : NestedWithin n (.bool b)
  | number (n : Nat) (lit : String) : NestedWithin n (.number lit)
  | string (n : Nat) (s : String) : NestedWithin n (.string s)
  | array (n : Nat) (vs : List json.Value) : (∀ v, v ∈ vs → NestedWithin n v) →
      NestedWithin (n + 1) (.array vs)
  | object (n : Nat) (ms : List (String × json.Value)) :
      (∀ kv, kv ∈ ms → NestedWithin n kv.2) → NestedWithin (n + 1) (.object ms)

end grammar

namespace json

open grammar in
/-- What the scanner accepts, at every fuel: a value, a run of elements up to the closing
bracket, a run of members up to the closing brace, each followed by the input returned. -/
def ScanSound (fuel : Nat) : Prop :=
  (∀ d s v r, scanValue fuel d s = some (v, r) → ∃ t, s = t ++ r ∧ IsValue v t) ∧
  (∀ d s vs r, scanElements fuel d s = some (vs, r) →
    ∃ t, s = t ++ ']' :: r ∧ IsElements vs t) ∧
  (∀ d s ms r, scanMembers fuel d s = some (ms, r) →
    ∃ t, s = t ++ '}' :: r ∧ IsMembers ms t)

/-- The input after a number does not continue it: it is empty or starts with a character
that is not a digit, a decimal point or an exponent mark. -/
def Delimited (rest : List Char) : Prop :=
  ∀ c r, rest = c :: r → isDigit c = false ∧ c ≠ '.' ∧ c ≠ 'e' ∧ c ≠ 'E'

open grammar in
/-- The scanner accepts the text of a value of length up to `n`, nested within what is left
of the depth limit and scanned with enough fuel, whatever follows that does not continue a
number. -/
def ValueComplete (n : Nat) : Prop :=
  ∀ v t, t.length ≤ n → IsValue v t → ∀ k d fuel rest, NestedWithin k v →
    d + k ≤ maxNestingDepth → 2 * t.length < fuel → Delimited rest →
    scanValue fuel d (t ++ rest) = some (v, rest)

open grammar in
/-- The scanner accepts the text of a run of elements of length up to `n` followed by the
closing bracket. -/
def ElementsComplete (n : Nat) : Prop :=
  ∀ vs t, t.length ≤ n → IsElements vs t → ∀ k d fuel rest,
    (∀ v, v ∈ vs → NestedWithin k v) → d + k ≤ maxNestingDepth → 2 * t.length + 1 < fuel →
    scanElements fuel d (t ++ ']' :: rest) = some (vs, rest)

open grammar in
/-- The scanner accepts the text of a run of members of length up to `n` followed by the
closing brace. -/
def MembersComplete (n : Nat) : Prop :=
  ∀ ms t, t.length ≤ n → IsMembers ms t → ∀ k d fuel rest,
    (∀ kv, kv ∈ ms → NestedWithin k kv.2) → d + k ≤ maxNestingDepth →
    2 * t.length + 1 < fuel → scanMembers fuel d (t ++ '}' :: rest) = some (ms, rest)

open grammar in
/-- The scanner on the text of a value of length up to `n`: whatever the fuel and the depth,
it fails or it yields the value the text denotes and the input that follows. -/
def ValueAgrees (n : Nat) : Prop :=
  ∀ v t, t.length ≤ n → IsValue v t → ∀ fuel d rest, Delimited rest →
    scanValue fuel d (t ++ rest) = none ∨ scanValue fuel d (t ++ rest) = some (v, rest)

open grammar in
/-- The scanner on the text of a run of elements of length up to `n` followed by the closing
bracket: it fails or it yields the values the text denotes. -/
def ElementsAgree (n : Nat) : Prop :=
  ∀ vs t, t.length ≤ n → IsElements vs t → ∀ fuel d rest,
    scanElements fuel d (t ++ ']' :: rest) = none ∨
    scanElements fuel d (t ++ ']' :: rest) = some (vs, rest)

open grammar in
/-- The scanner on the text of a run of members of length up to `n` followed by the closing
brace: it fails or it yields the members the text denotes. -/
def MembersAgree (n : Nat) : Prop :=
  ∀ ms t, t.length ≤ n → IsMembers ms t → ∀ fuel d rest,
    scanMembers fuel d (t ++ '}' :: rest) = none ∨
    scanMembers fuel d (t ++ '}' :: rest) = some (ms, rest)

open grammar in
/-- What the scanner yields, at every fuel, is nested within what was left of the depth
limit. -/
def ScanNested (fuel : Nat) : Prop :=
  (∀ d s v r, scanValue fuel d s = some (v, r) → NestedWithin (maxNestingDepth - d) v) ∧
  (∀ d s vs r, scanElements fuel d s = some (vs, r) →
    ∀ v, v ∈ vs → NestedWithin (maxNestingDepth - d) v) ∧
  (∀ d s ms r, scanMembers fuel d s = some (ms, r) →
    ∀ kv, kv ∈ ms → NestedWithin (maxNestingDepth - d) kv.2)

end json

/-! ## The error `ParseJSONOutput` returns -/

/-- Go `fmt.Sprintf(format, arg)` for a format whose only verb takes the operand: the text of
the operand stands in the place of the first verb (`%` and the character after it); `%%`
writes a percent sign, a `%` that ends the format has no verb. -/
def formatVerb : List Char → List Char → List Char
  | [], _ => []
  | c :: rest, arg =>
    if c = '%' then
      match rest with
      | [] => "%!(NOVERB)".data
      | v :: rest1 =>
        if v = '%' then '%' :: formatVerb rest1 arg
        else arg ++ rest1
    else c :: formatVerb rest arg

/-- The method `Error` of the error `fmt.Errorf` builds: the message, which is the format
with the verb `%w` replaced by the message of the wrapped error.  The messages of the errors
of `encoding/json` are not modelled: `errorText` is their method `Error`. -/
def wrapError.Error (w : wrapError) (errorText : json.Error → String) : String :=
  ⟨formatVerb w.format.data (errorText w.err).data⟩

/-- The method `Unwrap` of the error `fmt.Errorf` builds: the error it wraps. -/
def wrapError.Unwrap (w : wrapError) : json.Error :=
  w.err

namespace json

/-! ## Texts nested deeper than the scanner allows -/

/-- The value of `k + 1` nested arrays, the innermost one empty. -/
def nestedArray : Nat → Value
  | 0 => .array []
  | k + 1 => .array [nestedArray k]

/-- The text of `nestedArray k`: `k + 1` opening brackets, then as many closing ones. -/
def nestedArrayText (k : Nat) : List Char :=
  List.replicate (k + 1) '[' ++ List.replicate (k + 1) ']'

end json

namespace strconv

/-! ## `strconv.FormatFloat` for the shortest precision -/

/-- The decimal digits of `n` in front of `acc`, most significant first, none for zero; the
fuel bounds their number. -/
def digitsAux : Nat → Nat → List Char → List Char
  | 0, _, acc => acc
  | fuel + 1, n, acc =>
    if n = 0 then acc else digitsAux fuel (n / 10) (Char.ofNat ('0'.toNat + n % 10) :: acc)

/-- The decimal digits of `n`, most significant first, none for zero. -/
def natDigits (n : Nat) : List Char :=
  digitsAux n n []

/-- The function `trim`: the digits without their trailing zeros. -/
def trim (d : List Char) : List Char :=
  (d.reverse.dropWhile fun c => c = '0').reverse

/-- The type `decimalSlice`: the digits `d` and the position `dp` of the decimal point, for
the number `0.d * 10 ^ dp`; the count `nd` of the digits is the length of `d`. -/
structure decimalSlice where
  d : List Char
  dp : Int
deriving DecidableEq, Repr

/-- One step of the walk of `roundShortest` along the digits, at the digit of weight
`10 ^ p`.  The numbers `lower`, `d` and `upper` are held as integers of one common unit, so
that the digits of `d` down to this one are `a = d / 10 ^ p`: rounding down gives `a`,
rounding up `a + 1`.  Rounding down is allowed (`okdown`) when the result stays above `lower`,
or equals it and the bounds are inclusive; rounding up (`okup`) when it stays below `upper`,
or equals it and the bounds are inclusive.  When both are allowed the digits are rounded to
the nearest (`Round`: up from the half on, an exact half to the even digit); the result is
`none` when neither is, and the walk goes on to the next digit. -/
def roundAt (lower d upper : Nat) (inclusive : Bool) (p : Nat) : Option Nat :=
  let t := 10 ^ p
  let a := d / t
  let okdown := decide (lower < a * t) || (inclusive && decide (lower = a * t))
  let okup := decide ((a + 1) * t < upper) || (inclusive && decide ((a + 1) * t = upper))
  if okdown && okup then
    if decide (t < 2 * (d % t)) || (decide (2 * (d % t) = t) && decide (a % 2 = 1)) then
      some (a + 1)
    else some a
  else if okdown then some a
  else if okup then some (a + 1)
  else none

/-- The walk of `roundShortest` from the digit of weight `10 ^ p` down: the digits kept, as
a number, and the weight of the last of them.  Past the last digit `d` is left as it is. -/
def walk (lower d upper : Nat) (inclusive : Bool) : Nat → Nat × Nat
  | 0 =>
    match roundAt lower d upper inclusive 0 with
    | some c => (c, 0)
    | none => (d, 0)
  | p + 1 =>
    match roundAt lower d upper inclusive (p + 1) with
    | some c => (c, p + 1)
    | none => walk lower d upper inclusive p

/-- The function `roundShortest`, for `mant` not zero: the shortest digits that let the
float `mant * 2 ^ (exp - 52)` be reconstructed, `exp` being its exponent without the bias.
The bounds are halfway to the next float above, `(2 * mant + 1) * 2 ^ (exp - 53)`, and to the
next float below, which is nearer by half when `mant` is the least of its binade and `exp` is
not the least exponent; they are inclusive when `mant` is even.  The three numbers are held
exactly, in units of `2 ^ (exp - 54)` written as a decimal fraction of `s` places, and the
walk starts at the first digit of `upper`. -/
def roundShortest (mant : Nat) (exp : Int) : decimalSlice :=
  let e := exp - 54
  let s := (-e).toNat
  let unit := 2 ^ e.toNat * 5 ^ s
  let upper := (4 * mant + 2) * unit
  let lower := (if 2 ^ 52 < mant ∨ exp = -1022 then 4 * mant - 2 else 4 * mant - 1) * unit
  let r := walk lower (4 * mant * unit) upper (decide (mant % 2 = 0)) (natDigits upper).length
  ⟨trim (natDigits r.1), ((natDigits r.1).length : Int) + (r.2 : Int) - (s : Int)⟩

/-- The digit `byte(n) + '0'`, for `n` below ten. -/
def digitByte (n : Nat) : Char :=
  Char.ofNat ('0'.toNat + n)

/-- The function `fmtE`, format `%e`: `-d.ddddde±dd`, the exponent with two digits at least
(the exponent of a `float64` has three at most). -/
def fmtE (neg : Bool) (d : decimalSlice) (prec : Nat) : List Char :=
  let nd := d.d.length
  let m := min nd (prec + 1)
  let exp : Int := if nd = 0 then 0 else d.dp - 1
  (if neg then ['-'] else []) ++
    (match d.d with
      | [] => '0'
      | c :: _ => c) ::
    ((if 0 < prec then
        '.' :: ((d.d.take m).drop 1 ++ List.replicate (prec + 1 - max m 1) '0')
      else []) ++
    'e' :: (if exp < 0 then '-' else '+') ::
      (if exp.natAbs < 10 then ['0', digitByte exp.natAbs]
        else if exp.natAbs < 100 then [digitByte (exp.natAbs / 10), digitByte (exp.natAbs % 10)]
        else [digitByte (exp.natAbs / 100), digitByte (exp.natAbs / 10 % 10),
          digitByte (exp.natAbs % 10)]))

/-- The function `fmtF`, format `%f`: `-ddddddd.ddddd`, the integer part padded with zeros
up to the decimal point, and `prec` digits after it. -/
def fmtF (neg : Bool) (d : decimalSlice) (prec : Nat) : List Char :=
  let nd := d.d.length
  (if neg then ['-'] else []) ++
    (if 0 < d.dp then
        d.d.take (min nd d.dp.toNat) ++ List.replicate (d.dp.toNat - min nd d.dp.toNat) '0'
      else ['0']) ++
    (if 0 < prec then
        '.' :: (List.range prec).map fun (i : Nat) =>
          if 0 ≤ d.dp + (i : Int) ∧ d.dp + (i : Int) < (nd : Int)
          then d.d.getD (d.dp + (i : Int)).toNat '0' else '0'
      else [])

/-- Go `strconv.FormatFloat(f, fmt, -1, 64)` for `fmt` one of `'e'` and `'f'`: the shortest
digits that `ParseFloat` maps back to `f`, in the format asked.  The digits are those of
`roundShortest`, the general path of the function (`bigFtoa`); the library takes them from
`ryuFtoaShortest`, which computes the same digits by other means. -/
def FormatFloat (f : Float64) (fmt : Char) : List Char :=
  if f.exp = 2047 then
    if f.frac ≠ 0 then "NaN".data else if f.sign then "-Inf".data else "+Inf".data
  else
    let mant := if f.exp = 0 then f.frac else 2 ^ 52 + f.frac
    let exp : Int := (if f.exp = 0 then 1 else (f.exp : Int)) - 1023
    let digs : decimalSlice := if mant = 0 then ⟨[], 0⟩ else roundShortest mant exp
    if fmt = 'e' then fmtE f.sign digs (digs.d.length - 1)
    else fmtF f.sign digs ((digs.d.length : Int) - digs.dp).toNat

end strconv

namespace json

/-! ## The encoder of `encoding/json`, for the type `TEvent` -/

/-- The table `hex` of the encoder. -/
def hex : List Char := "0123456789abcdef".data

/-- The table `htmlSafeSet`: the ASCII characters the encoder writes as they are, which are
those from the space on other than the quotation mark, the backslash, `<`, `>` and `&`. -/
def htmlSafe (c : Char) : Bool :=
  decide (0x20 ≤ c.toNat) && decide (c.toNat < 0x80) &&
    !(c = '"' || c = '\\' || c = '<' || c = '>' || c = '&')

/-- What `appendString` writes for one character of a valid UTF-8 string, with HTML
escaping as `Marshal` has it: a two-character escape for the quotation mark, the backslash
and the control characters that have one, `\u00XX` for the other ASCII characters outside
`htmlSafeSet`, `\u2028` and `\u2029` for the line and paragraph separators, the character
itself otherwise. -/
def appendChar (c : Char) : List Char :=
  if c.toNat < 0x80 then
    if htmlSafe c then [c]
    else if c = '\\' ∨ c = '"' then ['\\', c]
    else if c = '\x08' then ['\\', 'b']
    else if c = '\x0c' then ['\\', 'f']
    else if c = '\n' then ['\\', 'n']
    else if c = '\r' then ['\\', 'r']
    else if c = '\t' then ['\\', 't']
    else ['\\', 'u', '0', '0', hex.getD (c.toNat / 16) '0', hex.getD (c.toNat % 16) '0']
  else if c.toNat = 0x2028 ∨ c.toNat = 0x2029 then
    ['\\', 'u', '2', '0', '2', hex.getD (c.toNat % 16) '0']
  else [c]

/-- The function `appendString`: a string as a JSON string literal. -/
def appendString (s : String) : List Char :=
  '"' :: (s.data.flatMap appendChar ++ ['"'])

/-- The comparison `abs < bound` of the encoder, for a finite `f` and a positive finite
`bound`: the magnitudes of two finite floats compare as their exponent and fraction fields
do. -/
def absLess (f bound : Float64) : Bool :=
  decide (f.exp < bound.exp) || (decide (f.exp = bound.exp) && decide (f.frac < bound.frac))

/-- The exponent `e-09` of the format `%e` cleaned up to `e-9`, as the encoder does: a zero
that follows the sign of the exponent and is followed by one more digit is dropped. -/
def cleanExponent (b : List Char) : List Char :=
  match b.reverse with
  | x :: z :: sg :: e :: rest =>
    if e = 'e' ∧ (sg = '-' ∨ sg = '+') ∧ z = '0' then (x :: sg :: e :: rest).reverse else b
  | _ => b

/-- The encoder of a `float64` (`floatEncoder.encode`): no text for an infinity or a NaN,
which `Marshal` refuses with an `UnsupportedValueError`; else the shortest digits, in the
format `%e` when the magnitude is not zero and is below `1e-6` or not below `1e21`, in the
format `%f` otherwise. -/
def floatEncoder (f : Float64) : Option (List Char) :=
  if 2047 ≤ f.exp then none
  else if (f.exp ≠ 0 ∨ f.frac ≠ 0) ∧
      (absLess f ⟨false, 1003, 218766855499149⟩ = true ∨
        absLess f ⟨false, 1092, 3125794903879504⟩ = false) then
    some (cleanExponent (strconv.FormatFloat f 'e'))
  else some (strconv.FormatFloat f 'f')

/-- The object the encoder of the struct writes for `v`, given the text `elapsed` written for
its field `Elapsed`: the four fields in the order of their declaration, without
whitespace. -/
def appendEvent (v : TEvent) (elapsed : List Char) : String :=
  ⟨"\x7b\"Action\":".data ++ appendString v.Action ++ ",\"Package\":".data ++
    appendString v.Package ++ ",\"Test\":".data ++ appendString v.Test ++
    ",\"Elapsed\":".data ++ elapsed ++ "\x7d".data⟩

/-- Go `json.Marshal(v)` for `v` of type `TEvent`: the JSON text, or `none` for the error
returned when `Elapsed` is an infinity or a NaN. -/
def Marshal (v : TEvent) : Option String :=
  (floatEncoder v.Elapsed).map (appendEvent v)

end json

/-! ## Properties of the formatter -/

namespace strings

theorem splitChars_ne_nil (sep : Char) (s : List Char) : splitChars sep s ≠ [] := by
  cases s with
  | nil => simp [splitChars]
  | cons c cs =>
    unfold splitChars
    split
    · simp
    · split <;> simp

/-- A list without separator is its own single piece. -/
theorem splitChars_of_not_mem (sep : Char) (s : List Char) (h : sep ∉ s) :
    splitChars sep s = [s] := by
  induction s with
  | nil => rfl
  | cons c cs ih =>
    have hc : c ≠ sep := fun e => h (by simp [e])
    have hcs : sep ∉ cs := fun e => h (by simp [e])
    simp [splitChars, hc, ih hcs]

/-- Splitting cuts at the first separator: the first piece is the text before it. -/
theorem splitChars_append (sep : Char) (p r : List Char) (h : sep ∉ p) :
    splitChars sep (p ++ sep :: r) = p :: splitChars sep r := by
  induction p with
  | nil => simp [splitChars]
  | cons c cs ih =>
    have hc : c ≠ sep := fun e => h (by simp [e])
    have hcs : sep ∉ cs := fun e => h (by simp [e])
    simp [splitChars, hc, ih hcs]

/-- Splitting commutes with a character map that neither makes nor removes a separator. -/
theorem splitChars_map (sep : Char) (f : Char → Char) (hf : ∀ c, f c = sep ↔ c = sep)
    (s : List Char) : splitChars sep (s.map f) = (splitChars sep s).map (List.map f) := by
  induction s with
  | nil => rfl
  | cons c cs ih =>
    by_cases hc : c = sep
    · have hfc : f c = sep := (hf c).2 hc
      simp [splitChars, hc, hfc, ih, (hf sep).2 rfl]
    · have hfc : f c ≠ sep := fun e => hc ((hf c).1 e)
      simp only [List.map_cons, splitChars, if_neg hc, if_neg hfc, ih]
      cases h : splitChars sep cs with
      | nil => exact absurd h (splitChars_ne_nil sep cs)
      | cons seg segs => simp

theorem ReplaceAll_data (s : String) (old new : Char) :
    (ReplaceAll s old new).data = s.data.map fun c => if c = old then new else c := rfl

theorem not_mem_map_replace (sep old new : Char) (s : List Char) (hn : new ≠ sep)
    (h : sep ∉ s) : sep ∉ s.map fun c => if c = old then new else c := by
  intro hm
  rcases List.mem_map.1 hm with ⟨c, hc, e⟩
  by_cases hco : c = old
  · simp [hco] at e; exact hn e
  · simp [hco] at e; exact h (e ▸ hc)

theorem Contains_eq_true (s : String) (c : Char) : Contains s c = true ↔ c ∈ s.data := by
  unfold Contains
  rw [List.any_eq_true]
  constructor
  · rintro ⟨x, hx, e⟩
    have : x = c := of_decide_eq_true e
    exact this ▸ hx
  · intro h
    exact ⟨c, h, decide_eq_true rfl⟩

end strings

/-- The display name `String` derives from a test name: `none` when the index is out of range. -/
theorem String_eq_of_name (tEvt : TEvent) (name : String)
    (h : (if strings.Contains (strings.ReplaceAll tEvt.Test '_' ' ') '/'
          then (strings.Split (strings.ReplaceAll tEvt.Test '_' ' ') '/')[1]?
          else some (strings.ReplaceAll tEvt.Test '_' ' ')) = some name) :
    tEvt.String =
      some ((if tEvt.Action = "pass" then "\x1b[32m✓ " else "\x1b[31m✗ ") ++ name ++ "\x1b[0m") := by
  dsimp only [TEvent.String]
  rw [h]
  dsimp only [TEvent.isPassed, Sprintf]
  by_cases hp : tEvt.Action = "pass"
  · rw [if_pos hp, if_pos (decide_eq_true hp)]
  · rw [if_neg hp, if_neg (by simpa using hp)]

/-- A name without `/` is displayed whole, underscores replaced. -/
theorem name_of_no_slash (t : String) (h : '/' ∉ t.data) :
    (if strings.Contains (strings.ReplaceAll t '_' ' ') '/'
     then (strings.Split (strings.ReplaceAll t '_' ' ') '/')[1]?
     else some (strings.ReplaceAll t '_' ' ')) = some (strings.ReplaceAll t '_' ' ') := by
  have hn : ¬ (strings.Contains (strings.ReplaceAll t '_' ' ') '/' = true) := by
    rw [strings.Contains_eq_true, strings.ReplaceAll_data]
    exact strings.not_mem_map_replace '/' '_' ' ' t.data (by decide) h
  simp [hn]

/-- A name whose second piece exists is displayed as that piece, underscores replaced. -/
theorem name_of_slash (t : String) (p c : List Char) (r : List (List Char))
    (ht : strings.splitChars '/' t.data = p :: c :: r) (hs : '/' ∈ t.data) :
    (if strings.Contains (strings.ReplaceAll t '_' ' ') '/'
     then (strings.Split (strings.ReplaceAll t '_' ' ') '/')[1]?
     else some (strings.ReplaceAll t '_' ' ')) =
      some (strings.ReplaceAll ⟨c⟩ '_' ' ') := by
  have hf : ∀ x : Char, (if x = '_' then ' ' else x) = '/' ↔ x = '/' := by
    intro x
    by_cases hx : x = '_'
    · subst hx; simp
    · simp [hx]
  have hy : strings.Contains (strings.ReplaceAll t '_' ' ') '/' = true := by
    rw [strings.Contains_eq_true, strings.ReplaceAll_data]
    exact List.mem_map.2 ⟨'/', hs, by decide⟩
  rw [if_pos hy]
  unfold strings.Split
  rw [strings.ReplaceAll_data, strings.splitChars_map '/' _ hf, ht]
  simp [strings.ReplaceAll]

/-- C1 (as the code has it): when the test name has two or more `/`, that is, it reads
`p/c/r` with no `/` in `p` and in `c`, the display name inside the string returned by
`TEvent.String` is `c`, the text between the first and the second `/`, with underscores replaced
by spaces; the second `/` and the text `r` after it are dropped. -/
theorem String_two_separators (tEvt : TEvent) (p c r : String)
    (hT : tEvt.Test = p ++ "/" ++ c ++ "/" ++ r)
    (hp : '/' ∉ p.data) (hc : '/' ∉ c.data) :
    tEvt.String =
      some ((if tEvt.Action = "pass" then "\x1b[32m✓ " else "\x1b[31m✗ ") ++
        strings.ReplaceAll c '_' ' ' ++ "\x1b[0m") := by
  apply String_eq_of_name
  have hd : tEvt.Test.data = p.data ++ '/' :: (c.data ++ '/' :: r.data) := by
    rw [hT]; simp [String.data_append]
  apply name_of_slash tEvt.Test p.data c.data (strings.splitChars '/' r.data)
  · rw [hd, strings.splitChars_append '/' _ _ hp, strings.splitChars_append '/' _ _ hc]
  · rw [hd]; simp

/-- Witness of C1 as amended: `A_x/B_y/C/D` is displayed as `B y`. -/
theorem String_two_separators_witness :
    TEvent.String ⟨"pass", "pkg", "A_x/B_y/C/D", Float64.zero⟩ = some "\x1b[32m✓ B y\x1b[0m" :=
  (String_two_separators ⟨"pass", "pkg", "A_x/B_y/C/D", Float64.zero⟩ "A_x" "B_y" "C/D"
    (by decide) (by decide) (by decide)).trans (by decide)

/-- C1 is false as stated: the test name `A/B/C` has two `/`, and the string returned for it
displays `B`, not `B/C`. -/
theorem String_two_separators_counterexample :
    TEvent.String ⟨"pass", "", "A/B/C", Float64.zero⟩ = some "\x1b[32m✓ B\x1b[0m" ∧
    TEvent.String ⟨"pass", "", "A/B/C", Float64.zero⟩ ≠ some "\x1b[32m✓ B/C\x1b[0m" := by
  decide

/-- C2: for an event whose action is `pass` or `fail` and whose test name is `parent/child`
with exactly one `/`, `TEvent.String` returns the colour and glyph of the action (green check
mark for `pass`, red cross for `fail`) followed by `child` with every underscore replaced by a
space; the parent and the `/` are dropped. -/
theorem String_subtest (tEvt : TEvent) (parent child : String)
    (hA : tEvt.Action = "pass" ∨ tEvt.Action = "fail")
    (hT : tEvt.Test = parent ++ "/" ++ child)
    (hp : '/' ∉ parent.data) (hc : '/' ∉ child.data) :
    (tEvt.Action = "pass" ∧
      tEvt.String = some ("\x1b[32m✓ " ++ strings.ReplaceAll child '_' ' ' ++ "\x1b[0m")) ∨
    (tEvt.Action = "fail" ∧
      tEvt.String = some ("\x1b[31m✗ " ++ strings.ReplaceAll child '_' ' ' ++ "\x1b[0m")) := by
  have hd : tEvt.Test.data = parent.data ++ '/' :: child.data := by
    rw [hT]; simp [String.data_append]
  have hname := name_of_slash tEvt.Test parent.data child.data []
    (by rw [hd, strings.splitChars_append '/' _ _ hp, strings.splitChars_of_not_mem '/' _ hc])
    (by rw [hd]; simp)
  have hs := String_eq_of_name tEvt _ hname
  rcases hA with h | h
  · exact Or.inl ⟨h, by rw [hs, if_pos h]⟩
  · have hn : ¬ tEvt.Action = "pass" := by rw [h]; decide
    exact Or.inr ⟨h, by rw [hs, if_neg hn]⟩

/-- Witness of C2: `Parent_Test/Child_Case`, failed, is displayed as `Child Case` in red. -/
theorem String_subtest_witness :
    TEvent.String ⟨"fail", "pkg", "Parent_Test/Child_Case", Float64.zero⟩ =
      some "\x1b[31m✗ Child Case\x1b[0m" :=
  (String_subtest ⟨"fail", "pkg", "Parent_Test/Child_Case", Float64.zero⟩ "Parent_Test"
    "Child_Case" (by decide) (by decide) (by decide) (by decide)).elim
    (fun h => absurd h.1 (by decide)) (fun h => h.2.trans (by decide))

/-- C3: for an event whose action is exactly `pass` and whose test name has no `/`,
`TEvent.String` returns ESC `[32m`, the check mark, one space, the test name with every
underscore replaced by a space, and ESC `[0m`. -/
theorem String_pass (tEvt : TEvent) (hA : tEvt.Action = "pass") (hT : '/' ∉ tEvt.Test.data) :
    tEvt.String =
      some ("\x1b[32m✓ " ++ strings.ReplaceAll tEvt.Test '_' ' ' ++ "\x1b[0m") := by
  rw [String_eq_of_name tEvt _ (name_of_no_slash tEvt.Test hT), if_pos hA]

/-- Witness of C3: the first sample of `TestTEventString`. -/
theorem String_pass_witness :
    TEvent.String ⟨"pass", "", "A_sample_test", Float64.zero⟩ =
      some "\x1b[32m✓ A sample test\x1b[0m" :=
  (String_pass ⟨"pass", "", "A_sample_test", Float64.zero⟩ (by decide) (by decide)).trans
    (by decide)

/-- C4: for an event whose action is exactly `fail` and whose test name has no `/`,
`TEvent.String` returns ESC `[31m`, the cross, one space, the test name with every underscore
replaced by a space, and ESC `[0m`. -/
theorem String_fail (tEvt : TEvent) (hA : tEvt.Action = "fail") (hT : '/' ∉ tEvt.Test.data) :
    tEvt.String =
      some ("\x1b[31m✗ " ++ strings.ReplaceAll tEvt.Test '_' ' ' ++ "\x1b[0m") := by
  have hn : ¬ tEvt.Action = "pass" := by rw [hA]; decide
  rw [String_eq_of_name tEvt _ (name_of_no_slash tEvt.Test hT), if_neg hn]

/-- Witness of C4: the third sample of `TestTEventString`. -/
theorem String_fail_witness :
    TEvent.String ⟨"fail", "", "A_sample_test", Float64.zero⟩ =
      some "\x1b[31m✗ A sample test\x1b[0m" :=
  (String_fail ⟨"fail", "", "A_sample_test", Float64.zero⟩ (by decide) (by decide)).trans
    (by decide)

/-- C5: `TEvent.IsRelevant` is true exactly when the action is `pass` or `fail` and the test
name is not empty, whatever the package and the elapsed time. -/
theorem IsRelevant_iff (tEvt : TEvent) :
    tEvt.IsRelevant = true ↔
      (tEvt.Action = "pass" ∨ tEvt.Action = "fail") ∧ tEvt.Test ≠ "" := by
  simp [TEvent.IsRelevant]

/-! ## Properties of the decoder -/

namespace json

theorem saveError_savedError_ne_none (d : decodeState) (err : Error) :
    (saveError d err).savedError ≠ none := by
  unfold saveError
  cases h : d.savedError with
  | none => simp
  | some e => simp [h]

theorem saveError_event (d : decodeState) (err : Error) : (saveError d err).event = d.event := by
  unfold saveError
  cases h : d.savedError <;> rfl

theorem saveError_of_some (d : decodeState) (err e : Error) (h : d.savedError = some e) :
    saveError d err = d := by
  unfold saveError
  rw [h]

/-- Storing a value never clears a saved error. -/
theorem storeValue_savedError_ne_none (d : decodeState) (f : Field) (v : Value)
    (h : d.savedError ≠ none) : (storeValue d f v).savedError ≠ none := by
  cases v with
  | null => exact h
  | bool b => exact saveError_savedError_ne_none _ _
  | array xs => exact saveError_savedError_ne_none _ _
  | object ms => exact saveError_savedError_ne_none _ _
  | number lit =>
    cases f <;> simp only [storeValue, storeNumber] <;>
      first
      | exact saveError_savedError_ne_none _ _
      | (split
         · exact h
         · exact saveError_savedError_ne_none _ _)
  | string s =>
    cases f <;> simp only [storeValue, storeString] <;>
      first
      | exact h
      | exact saveError_savedError_ne_none _ _

/-- Decoding further members never clears a saved error. -/
theorem decodeMembers_savedError_ne_none (ms : List (String × Value)) (d : decodeState)
    (h : d.savedError ≠ none) : (decodeMembers d ms).savedError ≠ none := by
  induction ms generalizing d with
  | nil => exact h
  | cons kv ms ih =>
    obtain ⟨key, v⟩ := kv
    unfold decodeMembers
    split
    · exact ih _ (storeValue_savedError_ne_none d _ v h)
    · exact ih _ h

theorem storeValue_mismatch (d : decodeState) (f : Field) (v : Value) (h : Mismatch f v) :
    (storeValue d f v).savedError ≠ none := by
  cases f <;> cases v <;> simp only [Mismatch] at h <;>
    exact saveError_savedError_ne_none _ _

/-- A member of the wrong type for the field its key selects makes the decoding fail. -/
theorem decodeMembers_mismatch (ms : List (String × Value)) (d : decodeState)
    (key : String) (v : Value) (f : Field) (hm : (key, v) ∈ ms)
    (hf : findField key = some f) (hv : Mismatch f v) :
    (decodeMembers d ms).savedError ≠ none := by
  induction ms generalizing d with
  | nil => simp at hm
  | cons kv ms ih =>
    obtain ⟨key1, v1⟩ := kv
    rcases List.mem_cons.1 hm with e | hm1
    · have e1 : key1 = key := (Prod.mk.inj e).1.symm
      have e2 : v1 = v := (Prod.mk.inj e).2.symm
      subst e1; subst e2
      unfold decodeMembers
      rw [hf]
      exact decodeMembers_savedError_ne_none ms _ (storeValue_mismatch d f v1 hv)
    · unfold decodeMembers
      split
      · exact ih _ hm1
      · exact ih _ hm1

end json

theorem ParseJSONOutput_eq (data : String) :
    ParseJSONOutput data =
      ((json.Unmarshal data TEvent.zero).1,
       (json.Unmarshal data TEvent.zero).2.map (Errorf "failed to decode JSON. %w")) := by
  dsimp only [ParseJSONOutput]
  generalize json.Unmarshal data TEvent.zero = r
  rcases r with ⟨ev, _ | err⟩ <;> rfl

theorem ParseJSONOutput_of_scan (data : String) (v : json.Value)
    (h : json.scan data.data = some v) :
    ParseJSONOutput data =
      ((json.decodeValue ⟨TEvent.zero, none⟩ v).event,
       (json.decodeValue ⟨TEvent.zero, none⟩ v).savedError.map
         (Errorf "failed to decode JSON. %w")) := by
  rw [ParseJSONOutput_eq]
  unfold json.Unmarshal
  rw [h]

theorem ParseJSONOutput_of_scan_none (data : String) (h : json.scan data.data = none) :
    ParseJSONOutput data =
      (TEvent.zero, some (Errorf "failed to decode JSON. %w" json.Error.SyntaxError)) := by
  rw [ParseJSONOutput_eq]
  unfold json.Unmarshal
  rw [h]
  rfl

namespace json

/-- A key selects a field only if the two are equal up to case folding. -/
theorem foldName_of_findField (key : String) (f : Field) (h : findField key = some f) :
    foldName key = foldName f.name := by
  unfold findField at h
  split at h
  · rename_i g hg
    have hg1 := List.find?_some hg
    have : g = f := Option.some.inj h
    subst this
    rw [of_decide_eq_true hg1]
  · have hg1 := List.find?_some h
    exact (of_decide_eq_true hg1).symm

/-- The name of a field selects that field. -/
theorem findField_name (f : Field) : findField f.name = some f := by
  cases f <;> decide

/-- Storing into a field leaves the other fields as they are. -/
theorem storeValue_value_of_ne (d : decodeState) (f g : Field) (v : Value) (h : g ≠ f) :
    f.value (storeValue d g v).event = f.value d.event := by
  cases v with
  | null => rfl
  | bool b => simp only [storeValue, saveError_event]
  | array xs => simp only [storeValue, saveError_event]
  | object ms => simp only [storeValue, saveError_event]
  | number lit =>
    cases g <;> cases f <;> simp only [storeValue, storeNumber, saveError_event] <;>
      first
      | exact absurd rfl h
      | (split <;> first | rfl | simp only [saveError_event])
  | string s =>
    cases g <;> cases f <;> simp only [storeValue, storeString, saveError_event] <;>
      first
      | exact absurd rfl h
      | rfl

/-- A field no key selects keeps its value through the decoding of an object. -/
theorem decodeMembers_value_of_not_selected (f : Field) (ms : List (String × Value))
    (d : decodeState) (h : ∀ kv ∈ ms, findField kv.1 ≠ some f) :
    f.value (decodeMembers d ms).event = f.value d.event := by
  induction ms generalizing d with
  | nil => rfl
  | cons kv ms ih =>
    obtain ⟨key, v⟩ := kv
    have h1 : findField key ≠ some f := h (key, v) (List.mem_cons_self _ _)
    have h2 : ∀ kv ∈ ms, findField kv.1 ≠ some f := fun kv hkv =>
      h kv (List.mem_cons_of_mem _ hkv)
    unfold decodeMembers
    split
    · rename_i g hg
      rw [ih _ h2]
      exact storeValue_value_of_ne d f g v (fun e => h1 (by rw [hg, e]))
    · exact ih _ h2

/-- An object none of whose keys selects a field leaves the decoder as it is. -/
theorem decodeMembers_of_none_selected (ms : List (String × Value)) (d : decodeState)
    (h : ∀ kv ∈ ms, findField kv.1 = none) : decodeMembers d ms = d := by
  induction ms generalizing d with
  | nil => rfl
  | cons kv ms ih =>
    obtain ⟨key, v⟩ := kv
    have h1 : findField key = none := h (key, v) (List.mem_cons_self _ _)
    unfold decodeMembers
    rw [h1]
    exact ih _ fun kv hkv => h kv (List.mem_cons_of_mem _ hkv)

end json

namespace strconv

theorem bitLen_zero (fuel : Nat) : bitLen fuel 0 = 0 := by
  cases fuel <;> simp [bitLen]

/-- With enough halvings, `bitLen` is the length of the binary numeral. -/
theorem bitLen_spec (fuel : Nat) : ∀ n, n ≤ fuel →
    n < 2 ^ bitLen fuel n ∧ (0 < n → 2 ^ (bitLen fuel n - 1) ≤ n) := by
  induction fuel with
  | zero =>
    intro n hn
    have : n = 0 := Nat.le_zero.1 hn
    subst this
    simp [bitLen]
  | succ fuel ih =>
    intro n hn
    by_cases h0 : n = 0
    · subst h0
      simp [bitLen]
    · have h2 : n / 2 ≤ fuel := by omega
      obtain ⟨ih1, ih2⟩ := ih (n / 2) h2
      simp only [bitLen, h0, if_false, Nat.add_sub_cancel]
      constructor
      · rw [pow_succ]; omega
      · intro _
        by_cases h1 : n / 2 = 0
        · rw [h1, bitLen_zero]
          simp; omega
        · have hpos : 0 < n / 2 := Nat.pos_of_ne_zero h1
          have := ih2 hpos
          have hb : 1 ≤ bitLen fuel (n / 2) := by
            by_contra hlt
            have : bitLen fuel (n / 2) = 0 := by omega
            rw [this] at ih1
            simp at ih1
            exact h1 ih1
          have e : bitLen fuel (n / 2) = (bitLen fuel (n / 2) - 1) + 1 := by omega
          rw [e, pow_succ]
          omega

theorem divRoundEven_one (n : Nat) : divRoundEven n 1 = n := by
  simp [divRoundEven, Nat.mod_one]

/-- The exponent of a positive integer is one less than the length of its numeral. -/
theorem floorLog2_one (m : Nat) (hm : 0 < m) : floorLog2 m 1 = (bitLen m m : Int) - 1 := by
  obtain ⟨_, h2⟩ := bitLen_spec m m (Nat.le_refl _)
  have h2 := h2 hm
  have hb : bitLen 1 1 = 1 := by decide
  have hL : 1 ≤ bitLen m m := by
    by_contra hlt
    have e : bitLen m m = 0 := by omega
    have := (bitLen_spec m m (Nat.le_refl _)).1
    rw [e] at this
    omega
  unfold floorLog2
  simp only [hb]
  have h0 : (0 : Int) ≤ (bitLen m m : Int) - ((1 : Nat) : Int) := by omega
  have ht : ((bitLen m m : Int) - ((1 : Nat) : Int)).toNat = bitLen m m - 1 := by omega
  rw [if_pos h0, ht]
  simp only [Nat.one_mul, decide_eq_true_eq, Nat.cast_one]
  rw [if_neg (by omega)]

theorem pack_normal (neg : Bool) (q : Nat) (k : Int) (h1 : 2 ^ 52 ≤ q) (h2 : q < 2 ^ 53)
    (h3 : 0 ≤ k + 1075) (h4 : k + 1075 < 2047) :
    pack neg q k = some ⟨neg, (k + 1075).toNat, q - 2 ^ 52⟩ := by
  have hq : ¬ q = 2 ^ 53 := by omega
  unfold pack
  simp only [hq, if_false]
  rw [if_neg (by omega), if_neg (by omega)]

/-- A positive integer below `2 ^ 53` is a binary64 value: nothing is rounded. -/
theorem nearestFloat64_integer (neg : Bool) (m : Nat) (hm : 0 < m) (h : m < 2 ^ 53) :
    nearestFloat64 neg m 1 =
      some ⟨neg, bitLen m m + 1022, m * 2 ^ (53 - bitLen m m) - 2 ^ 52⟩ := by
  obtain ⟨b1, b2⟩ := bitLen_spec m m (Nat.le_refl _)
  have b2 := b2 hm
  have hL1 : 1 ≤ bitLen m m := by
    by_contra hlt
    have e : bitLen m m = 0 := by omega
    rw [e] at b1
    omega
  have hL2 : bitLen m m ≤ 53 := by
    by_contra hgt
    have : 2 ^ 53 ≤ 2 ^ (bitLen m m - 1) := Nat.pow_le_pow_right (by decide) (by omega)
    omega
  have hq1 : 2 ^ 52 ≤ m * 2 ^ (53 - bitLen m m) := by
    have : 2 ^ 52 = 2 ^ (bitLen m m - 1) * 2 ^ (53 - bitLen m m) := by
      rw [← pow_add]; congr 1; omega
    rw [this]
    exact Nat.mul_le_mul_right _ b2
  have hq2 : m * 2 ^ (53 - bitLen m m) < 2 ^ 53 := by
    have : 2 ^ 53 = 2 ^ (bitLen m m) * 2 ^ (53 - bitLen m m) := by
      rw [← pow_add]; congr 1; omega
    rw [this]
    exact Nat.mul_lt_mul_of_pos_right b1 (by positivity)
  have hm0 : ¬ m = 0 := by omega
  unfold nearestFloat64
  rw [if_neg hm0, floorLog2_one m hm]
  have hk : max ((bitLen m m : Int) - 1 - 52) (-1074) = (bitLen m m : Int) - 53 := by omega
  simp only [hk]
  by_cases hlt : bitLen m m < 53
  · have hneg : (bitLen m m : Int) - 53 < 0 := by omega
    have ht : (-((bitLen m m : Int) - 53)).toNat = 53 - bitLen m m := by omega
    rw [if_pos hneg, ht, divRoundEven_one, pack_normal neg _ _ hq1 hq2 (by omega) (by omega)]
    congr 2
    omega
  · have e : bitLen m m = 53 := by omega
    have hneg : ¬ ((bitLen m m : Int) - 53 < 0) := by omega
    have ht : ((bitLen m m : Int) - 53).toNat = 0 := by omega
    rw [if_neg hneg, ht, pow_zero, Nat.mul_one, divRoundEven_one]
    rw [e] at hq1 hq2 ⊢
    simp only [Nat.sub_self, pow_zero, Nat.mul_one] at hq1 hq2 ⊢
    rw [pack_normal neg m _ hq1 hq2 (by omega) (by omega)]
    rfl

theorem toRat_integer (neg : Bool) (m L : Nat) (hL1 : 1 ≤ L) (hL2 : L ≤ 53)
    (hq : 2 ^ 52 ≤ m * 2 ^ (53 - L)) :
    Float64.toRat ⟨neg, L + 1022, m * 2 ^ (53 - L) - 2 ^ 52⟩ =
      (if neg then -1 else 1) * (m : ℚ) := by
  unfold Float64.toRat
  have h0 : ¬ L + 1022 = 0 := by omega
  simp only [h0, if_false]
  congr 1
  have e1 : 2 ^ 52 + (m * 2 ^ (53 - L) - 2 ^ 52) = m * 2 ^ (53 - L) := by omega
  rw [e1]
  have e2 : ((L + 1022 : ℕ) : ℤ) - 1075 = -((53 - L : ℕ) : ℤ) := by omega
  rw [e2]
  push_cast
  rw [zpow_neg, zpow_natCast]
  field_simp

theorem spanDigits_all (ds : List Char) (hd : ∀ c ∈ ds, '0' ≤ c ∧ c ≤ '9') :
    json.spanDigits ds = (ds, []) := by
  induction ds with
  | nil => rfl
  | cons c cs ih =>
    have hc : json.isDigit c = true := by
      have := hd c (List.mem_cons_self _ _)
      simp [json.isDigit, this]
    have := ih fun x hx => hd x (List.mem_cons_of_mem _ hx)
    simp [json.spanDigits, hc, this]

theorem readFloat_integer (ds : List Char) (hne : ds ≠ [])
    (hd : ∀ c ∈ ds, '0' ≤ c ∧ c ≤ '9') :
    readFloat ds = (false, digitsValue ds, 0) ∧
    readFloat ('-' :: ds) = (true, digitsValue ds, 0) := by
  have hsp := spanDigits_all ds hd
  rcases ds with _ | ⟨c, cs⟩
  · exact absurd rfl hne
  · have hc : ¬ c = '-' := by
      intro e
      have := hd c (List.mem_cons_self _ _)
      rw [e] at this
      exact absurd this.1 (by decide)
    constructor
    · simp [readFloat, hc, hsp]
    · simp [readFloat, hsp]

/-- An integer literal of magnitude below `2 ^ 53` is parsed to the float of exactly its
value: `ParseFloat` neither rounds nor rescales it. -/
theorem ParseFloat_integer (neg : Bool) (ds : List Char) (hne : ds ≠ [])
    (hd : ∀ c ∈ ds, '0' ≤ c ∧ c ≤ '9') (hv : digitsValue ds < 2 ^ 53) :
    ∃ x, ParseFloat ⟨(if neg then ['-'] else []) ++ ds⟩ = some x ∧
      x.toRat = (if neg then -1 else 1) * (digitsValue ds : ℚ) := by
  have hr : readFloat ((if neg then ['-'] else []) ++ ds) = (neg, digitsValue ds, 0) := by
    cases neg
    · exact (readFloat_integer ds hne hd).1
    · exact (readFloat_integer ds hne hd).2
  unfold ParseFloat
  simp only [hr, le_refl, if_true, Int.toNat_zero, pow_zero, Nat.mul_one]
  by_cases h0 : digitsValue ds = 0
  · refine ⟨⟨neg, 0, 0⟩, by simp [nearestFloat64, h0], ?_⟩
    simp [Float64.toRat, h0]
  · have hpos : 0 < digitsValue ds := Nat.pos_of_ne_zero h0
    obtain ⟨b1, b2⟩ := bitLen_spec (digitsValue ds) (digitsValue ds) (Nat.le_refl _)
    have b2 := b2 hpos
    have hL1 : 1 ≤ bitLen (digitsValue ds) (digitsValue ds) := by
      by_contra hlt
      have e : bitLen (digitsValue ds) (digitsValue ds) = 0 := by omega
      rw [e] at b1
      omega
    have hL2 : bitLen (digitsValue ds) (digitsValue ds) ≤ 53 := by
      by_contra hgt
      have : 2 ^ 53 ≤ 2 ^ (bitLen (digitsValue ds) (digitsValue ds) - 1) :=
        Nat.pow_le_pow_right (by decide) (by omega)
      omega
    have hq1 : 2 ^ 52 ≤
        digitsValue ds * 2 ^ (53 - bitLen (digitsValue ds) (digitsValue ds)) := by
      have : 2 ^ 52 = 2 ^ (bitLen (digitsValue ds) (digitsValue ds) - 1) *
          2 ^ (53 - bitLen (digitsValue ds) (digitsValue ds)) := by
        rw [← pow_add]; congr 1; omega
      rw [this]
      exact Nat.mul_le_mul_right _ b2
    exact ⟨_, nearestFloat64_integer neg _ hpos hv, toRat_integer neg _ _ hL1 hL2 hq1⟩

end strconv

namespace json

/-- Storing the value a field is given succeeds and sets the field. -/
theorem storeValue_given (a p t n : String) (x : Float64) (hx : strconv.ParseFloat n = some x)
    (d : decodeState) (f : Field) (hd : d.savedError = none) :
    (storeValue d f (given a p t n f)).savedError = none ∧
    f.value (storeValue d f (given a p t n f)).event = f.value ⟨a, p, t, x⟩ := by
  cases f <;> simp [given, storeValue, storeString, storeNumber, hx, hd, Field.value]

/-- Decoding an object in which every key that selects a field holds the value given for the
field: no error, and every field either has the value given or was selected by no key. -/
theorem decodeMembers_given (a p t n : String) (x : Float64)
    (hx : strconv.ParseFloat n = some x) (ms : List (String × Value)) (d : decodeState)
    (hd : d.savedError = none)
    (hu : ∀ kv ∈ ms, ∀ f, findField kv.1 = some f → kv.2 = given a p t n f) :
    (decodeMembers d ms).savedError = none ∧
    ∀ f : Field, f.value (decodeMembers d ms).event = f.value ⟨a, p, t, x⟩ ∨
      (f.value (decodeMembers d ms).event = f.value d.event ∧
        ∀ kv ∈ ms, findField kv.1 ≠ some f) := by
  induction ms generalizing d with
  | nil => exact ⟨hd, fun f => Or.inr ⟨rfl, fun _ h => absurd h (List.not_mem_nil _)⟩⟩
  | cons kv ms ih =>
    obtain ⟨key, v⟩ := kv
    have hu2 : ∀ kv ∈ ms, ∀ f, findField kv.1 = some f → kv.2 = given a p t n f :=
      fun kv hkv => hu kv (List.mem_cons_of_mem _ hkv)
    cases hk : findField key with
    | none =>
      have e : decodeMembers d ((key, v) :: ms) = decodeMembers d ms := by
        rw [decodeMembers, hk]
      rw [e]
      refine ⟨(ih d hd hu2).1, fun f => ?_⟩
      rcases (ih d hd hu2).2 f with h | ⟨h1, h2⟩
      · exact Or.inl h
      · refine Or.inr ⟨h1, fun kv hkv => ?_⟩
        rcases List.mem_cons.1 hkv with e1 | e1
        · rw [e1, hk]; simp
        · exact h2 kv e1
    | some g =>
      have hv : v = given a p t n g := hu (key, v) (List.mem_cons_self _ _) g hk
      have e : decodeMembers d ((key, v) :: ms) =
          decodeMembers (storeValue d g (given a p t n g)) ms := by
        rw [decodeMembers, hk, hv]
      rw [e]
      have hst := storeValue_given a p t n x hx d g hd
      refine ⟨(ih _ hst.1 hu2).1, fun f => ?_⟩
      rcases (ih _ hst.1 hu2).2 f with h | ⟨h1, h2⟩
      · exact Or.inl h
      · by_cases hfg : g = f
        · subst hfg
          exact Or.inl (h1.trans hst.2)
        · refine Or.inr ⟨h1.trans (storeValue_value_of_ne d f g _ hfg), fun kv hkv => ?_⟩
          rcases List.mem_cons.1 hkv with e1 | e1
          · rw [e1, hk]
            exact fun e2 => hfg (Option.some.inj e2)
          · exact h2 kv e1

/-- An event is determined by the values of its four fields. -/
theorem event_eq_of_values (ev ev1 : TEvent) (h : ∀ f : Field, f.value ev = f.value ev1) :
    ev = ev1 := by
  obtain ⟨a, p, t, x⟩ := ev
  obtain ⟨a1, p1, t1, x1⟩ := ev1
  have h1 := h .Action
  have h2 := h .Package
  have h3 := h .Test
  have h4 := h .Elapsed
  simp only [Field.value, Sum.inl.injEq, Sum.inr.injEq] at h1 h2 h3 h4
  rw [h1, h2, h3, h4]

end json

/-! ## The scanner accepts only texts of the grammar -/

namespace json

open grammar

theorem isSpace_iff (c : Char) :
    isSpace c = true ↔ (c = ' ' ∨ c = '\t' ∨ c = '\n' ∨ c = '\r') := by
  simp only [isSpace, Bool.or_eq_true, decide_eq_true_eq]
  tauto

theorem isDigit_iff (c : Char) : isDigit c = true ↔ ('0' ≤ c ∧ c ≤ '9') := by
  simp [isDigit]

theorem isHexDigit_iff (c : Char) : isHexDigit c = true ↔ IsHex c := by
  simp [isHexDigit, IsHex, isDigit, or_assoc]

theorem IsWS_nil : IsWS [] := fun _ h => absurd h (List.not_mem_nil _)

theorem IsWS_cons (c : Char) (w : List Char) (hc : isSpace c = true) (hw : IsWS w) :
    IsWS (c :: w) := by
  intro x hx
  rcases List.mem_cons.1 hx with e | e
  · rw [e]; exact (isSpace_iff c).1 hc
  · exact hw x e

/-- The input is the whitespace `skipSpace` drops followed by what it returns. -/
theorem skipSpace_spec (s : List Char) : ∃ w, IsWS w ∧ s = w ++ skipSpace s := by
  induction s with
  | nil => exact ⟨[], IsWS_nil, rfl⟩
  | cons c cs ih =>
    by_cases hc : isSpace c = true
    · obtain ⟨w, hw, e⟩ := ih
      refine ⟨c :: w, IsWS_cons c w hc hw, ?_⟩
      simp only [skipSpace, hc, if_true, List.cons_append]
      rw [← e]
    · exact ⟨[], IsWS_nil, by simp [skipSpace, hc]⟩

theorem isEscape_iff (e : Char) :
    isEscape e = true ↔
      (e = '"' ∨ e = '\\' ∨ e = '/' ∨ e = 'b' ∨ e = 'f' ∨ e = 'n' ∨ e = 'r' ∨ e = 't') := by
  simp only [isEscape, Bool.or_eq_true, decide_eq_true_eq]
  tauto

theorem scanString_cons (c : Char) (cs : List Char) :
    scanString (c :: cs) =
      if c = '"' then some ([], cs)
      else if c = '\\' then
        match cs with
        | [] => none
        | e :: cs1 =>
          if e = 'u' then
            match cs1 with
            | h1 :: h2 :: h3 :: h4 :: cs2 =>
              if isHexDigit h1 && isHexDigit h2 && isHexDigit h3 && isHexDigit h4 then
                (scanString cs2).map fun p => ('\\' :: 'u' :: h1 :: h2 :: h3 :: h4 :: p.1, p.2)
              else none
            | _ => none
          else if isEscape e then (scanString cs1).map fun p => ('\\' :: e :: p.1, p.2)
          else none
      else if c.toNat < 0x20 then none
      else (scanString cs).map fun p => (c :: p.1, p.2) := by
  exact scanString.eq_def (c :: cs)

theorem map_eq_some_pair {α β γ δ : Type} (o : Option (α × β)) (f : α × β → γ × δ) (a : γ)
    (b : δ) (h : o.map f = some (a, b)) : ∃ a1 b1, o = some (a1, b1) ∧ f (a1, b1) = (a, b) := by
  cases o with
  | none => simp at h
  | some p => exact ⟨p.1, p.2, rfl, by simpa using h⟩

theorem scanString_sound_aux (n : Nat) : ∀ (s raw rest : List Char), s.length ≤ n →
    scanString s = some (raw, rest) → IsChars raw ∧ s = raw ++ '"' :: rest := by
  induction n with
  | zero =>
    intro s raw rest hn h
    have : s = [] := List.length_eq_zero.1 (Nat.le_zero.1 hn)
    subst this
    simp [scanString] at h
  | succ n ih =>
    intro s raw rest hn h
    rcases s with _ | ⟨c, cs⟩
    · simp [scanString] at h
    · have hcs : cs.length ≤ n := by simpa using hn
      rw [scanString_cons] at h
      by_cases hq : c = '"'
      · rw [if_pos hq] at h
        simp only [Option.some.injEq, Prod.mk.injEq] at h
        obtain ⟨h1, h2⟩ := h
        subst h1; subst h2; subst hq
        exact ⟨IsChars.nil, rfl⟩
      · rw [if_neg hq] at h
        by_cases hb : c = '\\'
        · rw [if_pos hb] at h
          subst hb
          rcases cs with _ | ⟨e, cs1⟩
          · simp at h
          · simp only at h
            by_cases hu : e = 'u'
            · rw [if_pos hu] at h
              subst hu
              rcases cs1 with _ | ⟨h1, _ | ⟨h2, _ | ⟨h3, _ | ⟨h4, cs2⟩⟩⟩⟩ <;>
                simp only [reduceCtorEq] at h
              by_cases hh : (isHexDigit h1 && isHexDigit h2 && isHexDigit h3 && isHexDigit h4) = true
              · rw [if_pos hh] at h
                simp only [Bool.and_eq_true, isHexDigit_iff] at hh
                obtain ⟨⟨⟨x1, x2⟩, x3⟩, x4⟩ := hh
                obtain ⟨raw1, rest1, hr, e1⟩ := map_eq_some_pair _ _ _ _ h
                simp only [Prod.mk.injEq] at e1
                obtain ⟨e1, e2⟩ := e1
                subst e1; subst e2
                have := ih cs2 raw1 rest1 (by simp at hcs; omega) hr
                exact ⟨IsChars.unicode h1 h2 h3 h4 raw1 x1 x2 x3 x4 this.1, by rw [this.2]; rfl⟩
              · rw [if_neg hh] at h
                simp at h
            · rw [if_neg hu] at h
              by_cases he : isEscape e = true
              · rw [if_pos he] at h
                obtain ⟨raw1, rest1, hr, e1⟩ := map_eq_some_pair _ _ _ _ h
                simp only [Prod.mk.injEq] at e1
                obtain ⟨e1, e2⟩ := e1
                subst e1; subst e2
                have := ih cs1 raw1 rest1 (by simp at hcs; omega) hr
                exact ⟨IsChars.escape e raw1 ((isEscape_iff e).1 he) this.1, by rw [this.2]; rfl⟩
              · rw [if_neg he] at h
                simp at h
        · rw [if_neg hb] at h
          by_cases hlt : c.toNat < 0x20
          · rw [if_pos hlt] at h
            simp at h
          · rw [if_neg hlt] at h
            obtain ⟨raw1, rest1, hr, e1⟩ := map_eq_some_pair _ _ _ _ h
            simp only [Prod.mk.injEq] at e1
            obtain ⟨e1, e2⟩ := e1
            subst e1; subst e2
            have := ih cs raw1 rest1 hcs hr
            exact ⟨IsChars.unescaped c raw1 (by omega) hq hb this.1, by rw [this.2]; rfl⟩

/-- A scanned string literal: its text obeys the rule `*char` and is followed by the closing
quotation mark. -/
theorem scanString_sound (s raw rest : List Char) (h : scanString s = some (raw, rest)) :
    IsChars raw ∧ s = raw ++ '"' :: rest :=
  scanString_sound_aux s.length s raw rest (Nat.le_refl _) h

/-- The input is the digits `spanDigits` takes followed by the rest. -/
theorem spanDigits_spec (s : List Char) :
    s = (spanDigits s).1 ++ (spanDigits s).2 ∧ ∀ c ∈ (spanDigits s).1, '0' ≤ c ∧ c ≤ '9' := by
  induction s with
  | nil => exact ⟨rfl, fun _ h => absurd h (List.not_mem_nil _)⟩
  | cons c cs ih =>
    by_cases hc : isDigit c = true
    · simp only [spanDigits, hc, if_true, List.cons_append]
      refine ⟨by rw [← ih.1], fun x hx => ?_⟩
      rcases List.mem_cons.1 hx with e | e
      · rw [e]; exact (isDigit_iff c).1 hc
      · exact ih.2 x e
    · simp [spanDigits, hc]

theorem spanDigits_digits (s d rest : List Char) (h : spanDigits s = (d, rest)) (hd : d ≠ []) :
    s = d ++ rest ∧ IsDigits d := by
  have := spanDigits_spec s
  rw [h] at this
  exact ⟨this.1, hd, this.2⟩

theorem scanInteger_sound (s ip r : List Char) (h : scanInteger s = some (ip, r)) :
    s = ip ++ r ∧ IsInt ip := by
  rcases s with _ | ⟨c, cs⟩
  · simp [scanInteger] at h
  · simp only [scanInteger] at h
    by_cases h0 : c = '0'
    · rw [if_pos h0] at h
      simp only [Option.some.injEq, Prod.mk.injEq] at h
      obtain ⟨e1, e2⟩ := h
      subst e1; subst e2; subst h0
      exact ⟨rfl, Or.inl rfl⟩
    · rw [if_neg h0] at h
      by_cases hd : isDigit c = true
      · rw [if_pos hd] at h
        simp only [Option.some.injEq, Prod.mk.injEq] at h
        obtain ⟨e1, e2⟩ := h
        subst e1; subst e2
        have := spanDigits_spec cs
        refine ⟨by simp only [List.cons_append]; rw [← this.1], Or.inr ⟨⟨by simp, fun x hx => ?_⟩, ?_⟩⟩
        · rcases List.mem_cons.1 hx with e | e
          · rw [e]; exact (isDigit_iff c).1 hd
          · exact this.2 x e
        · simpa using h0
      · rw [if_neg hd] at h
        simp at h

theorem scanFraction_sound (s fp r : List Char) (h : scanFraction s = some (fp, r)) :
    s = fp ++ r ∧ (fp = [] ∨ IsFrac fp) := by
  rcases s with _ | ⟨c, cs⟩
  · simp only [scanFraction, Option.some.injEq, Prod.mk.injEq] at h
    obtain ⟨e1, e2⟩ := h
    subst e1; subst e2
    exact ⟨rfl, Or.inl rfl⟩
  · simp only [scanFraction] at h
    by_cases hp : c = '.'
    · rw [if_pos hp] at h
      rcases hsp : spanDigits cs with ⟨d, rest⟩
      rw [hsp] at h
      rcases d with _ | ⟨d0, ds⟩
      · simp at h
      · simp only [Option.some.injEq, Prod.mk.injEq] at h
        obtain ⟨e1, e2⟩ := h
        subst e1; subst e2; subst hp
        have := spanDigits_digits cs (d0 :: ds) rest hsp (by simp)
        exact ⟨by rw [this.1]; rfl, Or.inr ⟨d0 :: ds, rfl, this.2⟩⟩
    · rw [if_neg hp] at h
      simp only [Option.some.injEq, Prod.mk.injEq] at h
      obtain ⟨e1, e2⟩ := h
      subst e1; subst e2
      exact ⟨rfl, Or.inl rfl⟩

theorem scanExponent_sound (s ep r : List Char) (h : scanExponent s = some (ep, r)) :
    s = ep ++ r ∧ (ep = [] ∨ IsExp ep) := by
  rcases s with _ | ⟨c, cs⟩
  · simp only [scanExponent, Option.some.injEq, Prod.mk.injEq] at h
    obtain ⟨e1, e2⟩ := h
    subst e1; subst e2
    exact ⟨rfl, Or.inl rfl⟩
  · simp only [scanExponent] at h
    by_cases he : (decide (c = 'e') || decide (c = 'E')) = true
    · rw [if_pos he] at h
      have he1 : c = 'e' ∨ c = 'E' := by simpa using he
      rcases cs with _ | ⟨sg, ds⟩
      · simp at h
      · simp only at h
        by_cases hs : (decide (sg = '+') || decide (sg = '-')) = true
        · rw [if_pos hs] at h
          have hs1 : sg = '+' ∨ sg = '-' := by simpa using hs
          rcases hsp : spanDigits ds with ⟨d, rest⟩
          rw [hsp] at h
          rcases d with _ | ⟨d0, d1⟩
          · simp at h
          · simp only [Option.some.injEq, Prod.mk.injEq] at h
            obtain ⟨e1, e2⟩ := h
            subst e1; subst e2
            have := spanDigits_digits ds (d0 :: d1) rest hsp (by simp)
            refine ⟨by rw [this.1]; rfl, Or.inr ⟨c, [sg], d0 :: d1, rfl, he1, ?_, this.2⟩⟩
            rcases hs1 with e | e <;> simp [e]
        · rw [if_neg hs] at h
          rcases hsp : spanDigits (sg :: ds) with ⟨d, rest⟩
          rw [hsp] at h
          rcases d with _ | ⟨d0, d1⟩
          · simp at h
          · simp only [Option.some.injEq, Prod.mk.injEq] at h
            obtain ⟨e1, e2⟩ := h
            subst e1; subst e2
            have := spanDigits_digits (sg :: ds) (d0 :: d1) rest hsp (by simp)
            exact ⟨by rw [this.1]; rfl, Or.inr ⟨c, [], d0 :: d1, rfl, he1, Or.inl rfl, this.2⟩⟩
    · rw [if_neg he] at h
      simp only [Option.some.injEq, Prod.mk.injEq] at h
      obtain ⟨e1, e2⟩ := h
      subst e1; subst e2
      exact ⟨rfl, Or.inl rfl⟩

/-- A scanned number literal obeys the rule `number`. -/
theorem scanNumber_sound (s lit r : List Char) (h : scanNumber s = some (lit, r)) :
    s = lit ++ r ∧ IsNumber lit := by
  have key : ∀ (m s0 : List Char), (m = [] ∨ m = ['-']) → s = m ++ s0 →
      (match scanInteger s0 with
        | none => none
        | some (ip, s1) =>
          match scanFraction s1 with
          | none => none
          | some (fp, s2) =>
            match scanExponent s2 with
            | none => none
            | some (ep, s3) => some (m ++ ip ++ fp ++ ep, s3)) = some (lit, r) →
      s = lit ++ r ∧ IsNumber lit := by
    intro m s0 hm hs hk
    rcases h1 : scanInteger s0 with _ | ⟨ip, s1⟩
    · rw [h1] at hk; simp at hk
    · rw [h1] at hk
      simp only at hk
      rcases h2 : scanFraction s1 with _ | ⟨fp, s2⟩
      · rw [h2] at hk; simp at hk
      · rw [h2] at hk
        simp only at hk
        rcases h3 : scanExponent s2 with _ | ⟨ep, s3⟩
        · rw [h3] at hk; simp at hk
        · rw [h3] at hk
          simp only [Option.some.injEq, Prod.mk.injEq] at hk
          obtain ⟨e1, e2⟩ := hk
          subst e1; subst e2
          have a1 := scanInteger_sound s0 ip s1 h1
          have a2 := scanFraction_sound s1 fp s2 h2
          have a3 := scanExponent_sound s2 ep s3 h3
          refine ⟨?_, m, ip, fp, ep, rfl, hm, a1.2, a2.2, a3.2⟩
          rw [hs, a1.1, a2.1, a3.1]
          simp [List.append_assoc]
  rcases s with _ | ⟨c, cs⟩
  · exact key [] [] (Or.inl rfl) rfl h
  · by_cases hc : c = '-'
    · have h' := h
      simp only [scanNumber, hc, if_true] at h'
      exact key ['-'] cs (Or.inr rfl) (by rw [hc]; rfl) h'
    · have h' := h
      simp only [scanNumber, hc, if_false] at h'
      exact key [] (c :: cs) (Or.inl rfl) rfl h'

theorem scanWord_sound (w s r : List Char) (h : scanWord w s = some r) : s = w ++ r := by
  induction w generalizing s with
  | nil =>
    simp only [scanWord, Option.some.injEq] at h
    rw [h]; rfl
  | cons x xs ih =>
    rcases s with _ | ⟨c, cs⟩
    · simp [scanWord] at h
    · simp only [scanWord] at h
      by_cases hc : c = x
      · rw [if_pos hc] at h
        rw [hc, ih cs h]; rfl
      · rw [if_neg hc] at h
        simp at h

theorem IsWS_append (w1 w2 : List Char) (h1 : IsWS w1) (h2 : IsWS w2) : IsWS (w1 ++ w2) := by
  intro c hc
  rcases List.mem_append.1 hc with h | h
  · exact h1 c h
  · exact h2 c h

theorem IsElements_ws (vs : List Value) (w t : List Char) (hw : IsWS w)
    (ht : IsElements vs t) : IsElements vs (w ++ t) := by
  cases ht with
  | one v w1 t w2 h1 hv h2 =>
    have := IsElements.one v (w ++ w1) t w2 (IsWS_append w w1 hw h1) hv h2
    simpa [List.append_assoc] using this
  | cons v vs w1 t w2 r h1 hv h2 hr =>
    have := IsElements.cons v vs (w ++ w1) t w2 r (IsWS_append w w1 hw h1) hv h2 hr
    simpa [List.append_assoc] using this

theorem IsMembers_ws (ms : List (String × Value)) (w t : List Char) (hw : IsWS w)
    (ht : IsMembers ms t) : IsMembers ms (w ++ t) := by
  cases ht with
  | one v w1 k w2 w3 t w4 h1 hk h2 h3 hv h4 =>
    have := IsMembers.one v (w ++ w1) k w2 w3 t w4 (IsWS_append w w1 hw h1) hk h2 h3 hv h4
    simpa [List.append_assoc] using this
  | cons v ms w1 k w2 w3 t w4 r h1 hk h2 h3 hv h4 hr =>
    have := IsMembers.cons v ms (w ++ w1) k w2 w3 t w4 r (IsWS_append w w1 hw h1) hk h2 h3 hv
      h4 hr
    simpa [List.append_assoc] using this

theorem scanValue_sound_step (fuel : Nat) (ih : ScanSound fuel) (d : Nat) (s : List Char)
    (v : Value) (r : List Char) (h : scanValue (fuel + 1) d s = some (v, r)) :
    ∃ t, s = t ++ r ∧ IsValue v t := by
  rcases s with _ | ⟨c, cs⟩
  · simp [scanValue] at h
  · rw [scanValue.eq_3] at h
    obtain ⟨w, hw, hcs⟩ := skipSpace_spec cs
    by_cases hob : c = '{'
    · rw [if_pos hob] at h
      subst hob
      by_cases hd : d < maxNestingDepth
      · rw [if_pos hd] at h
        rcases hsk : skipSpace cs with _ | ⟨c2, r1⟩
        · rw [hsk] at h; simp at h
        · rw [hsk] at h hcs
          simp only at h
          by_cases hcl : c2 = '}'
          · rw [if_pos hcl] at h
            simp only [Option.some.injEq, Prod.mk.injEq] at h
            obtain ⟨e1, e2⟩ := h
            subst e1; subst e2; subst hcl
            exact ⟨'{' :: (w ++ ['}']), by rw [hcs]; simp, IsValue.emptyObject w hw⟩
          · rw [if_neg hcl] at h
            obtain ⟨ms, r2, hm, e⟩ := map_eq_some_pair _ _ _ _ h
            simp only [Prod.mk.injEq] at e
            obtain ⟨e1, e2⟩ := e
            subst e1; subst e2
            obtain ⟨t, ht, hmem⟩ := ih.2.2 _ _ _ _ hm
            refine ⟨'{' :: ((w ++ t) ++ ['}']), ?_, IsValue.object _ _ (IsMembers_ws _ w t hw hmem)⟩
            rw [hcs, ht]; simp
      · rw [if_neg hd] at h
        simp at h
    · rw [if_neg hob] at h
      by_cases hoa : c = '['
      · rw [if_pos hoa] at h
        subst hoa
        by_cases hd : d < maxNestingDepth
        · rw [if_pos hd] at h
          rcases hsk : skipSpace cs with _ | ⟨c2, r1⟩
          · rw [hsk] at h; simp at h
          · rw [hsk] at h hcs
            simp only at h
            by_cases hcl : c2 = ']'
            · rw [if_pos hcl] at h
              simp only [Option.some.injEq, Prod.mk.injEq] at h
              obtain ⟨e1, e2⟩ := h
              subst e1; subst e2; subst hcl
              exact ⟨'[' :: (w ++ [']']), by rw [hcs]; simp, IsValue.emptyArray w hw⟩
            · rw [if_neg hcl] at h
              obtain ⟨vs, r2, hm, e⟩ := map_eq_some_pair _ _ _ _ h
              simp only [Prod.mk.injEq] at e
              obtain ⟨e1, e2⟩ := e
              subst e1; subst e2
              obtain ⟨t, ht, hel⟩ := ih.2.1 _ _ _ _ hm
              refine ⟨'[' :: ((w ++ t) ++ [']']), ?_, IsValue.array _ _ (IsElements_ws _ w t hw hel)⟩
              rw [hcs, ht]; simp
        · rw [if_neg hd] at h
          simp at h
      · rw [if_neg hoa] at h
        by_cases hq : c = '"'
        · rw [if_pos hq] at h
          subst hq
          rcases hstr : scanString cs with _ | ⟨raw, r1⟩
          · rw [hstr] at h; simp at h
          · rw [hstr] at h
            simp only [Option.map_some', Option.some.injEq, Prod.mk.injEq] at h
            obtain ⟨e1, e2⟩ := h
            subst e1; subst e2
            have := scanString_sound cs raw r1 hstr
            exact ⟨'"' :: (raw ++ ['"']), by rw [this.2]; simp, IsValue.string raw this.1⟩
        · rw [if_neg hq] at h
          by_cases hn : (decide (c = '-') || isDigit c) = true
          · rw [if_pos hn] at h
            rcases hnum : scanNumber (c :: cs) with _ | ⟨lit, r1⟩
            · rw [hnum] at h; simp at h
            · rw [hnum] at h
              simp only [Option.map_some', Option.some.injEq, Prod.mk.injEq] at h
              obtain ⟨e1, e2⟩ := h
              subst e1; subst e2
              have := scanNumber_sound (c :: cs) lit r1 hnum
              exact ⟨lit, this.1, IsValue.number lit this.2⟩
          · rw [if_neg hn] at h
            by_cases ht : c = 't'
            · rw [if_pos ht] at h
              subst ht
              rcases hwd : scanWord "rue".data cs with _ | r1
              · rw [hwd] at h; simp at h
              · rw [hwd] at h
                simp only [Option.map_some', Option.some.injEq, Prod.mk.injEq] at h
                obtain ⟨e1, e2⟩ := h
                subst e1; subst e2
                exact ⟨['t', 'r', 'u', 'e'], by rw [scanWord_sound _ _ _ hwd]; rfl, IsValue.true⟩
            · rw [if_neg ht] at h
              by_cases hf : c = 'f'
              · rw [if_pos hf] at h
                subst hf
                rcases hwd : scanWord "alse".data cs with _ | r1
                · rw [hwd] at h; simp at h
                · rw [hwd] at h
                  simp only [Option.map_some', Option.some.injEq, Prod.mk.injEq] at h
                  obtain ⟨e1, e2⟩ := h
                  subst e1; subst e2
                  exact ⟨['f', 'a', 'l', 's', 'e'], by rw [scanWord_sound _ _ _ hwd]; rfl,
                    IsValue.false⟩
              · rw [if_neg hf] at h
                by_cases hnl : c = 'n'
                · rw [if_pos hnl] at h
                  subst hnl
                  rcases hwd : scanWord "ull".data cs with _ | r1
                  · rw [hwd] at h; simp at h
                  · rw [hwd] at h
                    simp only [Option.map_some', Option.some.injEq, Prod.mk.injEq] at h
                    obtain ⟨e1, e2⟩ := h
                    subst e1; subst e2
                    exact ⟨['n', 'u', 'l', 'l'], by rw [scanWord_sound _ _ _ hwd]; rfl,
                      IsValue.null⟩
                · rw [if_neg hnl] at h
                  simp at h

theorem scanElements_sound_step (fuel : Nat) (ih : ScanSound fuel) (d : Nat) (s : List Char)
    (vs : List Value) (r : List Char) (h : scanElements (fuel + 1) d s = some (vs, r)) :
    ∃ t, s = t ++ ']' :: r ∧ IsElements vs t := by
  rw [scanElements.eq_2] at h
  obtain ⟨w1, hw1, hs⟩ := skipSpace_spec s
  rcases hv : scanValue fuel d (skipSpace s) with _ | ⟨v, r1⟩
  · rw [hv] at h; simp at h
  · rw [hv] at h
    simp only at h
    obtain ⟨t, ht, hval⟩ := ih.1 _ _ _ _ hv
    obtain ⟨w2, hw2, hr1⟩ := skipSpace_spec r1
    rcases hsk : skipSpace r1 with _ | ⟨c, r2⟩
    · rw [hsk] at h; simp at h
    · rw [hsk] at h hr1
      simp only at h
      by_cases hc : c = ','
      · rw [if_pos hc] at h
        subst hc
        obtain ⟨vs1, r3, hm, e⟩ := map_eq_some_pair _ _ _ _ h
        simp only [Prod.mk.injEq] at e
        obtain ⟨e1, e2⟩ := e
        subst e1; subst e2
        obtain ⟨t2, ht2, hel⟩ := ih.2.1 _ _ _ _ hm
        refine ⟨w1 ++ t ++ w2 ++ ',' :: t2, ?_, IsElements.cons _ _ w1 t w2 t2 hw1 hval hw2 hel⟩
        rw [hs, ht, hr1, ht2]; simp
      · rw [if_neg hc] at h
        by_cases hcl : c = ']'
        · rw [if_pos hcl] at h
          simp only [Option.some.injEq, Prod.mk.injEq] at h
          obtain ⟨e1, e2⟩ := h
          subst e1; subst e2; subst hcl
          refine ⟨w1 ++ t ++ w2, ?_, IsElements.one _ w1 t w2 hw1 hval hw2⟩
          rw [hs, ht, hr1]; simp
        · rw [if_neg hcl] at h
          simp at h

theorem scanMembers_sound_step (fuel : Nat) (ih : ScanSound fuel) (d : Nat) (s : List Char)
    (ms : List (String × Value)) (r : List Char)
    (h : scanMembers (fuel + 1) d s = some (ms, r)) :
    ∃ t, s = t ++ '}' :: r ∧ IsMembers ms t := by
  rw [scanMembers.eq_2] at h
  obtain ⟨w1, hw1, hs⟩ := skipSpace_spec s
  rcases hsk : skipSpace s with _ | ⟨q, r0⟩
  · rw [hsk] at h; simp at h
  · rw [hsk] at h hs
    simp only at h
    by_cases hq : q = '"'
    · rw [if_pos hq] at h
      subst hq
      rcases hstr : scanString r0 with _ | ⟨key, r1⟩
      · rw [hstr] at h; simp at h
      · rw [hstr] at h
        simp only at h
        have hkey := scanString_sound r0 key r1 hstr
        obtain ⟨w2, hw2, hr1⟩ := skipSpace_spec r1
        rcases hsk1 : skipSpace r1 with _ | ⟨c, r2⟩
        · rw [hsk1] at h; simp at h
        · rw [hsk1] at h hr1
          simp only at h
          by_cases hc : c = ':'
          · rw [if_pos hc] at h
            subst hc
            obtain ⟨w3, hw3, hr2⟩ := skipSpace_spec r2
            rcases hv : scanValue fuel d (skipSpace r2) with _ | ⟨v, r3⟩
            · rw [hv] at h; simp at h
            · rw [hv] at h
              simp only at h
              obtain ⟨t, ht, hval⟩ := ih.1 _ _ _ _ hv
              obtain ⟨w4, hw4, hr3⟩ := skipSpace_spec r3
              rcases hsk3 : skipSpace r3 with _ | ⟨c3, r4⟩
              · rw [hsk3] at h; simp at h
              · rw [hsk3] at h hr3
                simp only at h
                by_cases hcm : c3 = ','
                · rw [if_pos hcm] at h
                  subst hcm
                  obtain ⟨ms1, r5, hm, e⟩ := map_eq_some_pair _ _ _ _ h
                  simp only [Prod.mk.injEq] at e
                  obtain ⟨e1, e2⟩ := e
                  subst e1; subst e2
                  obtain ⟨t2, ht2, hmem⟩ := ih.2.2 _ _ _ _ hm
                  refine ⟨_, ?_, IsMembers.cons _ _ w1 key w2 w3 t w4 t2 hw1 hkey.1 hw2 hw3 hval hw4 hmem⟩
                  rw [hs, hkey.2, hr1, hr2, ht, hr3, ht2]; simp
                · rw [if_neg hcm] at h
                  by_cases hcl : c3 = '}'
                  · rw [if_pos hcl] at h
                    simp only [Option.some.injEq, Prod.mk.injEq] at h
                    obtain ⟨e1, e2⟩ := h
                    subst e1; subst e2; subst hcl
                    refine ⟨_, ?_, IsMembers.one _ w1 key w2 w3 t w4 hw1 hkey.1 hw2 hw3 hval hw4⟩
                    rw [hs, hkey.2, hr1, hr2, ht, hr3]; simp
                  · rw [if_neg hcl] at h
                    simp at h
          · rw [if_neg hc] at h
            simp at h
    · rw [if_neg hq] at h
      simp at h

theorem scan_sound_fuel (fuel : Nat) : ScanSound fuel := by
  induction fuel with
  | zero =>
    refine ⟨?_, ?_, ?_⟩ <;> intro d s v r h
    · simp [scanValue] at h
    · simp [scanElements] at h
    · simp [scanMembers] at h
  | succ n ih =>
    exact ⟨scanValue_sound_step n ih, scanElements_sound_step n ih,
      scanMembers_sound_step n ih⟩

/-- Soundness of the scanner: an input it accepts is a JSON text of the grammar, and the
value it yields is the one the text denotes. -/
theorem scan_sound (data : List Char) (v : Value) (h : scan data = some v) :
    IsJSONTextOf v data := by
  unfold scan at h
  obtain ⟨w1, hw1, hs⟩ := skipSpace_spec data
  rcases hv : scanValue (2 * data.length + 1) 0 (skipSpace data) with _ | ⟨v1, rest⟩
  · rw [hv] at h; simp at h
  · rw [hv] at h
    simp only at h
    obtain ⟨t, ht, hval⟩ := (scan_sound_fuel _).1 _ _ _ _ hv
    obtain ⟨w2, hw2, hr⟩ := skipSpace_spec rest
    by_cases he : skipSpace rest = []
    · rw [he, List.append_nil] at hr
      rw [if_pos he] at h
      have hv1 : v1 = v := Option.some.inj h
      subst hv1
      refine ⟨w1, t, w2, ?_, hw1, hval, hw2⟩
      rw [hs, ht, hr]; simp
    · rw [if_neg he] at h
      simp at h

theorem skipSpace_ws_append (w s : List Char) (hw : IsWS w) :
    skipSpace (w ++ s) = skipSpace s := by
  induction w with
  | nil => rfl
  | cons c w ih =>
    have hc : isSpace c = true := (isSpace_iff c).2 (hw c (List.mem_cons_self _ _))
    simp only [List.cons_append, skipSpace, hc, if_true]
    exact ih fun x hx => hw x (List.mem_cons_of_mem _ hx)

/-- The characters a JSON value can start with. -/
theorem IsValue_head (v : Value) (t : List Char) (h : IsValue v t) :
    ∃ c r, t = c :: r ∧ (c = '{' ∨ c = '[' ∨ c = '"' ∨ c = '-' ∨ c = 't' ∨ c = 'f' ∨
      c = 'n' ∨ ('0' ≤ c ∧ c ≤ '9')) := by
  cases h with
  | false => exact ⟨_, _, rfl, by simp⟩
  | null => exact ⟨_, _, rfl, by simp⟩
  | true => exact ⟨_, _, rfl, by simp⟩
  | string cs hs => exact ⟨_, _, rfl, by simp⟩
  | emptyArray w hw => exact ⟨_, _, rfl, by simp⟩
  | array vs t ht => exact ⟨_, _, rfl, by simp⟩
  | emptyObject w hw => exact ⟨_, _, rfl, by simp⟩
  | object ms t ht => exact ⟨_, _, rfl, by simp⟩
  | number _ hn =>
    obtain ⟨m, i, f, e, ht, hm, hi, _, _⟩ := hn
    rcases hm with hm | hm
    · subst hm
      rcases hi with hi | ⟨⟨hne, hd⟩, _⟩
      · subst hi
        exact ⟨'0', f ++ e, by rw [ht]; rfl, by decide⟩
      · rcases i with _ | ⟨c, cs⟩
        · exact absurd rfl hne
        · refine ⟨c, cs ++ f ++ e, by rw [ht]; simp, ?_⟩
          have := hd c (List.mem_cons_self _ _)
          simp [this]
    · subst hm
      exact ⟨'-', i ++ f ++ e, by rw [ht]; simp, by simp⟩

/-- A JSON text starts, after whitespace, with a character a value can start with. -/
theorem IsJSONText_head (s : List Char) (h : IsJSONText s) :
    ∃ c r, skipSpace s = c :: r ∧ (c = '{' ∨ c = '[' ∨ c = '"' ∨ c = '-' ∨ c = 't' ∨
      c = 'f' ∨ c = 'n' ∨ ('0' ≤ c ∧ c ≤ '9')) := by
  obtain ⟨v, w1, t, w2, hs, hw1, hv, _⟩ := h
  obtain ⟨c, r, hvc, hc⟩ := IsValue_head v t hv
  refine ⟨c, r ++ w2, ?_, hc⟩
  have hns : isSpace c = false := by
    rcases hc with e | e | e | e | e | e | e | e
    · subst e; decide
    · subst e; decide
    · subst e; decide
    · subst e; decide
    · subst e; decide
    · subst e; decide
    · subst e; decide
    · cases hsp : isSpace c with
      | false => rfl
      | true =>
        rcases (isSpace_iff c).1 hsp with x | x | x | x <;> subst x <;>
          exact absurd e.1 (by decide)
  rw [hs, List.append_assoc, skipSpace_ws_append _ _ hw1, hvc]
  simp [skipSpace, hns]

end json

/-! ## The scanner accepts every text of the grammar nested within the limit -/

namespace json

open grammar

/-- Completeness of `scanString`: the text of the rule `*char` followed by a quotation mark is
scanned up to that mark. -/
theorem scanString_complete (cs : List Char) (h : IsChars cs) (rest : List Char) :
    scanString (cs ++ '"' :: rest) = some (cs, rest) := by
  induction h with
  | nil => rw [List.nil_append, scanString_cons, if_pos rfl]
  | unescaped c cs h1 h2 h3 _ ih =>
    rw [List.cons_append, scanString_cons, if_neg h2, if_neg h3, if_neg (by omega), ih]
    rfl
  | escape e cs he _ ih =>
    have hu : ¬ e = 'u' := by
      rcases he with x | x | x | x | x | x | x | x <;> subst x <;> decide
    have hesc : isEscape e = true := (isEscape_iff e).2 he
    rw [List.cons_append, List.cons_append, scanString_cons, if_neg (by decide), if_pos rfl]
    simp only
    rw [if_neg hu, if_pos hesc, ih]
    rfl
  | unicode h1 h2 h3 h4 cs x1 x2 x3 x4 _ ih =>
    have hh : (isHexDigit h1 && isHexDigit h2 && isHexDigit h3 && isHexDigit h4) = true := by
      simp [(isHexDigit_iff h1).2 x1, (isHexDigit_iff h2).2 x2, (isHexDigit_iff h3).2 x3,
        (isHexDigit_iff h4).2 x4]
    simp only [List.cons_append]
    rw [scanString_cons, if_neg (by decide), if_pos rfl]
    simp only [if_true]
    rw [if_pos hh, ih]
    rfl

theorem spanDigits_append (ds rest : List Char) (hd : ∀ c ∈ ds, '0' ≤ c ∧ c ≤ '9')
    (hr : ∀ c r, rest = c :: r → isDigit c = false) :
    spanDigits (ds ++ rest) = (ds, rest) := by
  induction ds with
  | nil =>
    rcases rest with _ | ⟨c, r⟩
    · rfl
    · simp [spanDigits, hr c r rfl]
  | cons c cs ih =>
    have hc : isDigit c = true := (isDigit_iff c).2 (hd c (List.mem_cons_self _ _))
    have := ih fun x hx => hd x (List.mem_cons_of_mem _ hx)
    simp [spanDigits, hc, this]

theorem scanInteger_complete (i rest : List Char) (hi : IsInt i)
    (hr : ∀ c r, rest = c :: r → isDigit c = false) :
    scanInteger (i ++ rest) = some (i, rest) := by
  rcases hi with hi | ⟨⟨hne, hd⟩, h0⟩
  · subst hi
    simp [scanInteger]
  · rcases i with _ | ⟨c, cs⟩
    · exact absurd rfl hne
    · have hc0 : ¬ c = '0' := by simpa using h0
      have hc : isDigit c = true := (isDigit_iff c).2 (hd c (List.mem_cons_self _ _))
      have hsp := spanDigits_append cs rest (fun x hx => hd x (List.mem_cons_of_mem _ hx)) hr
      simp [scanInteger, hc0, hc, hsp]

theorem scanFraction_complete (f rest : List Char) (hf : f = [] ∨ IsFrac f)
    (hr : ∀ c r, rest = c :: r → isDigit c = false)
    (hp : f = [] → ∀ c r, rest = c :: r → c ≠ '.') :
    scanFraction (f ++ rest) = some (f, rest) := by
  rcases hf with hf | ⟨ds, hf, hne, hd⟩
  · subst hf
    rcases rest with _ | ⟨c, r⟩
    · rfl
    · simp [scanFraction, hp rfl c r rfl]
  · subst hf
    have hsp := spanDigits_append ds rest hd hr
    rcases ds with _ | ⟨d0, d1⟩
    · exact absurd rfl hne
    · simp only [List.cons_append, scanFraction, if_true]
      rw [← List.cons_append, hsp]

theorem scanExponent_complete (e rest : List Char) (he : e = [] ∨ IsExp e)
    (hr : ∀ c r, rest = c :: r → isDigit c = false)
    (hp : e = [] → ∀ c r, rest = c :: r → c ≠ 'e' ∧ c ≠ 'E') :
    scanExponent (e ++ rest) = some (e, rest) := by
  rcases he with he | ⟨x, sg, ds, he, hx, hsg, hne, hd⟩
  · subst he
    rcases rest with _ | ⟨c, r⟩
    · rfl
    · simp [scanExponent, (hp rfl c r rfl).1, (hp rfl c r rfl).2]
  · subst he
    have hsp := spanDigits_append ds rest hd hr
    have hx1 : (decide (x = 'e') || decide (x = 'E')) = true := by
      rcases hx with y | y <;> simp [y]
    rcases ds with _ | ⟨d0, d1⟩
    · exact absurd rfl hne
    · have hd0 := hd d0 (List.mem_cons_self _ _)
      rcases hsg with y | y | y
      · subst y
        have hs : ¬ (decide (d0 = '+') || decide (d0 = '-')) = true := by
          intro hcon
          simp only [Bool.or_eq_true, decide_eq_true_eq] at hcon
          rcases hcon with z | z <;> rw [z] at hd0 <;> exact absurd hd0.1 (by decide)
        simp only [List.nil_append, List.cons_append, scanExponent]
        rw [if_pos hx1, if_neg hs, ← List.cons_append, hsp]
      · subst y
        simp only [List.cons_append, List.nil_append, scanExponent]
        rw [if_pos hx1, if_pos (by decide), ← List.cons_append, hsp]
      · subst y
        simp only [List.cons_append, List.nil_append, scanExponent]
        rw [if_pos hx1, if_pos (by decide), ← List.cons_append, hsp]

/-- Completeness of `scanNumber`: a text of the rule `number` followed by an input that does
not continue it is scanned whole. -/
theorem scanNumber_complete (t rest : List Char) (ht : IsNumber t) (hr : Delimited rest) :
    scanNumber (t ++ rest) = some (t, rest) := by
  obtain ⟨m, i, f, e, ht, hm, hi, hf, he⟩ := ht
  have r3 : ∀ c r, rest = c :: r → isDigit c = false := fun c r h => (hr c r h).1
  have r2 : ∀ c r, e ++ rest = c :: r → isDigit c = false ∧ c ≠ '.' := by
    intro c r h
    rcases he with he | ⟨x, sg, ds, he, hx, _⟩
    · subst he
      exact ⟨(hr c r h).1, (hr c r h).2.1⟩
    · subst he
      have : x = c := (List.cons.inj h).1
      subst this
      rcases hx with y | y <;> subst y <;> exact ⟨by decide, by decide⟩
  have r1 : ∀ c r, f ++ (e ++ rest) = c :: r → isDigit c = false := by
    intro c r h
    rcases hf with hf | ⟨ds, hf, _⟩
    · subst hf
      exact (r2 c r h).1
    · subst hf
      have : '.' = c := (List.cons.inj h).1
      subst this
      decide
  have h1 := scanInteger_complete i (f ++ (e ++ rest)) hi r1
  have h2 := scanFraction_complete f (e ++ rest) hf (fun c r h => (r2 c r h).1)
    (fun _ c r h => (r2 c r h).2)
  have h3 := scanExponent_complete e rest he r3
    (fun _ c r h => ⟨(hr c r h).2.2.1, (hr c r h).2.2.2⟩)
  have key : ∀ (sg s0 : List Char), s0 = i ++ (f ++ (e ++ rest)) →
      (match scanInteger s0 with
        | none => none
        | some (ip, s1) =>
          match scanFraction s1 with
          | none => none
          | some (fp, s2) =>
            match scanExponent s2 with
            | none => none
            | some (ep, s3) => some (sg ++ ip ++ fp ++ ep, s3)) =
        some (sg ++ i ++ f ++ e, rest) := by
    intro sg s0 hs0
    rw [hs0, h1]
    simp only
    rw [h2]
    simp only
    rw [h3]
  rcases hm with hm | hm
  · subst hm
    have hne : ∃ c cs, i = c :: cs ∧ c ≠ '-' := by
      rcases hi with hi | ⟨⟨hne, hd⟩, _⟩
      · exact ⟨'0', [], hi, by decide⟩
      · rcases i with _ | ⟨c, cs⟩
        · exact absurd rfl hne
        · refine ⟨c, cs, rfl, ?_⟩
          intro hc
          have := hd c (List.mem_cons_self _ _)
          rw [hc] at this
          exact absurd this.1 (by decide)
    obtain ⟨c, cs, hic, hc⟩ := hne
    have hs : t ++ rest = c :: (cs ++ (f ++ (e ++ rest))) := by
      rw [ht, hic]; simp
    rw [hs]
    simp only [scanNumber, if_neg hc]
    have := key [] (c :: (cs ++ (f ++ (e ++ rest)))) (by rw [hic]; simp)
    rw [ht]
    exact this
  · subst hm
    have hs : t ++ rest = '-' :: (i ++ (f ++ (e ++ rest))) := by
      rw [ht]; simp
    rw [hs]
    simp only [scanNumber, if_true]
    have := key ['-'] (i ++ (f ++ (e ++ rest))) rfl
    rw [ht]
    exact this

theorem scanWord_complete (w rest : List Char) : scanWord w (w ++ rest) = some rest := by
  induction w with
  | nil => rfl
  | cons c cs ih => simp [scanWord, ih]

theorem skipSpace_of_not_space (c : Char) (r : List Char) (h : isSpace c = false) :
    skipSpace (c :: r) = c :: r := by
  simp [skipSpace, h]

theorem skipSpace_ws (w : List Char) (hw : IsWS w) : skipSpace w = [] := by
  have := skipSpace_ws_append w [] hw
  rw [List.append_nil] at this
  rw [this]
  rfl

/-- Leading whitespace does not change what `scanElements` returns. -/
theorem scanElements_ws (fuel d : Nat) (w s : List Char) (hw : IsWS w) :
    scanElements fuel d (w ++ s) = scanElements fuel d s := by
  cases fuel with
  | zero => simp [scanElements]
  | succ n => rw [scanElements.eq_2, scanElements.eq_2, skipSpace_ws_append w s hw]

/-- Leading whitespace does not change what `scanMembers` returns. -/
theorem scanMembers_ws (fuel d : Nat) (w s : List Char) (hw : IsWS w) :
    scanMembers fuel d (w ++ s) = scanMembers fuel d s := by
  cases fuel with
  | zero => simp [scanMembers]
  | succ n => rw [scanMembers.eq_2, scanMembers.eq_2, skipSpace_ws_append w s hw]

theorem isSpace_of_start (c : Char)
    (hc : c = '{' ∨ c = '[' ∨ c = '"' ∨ c = '-' ∨ c = 't' ∨ c = 'f' ∨ c = 'n' ∨
      ('0' ≤ c ∧ c ≤ '9')) : isSpace c = false := by
  rcases hc with e | e | e | e | e | e | e | e
  · subst e; decide
  · subst e; decide
  · subst e; decide
  · subst e; decide
  · subst e; decide
  · subst e; decide
  · subst e; decide
  · cases hsp : isSpace c with
    | false => rfl
    | true =>
      rcases (isSpace_iff c).1 hsp with x | x | x | x <;> subst x <;>
        exact absurd e.1 (by decide)

/-- Whitespace before a value is skipped up to the value. -/
theorem skipSpace_value (v : Value) (w t y : List Char) (hw : IsWS w) (hv : IsValue v t) :
    skipSpace (w ++ (t ++ y)) = t ++ y := by
  obtain ⟨c, r, ht, hc⟩ := IsValue_head v t hv
  rw [skipSpace_ws_append _ _ hw, ht, List.cons_append]
  exact skipSpace_of_not_space c _ (isSpace_of_start c hc)

theorem Delimited_ws (w x : List Char) (hw : IsWS w) (hx : Delimited x) :
    Delimited (w ++ x) := by
  rcases w with _ | ⟨c, w1⟩
  · exact hx
  · intro c1 r h
    have e : c = c1 := (List.cons.inj h).1
    subst e
    rcases hw c (List.mem_cons_self _ _) with y | y | y | y <;> subst y <;>
      exact ⟨by decide, by decide, by decide, by decide⟩

theorem Delimited_cons (c : Char) (x : List Char)
    (hc : c = ',' ∨ c = ']' ∨ c = '}') : Delimited (c :: x) := by
  intro c1 r h
  have e : c = c1 := (List.cons.inj h).1
  subst e
  rcases hc with y | y | y <;> subst y <;> exact ⟨by decide, by decide, by decide, by decide⟩

theorem Delimited_nil : Delimited [] := by
  intro c r h
  exact List.noConfusion h

/-- The scanner on the text of a literal name, a number or a string. -/
theorem scanValue_scalar (v : Value) (t : List Char) (hv : IsValue v t)
    (hs : (∀ vs, v ≠ .array vs) ∧ (∀ ms, v ≠ .object ms)) (fuel d : Nat) (rest : List Char)
    (hr : Delimited rest) : scanValue (fuel + 1) d (t ++ rest) = some (v, rest) := by
  cases hv with
  | false =>
    have hw := scanWord_complete ['a', 'l', 's', 'e'] rest
    simp only [List.cons_append]
    rw [scanValue.eq_3, if_neg (by decide), if_neg (by decide), if_neg (by decide),
      if_neg (by decide), if_neg (by decide), if_pos rfl]
    exact congrArg (Option.map fun r => (Value.bool false, r)) hw
  | null =>
    have hw := scanWord_complete ['u', 'l', 'l'] rest
    simp only [List.cons_append]
    rw [scanValue.eq_3, if_neg (by decide), if_neg (by decide), if_neg (by decide),
      if_neg (by decide), if_neg (by decide), if_neg (by decide), if_pos rfl]
    exact congrArg (Option.map fun r => (Value.null, r)) hw
  | true =>
    have hw := scanWord_complete ['r', 'u', 'e'] rest
    simp only [List.cons_append]
    rw [scanValue.eq_3, if_neg (by decide), if_neg (by decide), if_neg (by decide),
      if_neg (by decide), if_pos rfl]
    exact congrArg (Option.map fun r => (Value.bool true, r)) hw
  | number _ hn =>
    have hnum := scanNumber_complete t rest hn hr
    obtain ⟨c, r, ht, hc⟩ := IsValue_head _ t (IsValue.number t hn)
    have hc1 : c = '-' ∨ ('0' ≤ c ∧ c ≤ '9') := by
      obtain ⟨m, i, f, e, hte, hm, hi, _, _⟩ := hn
      rcases hm with hm | hm
      · subst hm
        rcases hi with hi | ⟨⟨hne, hd⟩, _⟩
        · subst hi
          have : c = '0' := by
            rw [hte] at ht
            exact ((List.cons.inj ht).1).symm
          subst this
          exact Or.inr (by decide)
        · rcases i with _ | ⟨c0, cs⟩
          · exact absurd rfl hne
          · have : c = c0 := by
              rw [hte] at ht
              exact ((List.cons.inj ht).1).symm
            subst this
            exact Or.inr (hd c (List.mem_cons_self _ _))
      · subst hm
        have : c = '-' := by
          rw [hte] at ht
          exact ((List.cons.inj ht).1).symm
        exact Or.inl this
    have h1 : ¬ c = '{' := by
      rcases hc1 with y | y
      · subst y; decide
      · intro e; rw [e] at y; exact absurd y.2 (by decide)
    have h2 : ¬ c = '[' := by
      rcases hc1 with y | y
      · subst y; decide
      · intro e; rw [e] at y; exact absurd y.2 (by decide)
    have h3 : ¬ c = '"' := by
      rcases hc1 with y | y
      · subst y; decide
      · intro e; rw [e] at y; exact absurd y.1 (by decide)
    have h4 : (decide (c = '-') || isDigit c) = true := by
      rcases hc1 with y | y
      · subst y; decide
      · simp [(isDigit_iff c).2 y]
    have hs1 : t ++ rest = c :: (r ++ rest) := by rw [ht]; rfl
    rw [hs1, scanValue.eq_3, if_neg h1, if_neg h2, if_neg h3, if_pos h4, ← hs1, hnum]
    rfl
  | string cs hcs =>
    have := scanString_complete cs hcs rest
    simp only [List.cons_append, List.append_assoc, List.nil_append]
    rw [scanValue.eq_3, if_neg (by decide), if_neg (by decide), if_pos rfl, this]
    rfl
  | emptyArray w hw => exact absurd rfl (hs.1 _)
  | array vs t ht => exact absurd rfl (hs.1 _)
  | emptyObject w hw => exact absurd rfl (hs.2 _)
  | object ms t ht => exact absurd rfl (hs.2 _)

theorem IsElements_head (vs : List Value) (t : List Char) (h : IsElements vs t)
    (y : List Char) : ∃ c r, skipSpace (t ++ y) = c :: r ∧ c ≠ ']' := by
  have key : ∀ (v : Value) (w1 tv z : List Char), IsWS w1 → IsValue v tv →
      ∃ c r, skipSpace (w1 ++ (tv ++ z)) = c :: r ∧ c ≠ ']' := by
    intro v w1 tv z hw hv
    obtain ⟨c, r, ht, hc⟩ := IsValue_head v tv hv
    refine ⟨c, r ++ z, ?_, ?_⟩
    · rw [skipSpace_value v w1 tv z hw hv, ht]; rfl
    · rcases hc with e | e | e | e | e | e | e | e
      · subst e; decide
      · subst e; decide
      · subst e; decide
      · subst e; decide
      · subst e; decide
      · subst e; decide
      · subst e; decide
      · intro x; rw [x] at e; exact absurd e.2 (by decide)
  cases h with
  | one v w1 tv w2 h1 hv h2 =>
    have := key v w1 tv (w2 ++ y) h1 hv
    simpa [List.append_assoc] using this
  | cons v vs w1 tv w2 r h1 hv h2 hr =>
    have := key v w1 tv (w2 ++ ',' :: (r ++ y)) h1 hv
    simpa [List.append_assoc] using this

theorem IsMembers_head (ms : List (String × Value)) (t : List Char) (h : IsMembers ms t)
    (y : List Char) : ∃ r, skipSpace (t ++ y) = '"' :: r := by
  cases h with
  | one v w1 k w2 w3 tv w4 h1 hk h2 h3 hv h4 =>
    refine ⟨k ++ '"' :: (w2 ++ ':' :: (w3 ++ (tv ++ (w4 ++ y)))), ?_⟩
    simp only [List.append_assoc, List.cons_append, List.nil_append]
    rw [skipSpace_ws_append _ _ h1]
    exact skipSpace_of_not_space _ _ (by decide)
  | cons v ms w1 k w2 w3 tv w4 r h1 hk h2 h3 hv h4 hr =>
    refine ⟨k ++ '"' :: (w2 ++ ':' :: (w3 ++ (tv ++ (w4 ++ ',' :: (r ++ y))))), ?_⟩
    simp only [List.append_assoc, List.cons_append, List.nil_append]
    rw [skipSpace_ws_append _ _ h1]
    exact skipSpace_of_not_space _ _ (by decide)

theorem IsValue_length_pos (v : Value) (t : List Char) (h : IsValue v t) : 0 < t.length := by
  obtain ⟨c, r, ht, _⟩ := IsValue_head v t h
  rw [ht]
  simp

theorem scanValue_complete_step (n : Nat) (ihE : ElementsComplete n)
    (ihM : MembersComplete n) (v : Value) (t : List Char)
    (hlen : t.length ≤ n + 1) (hv : IsValue v t) (k d fuel : Nat) (rest : List Char)
    (hN : NestedWithin k v) (hd : d + k ≤ maxNestingDepth) (hfuel : 2 * t.length < fuel)
    (hr : Delimited rest) : scanValue fuel d (t ++ rest) = some (v, rest) := by
  obtain ⟨f, hf⟩ : ∃ f, fuel = f + 1 := ⟨fuel - 1, by omega⟩
  subst hf
  cases hv with
  | false => exact scanValue_scalar _ _ IsValue.false ⟨by simp, by simp⟩ f d rest hr
  | null => exact scanValue_scalar _ _ IsValue.null ⟨by simp, by simp⟩ f d rest hr
  | true => exact scanValue_scalar _ _ IsValue.true ⟨by simp, by simp⟩ f d rest hr
  | number _ hn =>
    exact scanValue_scalar _ _ (IsValue.number t hn) ⟨by simp, by simp⟩ f d rest hr
  | string cs hcs =>
    exact scanValue_scalar _ _ (IsValue.string cs hcs) ⟨by simp, by simp⟩ f d rest hr
  | emptyArray w hw =>
    cases hN with
    | array k1 _ _ =>
      have hd1 : d < maxNestingDepth := by omega
      have hsk : skipSpace (w ++ ']' :: rest) = ']' :: rest := by
        rw [skipSpace_ws_append _ _ hw]
        exact skipSpace_of_not_space _ _ (by decide)
      simp only [List.cons_append, List.append_assoc, List.nil_append]
      rw [scanValue.eq_3, if_neg (by decide), if_pos rfl, if_pos hd1, hsk]
      simp
  | array vs t1 ht1 =>
    cases hN with
    | array k1 _ hall =>
      have hd1 : d < maxNestingDepth := by omega
      obtain ⟨c2, r1, hsk, hc2⟩ := IsElements_head vs t1 ht1 (']' :: rest)
      obtain ⟨w, hw, hsp⟩ := skipSpace_spec (t1 ++ ']' :: rest)
      have hl : t1.length ≤ n := by simp at hlen; omega
      have hfu : 2 * t1.length + 1 < f := by simp at hfuel; omega
      have hel := ihE vs t1 hl ht1 k1 (d + 1) f rest hall (by omega) hfu
      rw [hsp, scanElements_ws _ _ _ _ hw, hsk] at hel
      simp only [List.cons_append, List.append_assoc, List.nil_append]
      rw [scanValue.eq_3, if_neg (by decide), if_pos rfl, if_pos hd1, hsk]
      simp only
      rw [if_neg hc2, hel]
      rfl
  | emptyObject w hw =>
    cases hN with
    | object k1 _ _ =>
      have hd1 : d < maxNestingDepth := by omega
      have hsk : skipSpace (w ++ '}' :: rest) = '}' :: rest := by
        rw [skipSpace_ws_append _ _ hw]
        exact skipSpace_of_not_space _ _ (by decide)
      simp only [List.cons_append, List.append_assoc, List.nil_append]
      rw [scanValue.eq_3, if_pos rfl, if_pos hd1, hsk]
      simp
  | object ms t1 ht1 =>
    cases hN with
    | object k1 _ hall =>
      have hd1 : d < maxNestingDepth := by omega
      obtain ⟨r1, hsk⟩ := IsMembers_head ms t1 ht1 ('}' :: rest)
      obtain ⟨w, hw, hsp⟩ := skipSpace_spec (t1 ++ '}' :: rest)
      have hl : t1.length ≤ n := by simp at hlen; omega
      have hfu : 2 * t1.length + 1 < f := by simp at hfuel; omega
      have hel := ihM ms t1 hl ht1 k1 (d + 1) f rest hall (by omega) hfu
      rw [hsp, scanMembers_ws _ _ _ _ hw, hsk] at hel
      simp only [List.cons_append, List.append_assoc, List.nil_append]
      rw [scanValue.eq_3, if_pos rfl, if_pos hd1, hsk]
      simp only
      rw [if_neg (by decide), hel]
      rfl

theorem scanElements_complete_step (n : Nat) (ihV : ValueComplete (n + 1))
    (ihE : ElementsComplete n) (vs : List Value)
    (t : List Char) (hlen : t.length ≤ n + 1) (hv : IsElements vs t) (k d fuel : Nat)
    (rest : List Char) (hN : ∀ v, v ∈ vs → NestedWithin k v) (hd : d + k ≤ maxNestingDepth)
    (hfuel : 2 * t.length + 1 < fuel) :
    scanElements fuel d (t ++ ']' :: rest) = some (vs, rest) := by
  obtain ⟨f, hf⟩ : ∃ f, fuel = f + 1 := ⟨fuel - 1, by omega⟩
  subst hf
  cases hv with
  | one v w1 tv w2 h1 hval h2 =>
    have hpos := IsValue_length_pos v tv hval
    have hl : tv.length ≤ n + 1 := by simp at hlen; omega
    have hfu : 2 * tv.length < f := by simp at hfuel; omega
    have hsv := ihV v tv hl hval k d f (w2 ++ ']' :: rest) (hN v (by simp)) hd hfu
      (Delimited_ws _ _ h2 (Delimited_cons _ _ (by simp)))
    have hsk2 : skipSpace (w2 ++ ']' :: rest) = ']' :: rest := by
      rw [skipSpace_ws_append _ _ h2]
      exact skipSpace_of_not_space _ _ (by decide)
    simp only [List.append_assoc]
    rw [scanElements.eq_2, skipSpace_value v w1 tv _ h1 hval, hsv]
    simp only
    rw [hsk2]
    simp
  | cons v vs1 w1 tv w2 r h1 hval h2 hr =>
    have hpos := IsValue_length_pos v tv hval
    have hl : tv.length ≤ n + 1 := by simp at hlen; omega
    have hl2 : r.length ≤ n := by simp at hlen; omega
    have hfu : 2 * tv.length < f := by simp at hfuel; omega
    have hfu2 : 2 * r.length + 1 < f := by simp at hfuel; omega
    have hsv := ihV v tv hl hval k d f (w2 ++ ',' :: (r ++ ']' :: rest)) (hN v (by simp)) hd
      hfu (Delimited_ws _ _ h2 (Delimited_cons _ _ (by simp)))
    have hse := ihE vs1 r hl2 hr k d f rest
      (fun x hx => hN x (List.mem_cons_of_mem _ hx)) hd hfu2
    have hsk2 : skipSpace (w2 ++ ',' :: (r ++ ']' :: rest)) = ',' :: (r ++ ']' :: rest) := by
      rw [skipSpace_ws_append _ _ h2]
      exact skipSpace_of_not_space _ _ (by decide)
    simp only [List.append_assoc, List.cons_append]
    rw [scanElements.eq_2, skipSpace_value v w1 tv _ h1 hval, hsv]
    simp only
    rw [hsk2]
    simp only [if_true]
    rw [hse]
    rfl

theorem scanMembers_complete_step (n : Nat) (ihV : ValueComplete (n + 1))
    (ihM : MembersComplete n) (ms : List (String × Value)) (t : List Char) (hlen : t.length ≤ n + 1)
    (hv : IsMembers ms t) (k d fuel : Nat) (rest : List Char)
    (hN : ∀ kv, kv ∈ ms → NestedWithin k kv.2) (hd : d + k ≤ maxNestingDepth)
    (hfuel : 2 * t.length + 1 < fuel) :
    scanMembers fuel d (t ++ '}' :: rest) = some (ms, rest) := by
  obtain ⟨f, hf⟩ : ∃ f, fuel = f + 1 := ⟨fuel - 1, by omega⟩
  subst hf
  have hq : ∀ (w1 key z : List Char), IsWS w1 →
      skipSpace (w1 ++ '"' :: (key ++ z)) = '"' :: (key ++ z) := by
    intro w1 key z h1
    rw [skipSpace_ws_append _ _ h1]
    exact skipSpace_of_not_space _ _ (by decide)
  have hcolon : ∀ (w2 z : List Char), IsWS w2 → skipSpace (w2 ++ ':' :: z) = ':' :: z := by
    intro w2 z h2
    rw [skipSpace_ws_append _ _ h2]
    exact skipSpace_of_not_space _ _ (by decide)
  cases hv with
  | one v w1 key w2 w3 tv w4 h1 hk h2 h3 hval h4 =>
    have hpos := IsValue_length_pos v tv hval
    have hl : tv.length ≤ n + 1 := by simp at hlen; omega
    have hfu : 2 * tv.length < f := by simp at hfuel; omega
    have hsv := ihV v tv hl hval k d f (w4 ++ '}' :: rest)
      (hN (⟨unquote key⟩, v) (by simp)) hd hfu
      (Delimited_ws _ _ h4 (Delimited_cons _ _ (by simp)))
    have hsk4 : skipSpace (w4 ++ '}' :: rest) = '}' :: rest := by
      rw [skipSpace_ws_append _ _ h4]
      exact skipSpace_of_not_space _ _ (by decide)
    simp only [List.append_assoc, List.cons_append, List.nil_append]
    rw [scanMembers.eq_2, hq w1 key _ h1]
    simp only [if_true]
    rw [scanString_complete key hk]
    simp only
    rw [hcolon w2 _ h2]
    simp only [if_true]
    rw [skipSpace_value v w3 tv _ h3 hval, hsv]
    simp only
    rw [hsk4]
    simp
  | cons v ms1 w1 key w2 w3 tv w4 r h1 hk h2 h3 hval h4 hr =>
    have hpos := IsValue_length_pos v tv hval
    have hl : tv.length ≤ n + 1 := by simp at hlen; omega
    have hl2 : r.length ≤ n := by simp at hlen; omega
    have hfu : 2 * tv.length < f := by simp at hfuel; omega
    have hfu2 : 2 * r.length + 1 < f := by simp at hfuel; omega
    have hsv := ihV v tv hl hval k d f (w4 ++ ',' :: (r ++ '}' :: rest))
      (hN (⟨unquote key⟩, v) (by simp)) hd hfu (Delimited_ws _ _ h4 (Delimited_cons _ _ (by simp)))
    have hse := ihM ms1 r hl2 hr k d f rest
      (fun x hx => hN x (List.mem_cons_of_mem _ hx)) hd hfu2
    have hsk4 : skipSpace (w4 ++ ',' :: (r ++ '}' :: rest)) = ',' :: (r ++ '}' :: rest) := by
      rw [skipSpace_ws_append _ _ h4]
      exact skipSpace_of_not_space _ _ (by decide)
    simp only [List.append_assoc, List.cons_append, List.nil_append]
    rw [scanMembers.eq_2, hq w1 key _ h1]
    simp only [if_true]
    rw [scanString_complete key hk]
    simp only
    rw [hcolon w2 _ h2]
    simp only [if_true]
    rw [skipSpace_value v w3 tv _ h3 hval, hsv]
    simp only
    rw [hsk4]
    simp only [if_true]
    rw [hse]
    rfl

theorem scan_complete_length (n : Nat) :
    ValueComplete n ∧ ElementsComplete n ∧ MembersComplete n := by
  induction n with
  | zero =>
    refine ⟨?_, ?_, ?_⟩
    · intro v t hlen hv
      have := IsValue_length_pos v t hv
      omega
    · intro vs t hlen hv
      cases hv with
      | one v w1 tv w2 h1 hval h2 =>
        have := IsValue_length_pos v tv hval
        rw [List.length_append, List.length_append] at hlen
        omega
      | cons v vs1 w1 tv w2 r h1 hval h2 hr =>
        simp at hlen
    · intro ms t hlen hv
      cases hv with
      | one v w1 key w2 w3 tv w4 h1 hk h2 h3 hval h4 => simp at hlen
      | cons v ms1 w1 key w2 w3 tv w4 r h1 hk h2 h3 hval h4 hr => simp at hlen
  | succ n ih =>
    have hV : ValueComplete (n + 1) := fun v t hlen hv k d fuel rest =>
      scanValue_complete_step n ih.2.1 ih.2.2 v t hlen hv k d fuel rest
    exact ⟨hV,
      fun vs t hlen hv k d fuel rest =>
        scanElements_complete_step n hV ih.2.1 vs t hlen hv k d fuel rest,
      fun ms t hlen hv k d fuel rest =>
        scanMembers_complete_step n hV ih.2.2 ms t hlen hv k d fuel rest⟩

/-- Completeness of the scanner: a JSON text of the grammar in which arrays and objects are
nested at most `maxNestingDepth` deep is accepted, with the value it denotes. -/
theorem scan_complete (data : List Char) (v : Value) (h : IsJSONTextOf v data)
    (hN : NestedWithin maxNestingDepth v) : scan data = some v := by
  obtain ⟨w1, t, w2, hs, hw1, hv, hw2⟩ := h
  have hsv := (scan_complete_length t.length).1 v t (Nat.le_refl _) hv maxNestingDepth 0
    (2 * data.length + 1) w2 hN (by omega) (by rw [hs]; simp; omega)
    (by simpa using Delimited_ws _ _ hw2 Delimited_nil)
  unfold scan
  have hsk : skipSpace data = t ++ w2 := by
    rw [hs, List.append_assoc]
    exact skipSpace_value v w1 t w2 hw1 hv
  rw [hsk, hsv]
  simp only
  rw [if_pos (skipSpace_ws w2 hw2)]

end json

/-! ## A text of the grammar denotes one value, the one the scanner yields -/

namespace json

open grammar

theorem map_none_or {α β : Type} (o : Option α) (f : α → β) (a : α)
    (h : o = none ∨ o = some a) : o.map f = none ∨ o.map f = some (f a) := by
  rcases h with h | h
  · exact Or.inl (by rw [h]; rfl)
  · exact Or.inr (by rw [h]; rfl)

theorem scanValue_agrees_step (n : Nat) (ihE : ElementsAgree n) (ihM : MembersAgree n)
    (v : Value) (t : List Char) (hlen : t.length ≤ n + 1) (hv : IsValue v t)
    (fuel d : Nat) (rest : List Char) (hr : Delimited rest) :
    scanValue fuel d (t ++ rest) = none ∨ scanValue fuel d (t ++ rest) = some (v, rest) := by
  cases fuel with
  | zero => exact Or.inl (by rw [scanValue.eq_1])
  | succ f =>
    cases hv with
    | false => exact Or.inr (scanValue_scalar _ _ IsValue.false ⟨by simp, by simp⟩ f d rest hr)
    | null => exact Or.inr (scanValue_scalar _ _ IsValue.null ⟨by simp, by simp⟩ f d rest hr)
    | true => exact Or.inr (scanValue_scalar _ _ IsValue.true ⟨by simp, by simp⟩ f d rest hr)
    | number _ hn =>
      exact Or.inr
        (scanValue_scalar _ _ (IsValue.number t hn) ⟨by simp, by simp⟩ f d rest hr)
    | string cs hcs =>
      exact Or.inr
        (scanValue_scalar _ _ (IsValue.string cs hcs) ⟨by simp, by simp⟩ f d rest hr)
    | emptyArray w hw =>
      have hsk : skipSpace (w ++ ']' :: rest) = ']' :: rest := by
        rw [skipSpace_ws_append _ _ hw]
        exact skipSpace_of_not_space _ _ (by decide)
      simp only [List.cons_append, List.append_assoc, List.nil_append]
      rw [scanValue.eq_3, if_neg (by decide), if_pos rfl]
      by_cases hd1 : d < maxNestingDepth
      · rw [if_pos hd1, hsk]
        simp
      · rw [if_neg hd1]
        exact Or.inl rfl
    | array vs t1 ht1 =>
      obtain ⟨c2, r1, hsk, hc2⟩ := IsElements_head vs t1 ht1 (']' :: rest)
      obtain ⟨w, hw, hsp⟩ := skipSpace_spec (t1 ++ ']' :: rest)
      have hl : t1.length ≤ n := by simp at hlen; omega
      have hel := ihE vs t1 hl ht1 f (d + 1) rest
      rw [hsp, scanElements_ws _ _ _ _ hw, hsk] at hel
      simp only [List.cons_append, List.append_assoc, List.nil_append]
      rw [scanValue.eq_3, if_neg (by decide), if_pos rfl]
      by_cases hd1 : d < maxNestingDepth
      · rw [if_pos hd1, hsk]
        simp only
        rw [if_neg hc2]
        exact map_none_or _ (fun p => (Value.array p.1, p.2)) (vs, rest) hel
      · rw [if_neg hd1]
        exact Or.inl rfl
    | emptyObject w hw =>
      have hsk : skipSpace (w ++ '}' :: rest) = '}' :: rest := by
        rw [skipSpace_ws_append _ _ hw]
        exact skipSpace_of_not_space _ _ (by decide)
      simp only [List.cons_append, List.append_assoc, List.nil_append]
      rw [scanValue.eq_3, if_pos rfl]
      by_cases hd1 : d < maxNestingDepth
      · rw [if_pos hd1, hsk]
        simp
      · rw [if_neg hd1]
        exact Or.inl rfl
    | object ms t1 ht1 =>
      obtain ⟨r1, hsk⟩ := IsMembers_head ms t1 ht1 ('}' :: rest)
      obtain ⟨w, hw, hsp⟩ := skipSpace_spec (t1 ++ '}' :: rest)
      have hl : t1.length ≤ n := by simp at hlen; omega
      have hel := ihM ms t1 hl ht1 f (d + 1) rest
      rw [hsp, scanMembers_ws _ _ _ _ hw, hsk] at hel
      simp only [List.cons_append, List.append_assoc, List.nil_append]
      rw [scanValue.eq_3, if_pos rfl]
      by_cases hd1 : d < maxNestingDepth
      · rw [if_pos hd1, hsk]
        simp only
        rw [if_neg (by decide)]
        exact map_none_or _ (fun p => (Value.object p.1, p.2)) (ms, rest) hel
      · rw [if_neg hd1]
        exact Or.inl rfl

theorem scanElements_agrees_step (n : Nat) (ihV : ValueAgrees (n + 1))
    (ihE : ElementsAgree n) (vs : List Value) (t : List Char) (hlen : t.length ≤ n + 1)
    (hv : IsElements vs t) (fuel d : Nat) (rest : List Char) :
    scanElements fuel d (t ++ ']' :: rest) = none ∨
    scanElements fuel d (t ++ ']' :: rest) = some (vs, rest) := by
  cases fuel with
  | zero => exact Or.inl (by simp [scanElements])
  | succ f =>
    cases hv with
    | one v w1 tv w2 h1 hval h2 =>
      have hl : tv.length ≤ n + 1 := by simp at hlen; omega
      have hsv := ihV v tv hl hval f d (w2 ++ ']' :: rest)
        (Delimited_ws _ _ h2 (Delimited_cons _ _ (by simp)))
      have hsk2 : skipSpace (w2 ++ ']' :: rest) = ']' :: rest := by
        rw [skipSpace_ws_append _ _ h2]
        exact skipSpace_of_not_space _ _ (by decide)
      simp only [List.append_assoc]
      rw [scanElements.eq_2, skipSpace_value v w1 tv _ h1 hval]
      rcases hsv with hsv | hsv
      · rw [hsv]
        exact Or.inl rfl
      · rw [hsv]
        simp only
        rw [hsk2]
        simp
    | cons v vs1 w1 tv w2 r h1 hval h2 hr =>
      have hpos := IsValue_length_pos v tv hval
      have hl : tv.length ≤ n + 1 := by simp at hlen; omega
      have hl2 : r.length ≤ n := by simp at hlen; omega
      have hsv := ihV v tv hl hval f d (w2 ++ ',' :: (r ++ ']' :: rest))
        (Delimited_ws _ _ h2 (Delimited_cons _ _ (by simp)))
      have hse := ihE vs1 r hl2 hr f d rest
      have hsk2 : skipSpace (w2 ++ ',' :: (r ++ ']' :: rest)) = ',' :: (r ++ ']' :: rest) := by
        rw [skipSpace_ws_append _ _ h2]
        exact skipSpace_of_not_space _ _ (by decide)
      simp only [List.append_assoc, List.cons_append]
      rw [scanElements.eq_2, skipSpace_value v w1 tv _ h1 hval]
      rcases hsv with hsv | hsv
      · rw [hsv]
        exact Or.inl rfl
      · rw [hsv]
        simp only
        rw [hsk2]
        simp only [if_true]
        exact map_none_or _ (fun p => (v :: p.1, p.2)) (vs1, rest) hse

theorem scanMembers_agrees_step (n : Nat) (ihV : ValueAgrees (n + 1))
    (ihM : MembersAgree n) (ms : List (String × Value)) (t : List Char)
    (hlen : t.length ≤ n + 1) (hv : IsMembers ms t) (fuel d : Nat) (rest : List Char) :
    scanMembers fuel d (t ++ '}' :: rest) = none ∨
    scanMembers fuel d (t ++ '}' :: rest) = some (ms, rest) := by
  cases fuel with
  | zero => exact Or.inl (by simp [scanMembers])
  | succ f =>
    have hq : ∀ (w1 key z : List Char), IsWS w1 →
        skipSpace (w1 ++ '"' :: (key ++ z)) = '"' :: (key ++ z) := by
      intro w1 key z h1
      rw [skipSpace_ws_append _ _ h1]
      exact skipSpace_of_not_space _ _ (by decide)
    have hcolon : ∀ (w2 z : List Char), IsWS w2 → skipSpace (w2 ++ ':' :: z) = ':' :: z := by
      intro w2 z h2
      rw [skipSpace_ws_append _ _ h2]
      exact skipSpace_of_not_space _ _ (by decide)
    cases hv with
    | one v w1 key w2 w3 tv w4 h1 hk h2 h3 hval h4 =>
      have hl : tv.length ≤ n + 1 := by simp at hlen; omega
      have hsv := ihV v tv hl hval f d (w4 ++ '}' :: rest)
        (Delimited_ws _ _ h4 (Delimited_cons _ _ (by simp)))
      have hsk4 : skipSpace (w4 ++ '}' :: rest) = '}' :: rest := by
        rw [skipSpace_ws_append _ _ h4]
        exact skipSpace_of_not_space _ _ (by decide)
      simp only [List.append_assoc, List.cons_append, List.nil_append]
      rw [scanMembers.eq_2, hq w1 key _ h1]
      simp only [if_true]
      rw [scanString_complete key hk]
      simp only
      rw [hcolon w2 _ h2]
      simp only [if_true]
      rw [skipSpace_value v w3 tv _ h3 hval]
      rcases hsv with hsv | hsv
      · rw [hsv]
        exact Or.inl rfl
      · rw [hsv]
        simp only
        rw [hsk4]
        simp
    | cons v ms1 w1 key w2 w3 tv w4 r h1 hk h2 h3 hval h4 hr =>
      have hl : tv.length ≤ n + 1 := by simp at hlen; omega
      have hl2 : r.length ≤ n := by simp at hlen; omega
      have hsv := ihV v tv hl hval f d (w4 ++ ',' :: (r ++ '}' :: rest))
        (Delimited_ws _ _ h4 (Delimited_cons _ _ (by simp)))
      have hse := ihM ms1 r hl2 hr f d rest
      have hsk4 : skipSpace (w4 ++ ',' :: (r ++ '}' :: rest)) = ',' :: (r ++ '}' :: rest) := by
        rw [skipSpace_ws_append _ _ h4]
        exact skipSpace_of_not_space _ _ (by decide)
      simp only [List.append_assoc, List.cons_append, List.nil_append]
      rw [scanMembers.eq_2, hq w1 key _ h1]
      simp only [if_true]
      rw [scanString_complete key hk]
      simp only
      rw [hcolon w2 _ h2]
      simp only [if_true]
      rw [skipSpace_value v w3 tv _ h3 hval]
      rcases hsv with hsv | hsv
      · rw [hsv]
        exact Or.inl rfl
      · rw [hsv]
        simp only
        rw [hsk4]
        simp only [if_true]
        exact map_none_or _ (fun p => ((⟨unquote key⟩, v) :: p.1, p.2)) (ms1, rest) hse

theorem scan_agrees_length (n : Nat) :
    ValueAgrees n ∧ ElementsAgree n ∧ MembersAgree n := by
  induction n with
  | zero =>
    refine ⟨?_, ?_, ?_⟩
    · intro v t hlen hv
      have := IsValue_length_pos v t hv
      omega
    · intro vs t hlen hv
      cases hv with
      | one v w1 tv w2 h1 hval h2 =>
        have := IsValue_length_pos v tv hval
        rw [List.length_append, List.length_append] at hlen
        omega
      | cons v vs1 w1 tv w2 r h1 hval h2 hr =>
        simp at hlen
    · intro ms t hlen hv
      cases hv with
      | one v w1 key w2 w3 tv w4 h1 hk h2 h3 hval h4 => simp at hlen
      | cons v ms1 w1 key w2 w3 tv w4 r h1 hk h2 h3 hval h4 hr => simp at hlen
  | succ n ih =>
    have hV : ValueAgrees (n + 1) := fun v t hlen hv fuel d rest =>
      scanValue_agrees_step n ih.2.1 ih.2.2 v t hlen hv fuel d rest
    exact ⟨hV,
      fun vs t hlen hv fuel d rest =>
        scanElements_agrees_step n hV ih.2.1 vs t hlen hv fuel d rest,
      fun ms t hlen hv fuel d rest =>
        scanMembers_agrees_step n hV ih.2.2 ms t hlen hv fuel d rest⟩

/-- When the scanner accepts a JSON text, the value it yields is the value the text denotes,
by whatever derivation of the grammar. -/
theorem scan_agrees (data : List Char) (v v1 : Value) (h : IsJSONTextOf v data)
    (hs : scan data = some v1) : v1 = v := by
  obtain ⟨w1, t, w2, hd, hw1, hv, hw2⟩ := h
  have hsk : skipSpace data = t ++ w2 := by
    rw [hd, List.append_assoc]
    exact skipSpace_value v w1 t w2 hw1 hv
  have hag := (scan_agrees_length t.length).1 v t (Nat.le_refl _) hv (2 * data.length + 1) 0 w2
    (by simpa using Delimited_ws _ _ hw2 Delimited_nil)
  unfold scan at hs
  rw [hsk] at hs
  rcases hag with hag | hag
  · rw [hag] at hs
    simp at hs
  · rw [hag] at hs
    simp only at hs
    rw [if_pos (skipSpace_ws w2 hw2)] at hs
    exact (Option.some.inj hs).symm

theorem NestedWithin_array (k : Nat) (vs : List Value) (hk : 0 < k)
    (h : ∀ v, v ∈ vs → NestedWithin (k - 1) v) : NestedWithin k (.array vs) := by
  have := NestedWithin.array (k - 1) vs h
  have e : k - 1 + 1 = k := by omega
  rw [e] at this
  exact this

theorem NestedWithin_object (k : Nat) (ms : List (String × Value)) (hk : 0 < k)
    (h : ∀ kv, kv ∈ ms → NestedWithin (k - 1) kv.2) : NestedWithin k (.object ms) := by
  have := NestedWithin.object (k - 1) ms h
  have e : k - 1 + 1 = k := by omega
  rw [e] at this
  exact this

theorem scanValue_nested_step (fuel : Nat) (ih : ScanNested fuel) (d : Nat) (s : List Char)
    (v : Value) (r : List Char) (h : scanValue (fuel + 1) d s = some (v, r)) :
    NestedWithin (maxNestingDepth - d) v := by
  rcases s with _ | ⟨c, cs⟩
  · simp [scanValue] at h
  · rw [scanValue.eq_3] at h
    by_cases hob : c = '{'
    · rw [if_pos hob] at h
      by_cases hd : d < maxNestingDepth
      · rw [if_pos hd] at h
        rcases hsk : skipSpace cs with _ | ⟨c2, r1⟩
        · rw [hsk] at h; simp at h
        · rw [hsk] at h
          simp only at h
          by_cases hcl : c2 = '}'
          · rw [if_pos hcl] at h
            simp only [Option.some.injEq, Prod.mk.injEq] at h
            rw [← h.1]
            exact NestedWithin_object _ _ (by omega) (fun _ hkv => absurd hkv (List.not_mem_nil _))
          · rw [if_neg hcl] at h
            obtain ⟨ms, r2, hm, e⟩ := map_eq_some_pair _ _ _ _ h
            simp only [Prod.mk.injEq] at e
            rw [← e.1]
            refine NestedWithin_object _ _ (by omega) ?_
            have := ih.2.2 _ _ _ _ hm
            have e2 : maxNestingDepth - d - 1 = maxNestingDepth - (d + 1) := by omega
            rw [e2]
            exact this
      · rw [if_neg hd] at h
        simp at h
    · rw [if_neg hob] at h
      by_cases hoa : c = '['
      · rw [if_pos hoa] at h
        by_cases hd : d < maxNestingDepth
        · rw [if_pos hd] at h
          rcases hsk : skipSpace cs with _ | ⟨c2, r1⟩
          · rw [hsk] at h; simp at h
          · rw [hsk] at h
            simp only at h
            by_cases hcl : c2 = ']'
            · rw [if_pos hcl] at h
              simp only [Option.some.injEq, Prod.mk.injEq] at h
              rw [← h.1]
              exact NestedWithin_array _ _ (by omega)
                (fun _ hkv => absurd hkv (List.not_mem_nil _))
            · rw [if_neg hcl] at h
              obtain ⟨vs, r2, hm, e⟩ := map_eq_some_pair _ _ _ _ h
              simp only [Prod.mk.injEq] at e
              rw [← e.1]
              refine NestedWithin_array _ _ (by omega) ?_
              have := ih.2.1 _ _ _ _ hm
              have e2 : maxNestingDepth - d - 1 = maxNestingDepth - (d + 1) := by omega
              rw [e2]
              exact this
        · rw [if_neg hd] at h
          simp at h
      · rw [if_neg hoa] at h
        by_cases hq : c = '"'
        · rw [if_pos hq] at h
          obtain ⟨_, _, _, e⟩ := map_eq_some_pair _ _ _ _ h
          simp only [Prod.mk.injEq] at e
          rw [← e.1]
          exact NestedWithin.string _ _
        · rw [if_neg hq] at h
          by_cases hn : (decide (c = '-') || isDigit c) = true
          · rw [if_pos hn] at h
            obtain ⟨_, _, _, e⟩ := map_eq_some_pair _ _ _ _ h
            simp only [Prod.mk.injEq] at e
            rw [← e.1]
            exact NestedWithin.number _ _
          · rw [if_neg hn] at h
            by_cases ht : c = 't'
            · rw [if_pos ht] at h
              rcases hwd : scanWord "rue".data cs with _ | r1
              · rw [hwd] at h; simp at h
              · rw [hwd] at h
                simp only [Option.map_some', Option.some.injEq, Prod.mk.injEq] at h
                rw [← h.1]
                exact NestedWithin.bool _ _
            · rw [if_neg ht] at h
              by_cases hf : c = 'f'
              · rw [if_pos hf] at h
                rcases hwd : scanWord "alse".data cs with _ | r1
                · rw [hwd] at h; simp at h
                · rw [hwd] at h
                  simp only [Option.map_some', Option.some.injEq, Prod.mk.injEq] at h
                  rw [← h.1]
                  exact NestedWithin.bool _ _
              · rw [if_neg hf] at h
                by_cases hnl : c = 'n'
                · rw [if_pos hnl] at h
                  rcases hwd : scanWord "ull".data cs with _ | r1
                  · rw [hwd] at h; simp at h
                  · rw [hwd] at h
                    simp only [Option.map_some', Option.some.injEq, Prod.mk.injEq] at h
                    rw [← h.1]
                    exact NestedWithin.null _
                · rw [if_neg hnl] at h
                  simp at h

theorem scanElements_nested_step (fuel : Nat) (ih : ScanNested fuel) (d : Nat)
    (s : List Char) (vs : List Value) (r : List Char)
    (h : scanElements (fuel + 1) d s = some (vs, r)) :
    ∀ v, v ∈ vs → NestedWithin (maxNestingDepth - d) v := by
  rw [scanElements.eq_2] at h
  rcases hv : scanValue fuel d (skipSpace s) with _ | ⟨v, r1⟩
  · rw [hv] at h; simp at h
  · rw [hv] at h
    simp only at h
    have hnv := ih.1 _ _ _ _ hv
    rcases hsk : skipSpace r1 with _ | ⟨c, r2⟩
    · rw [hsk] at h; simp at h
    · rw [hsk] at h
      simp only at h
      by_cases hc : c = ','
      · rw [if_pos hc] at h
        obtain ⟨vs1, r3, hm, e⟩ := map_eq_some_pair _ _ _ _ h
        simp only [Prod.mk.injEq] at e
        rw [← e.1]
        intro x hx
        rcases List.mem_cons.1 hx with y | y
        · rw [y]; exact hnv
        · exact ih.2.1 _ _ _ _ hm x y
      · rw [if_neg hc] at h
        by_cases hcl : c = ']'
        · rw [if_pos hcl] at h
          simp only [Option.some.injEq, Prod.mk.injEq] at h
          rw [← h.1]
          intro x hx
          rw [List.mem_singleton.1 hx]
          exact hnv
        · rw [if_neg hcl] at h
          simp at h

theorem scanMembers_nested_step (fuel : Nat) (ih : ScanNested fuel) (d : Nat)
    (s : List Char) (ms : List (String × Value)) (r : List Char)
    (h : scanMembers (fuel + 1) d s = some (ms, r)) :
    ∀ kv, kv ∈ ms → NestedWithin (maxNestingDepth - d) kv.2 := by
  rw [scanMembers.eq_2] at h
  rcases hsk : skipSpace s with _ | ⟨q, r0⟩
  · rw [hsk] at h; simp at h
  · rw [hsk] at h
    simp only at h
    by_cases hq : q = '"'
    · rw [if_pos hq] at h
      rcases hstr : scanString r0 with _ | ⟨key, r1⟩
      · rw [hstr] at h; simp at h
      · rw [hstr] at h
        simp only at h
        rcases hsk1 : skipSpace r1 with _ | ⟨c, r2⟩
        · rw [hsk1] at h; simp at h
        · rw [hsk1] at h
          simp only at h
          by_cases hc : c = ':'
          · rw [if_pos hc] at h
            rcases hv : scanValue fuel d (skipSpace r2) with _ | ⟨v, r3⟩
            · rw [hv] at h; simp at h
            · rw [hv] at h
              simp only at h
              have hnv := ih.1 _ _ _ _ hv
              rcases hsk3 : skipSpace r3 with _ | ⟨c3, r4⟩
              · rw [hsk3] at h; simp at h
              · rw [hsk3] at h
                simp only at h
                by_cases hcm : c3 = ','
                · rw [if_pos hcm] at h
                  obtain ⟨ms1, r5, hm, e⟩ := map_eq_some_pair _ _ _ _ h
                  simp only [Prod.mk.injEq] at e
                  rw [← e.1]
                  intro x hx
                  rcases List.mem_cons.1 hx with y | y
                  · rw [y]; exact hnv
                  · exact ih.2.2 _ _ _ _ hm x y
                · rw [if_neg hcm] at h
                  by_cases hcl : c3 = '}'
                  · rw [if_pos hcl] at h
                    simp only [Option.some.injEq, Prod.mk.injEq] at h
                    rw [← h.1]
                    intro x hx
                    rw [List.mem_singleton.1 hx]
                    exact hnv
                  · rw [if_neg hcl] at h
                    simp at h
          · rw [if_neg hc] at h
            simp at h
    · rw [if_neg hq] at h
      simp at h

theorem scan_nested_fuel (fuel : Nat) : ScanNested fuel := by
  induction fuel with
  | zero =>
    refine ⟨?_, ?_, ?_⟩ <;> intro d s v r h
    · simp [scanValue] at h
    · simp [scanElements] at h
    · simp [scanMembers] at h
  | succ n ih =>
    exact ⟨scanValue_nested_step n ih, scanElements_nested_step n ih,
      scanMembers_nested_step n ih⟩

/-- The value of an accepted input is nested within the depth limit of the scanner. -/
theorem scan_nested (data : List Char) (v : Value) (h : scan data = some v) :
    NestedWithin maxNestingDepth v := by
  unfold scan at h
  rcases hv : scanValue (2 * data.length + 1) 0 (skipSpace data) with _ | ⟨v1, rest⟩
  · rw [hv] at h; simp at h
  · rw [hv] at h
    simp only at h
    by_cases he : skipSpace rest = []
    · rw [if_pos he] at h
      have := (scan_nested_fuel _).1 _ _ _ _ hv
      rw [← Option.some.inj h]
      exact this
    · rw [if_neg he] at h
      simp at h

/-- The scanner decides the grammar up to the nesting limit: it accepts an input, with the
value `v`, exactly when the input is a JSON text denoting `v` and `v` is nested at most
`maxNestingDepth` deep. -/
theorem scan_iff (data : List Char) (v : Value) :
    scan data = some v ↔ IsJSONTextOf v data ∧ NestedWithin maxNestingDepth v :=
  ⟨fun h => ⟨scan_sound data v h, scan_nested data v h⟩,
    fun h => scan_complete data v h.1 h.2⟩

end json

/-! ## The claims about `ParseJSONOutput`

An input is a well-formed JSON text denoting the value `v` when `grammar.IsJSONTextOf v` holds
of it; by `json.scan_iff` these are, up to the nesting limit, the inputs `json.Unmarshal`
does not refuse with a syntax error. -/

theorem findField_none_of_foldName (key : String)
    (h : ∀ f : json.Field, json.foldName key ≠ json.foldName f.name) :
    json.findField key = none := by
  cases hf : json.findField key with
  | none => rfl
  | some f => exact absurd (json.foldName_of_findField key f hf) (h f)

/-- C6: for every input string that is not syntactically valid JSON, that is, not a text of
the JSON grammar, `ParseJSONOutput` returns a non-nil error. -/
theorem ParseJSONOutput_invalid (data : String) (h : ¬ grammar.IsJSONText data.data) :
    (ParseJSONOutput data).2 ≠ none := by
  cases hs : json.scan data.data with
  | none =>
    rw [ParseJSONOutput_of_scan_none data hs]
    simp
  | some v => exact absurd ⟨v, json.scan_sound data.data v hs⟩ h

/-- Witness of C6: the two inputs of `TestParseJSONOutputErr`, the empty string and `N.A.`,
are not JSON texts, and an error is returned for each. -/
theorem ParseJSONOutput_invalid_witness :
    (¬ grammar.IsJSONText "".data ∧ (ParseJSONOutput "").2 ≠ none) ∧
    (¬ grammar.IsJSONText "N.A.".data ∧ (ParseJSONOutput "N.A.").2 ≠ none) := by
  have h1 : ¬ grammar.IsJSONText "".data := by
    intro h
    obtain ⟨c, r, e, _⟩ := json.IsJSONText_head _ h
    exact List.noConfusion e
  have h2 : ¬ grammar.IsJSONText "N.A.".data := by
    intro h
    obtain ⟨c, r, e, hc⟩ := json.IsJSONText_head _ h
    have e1 : c = 'N' := by
      have e2 : 'N' :: ".A.".data = c :: r := e
      exact (List.cons.inj e2).1.symm
    subst e1
    revert hc
    decide
  exact ⟨⟨h1, ParseJSONOutput_invalid "" h1⟩, ⟨h2, ParseJSONOutput_invalid "N.A." h2⟩⟩

/-- C7 (as the code has it): for every well-formed JSON object, nested no deeper than the
limit of the scanner, in which the keys `Action`, `Package` and `Test` hold the JSON strings
`a`, `p`, `t` and `Elapsed` holds a JSON number `n` within the range of a 64-bit float, so
that `ParseFloat` returns a value `x` for it, and in which no key equal to one of these four
names up to letter case holds anything else, `ParseJSONOutput` returns no error and the event
with Action `a`, Package `p`, Test `t` and Elapsed `x`; when `n` is an integer literal of
magnitude below `2 ^ 53`, `x` is exactly that integer, neither rounded nor rescaled. -/
theorem ParseJSONOutput_fields (data : String) (ms : List (String × json.Value))
    (a p t n : String) (x : Float64)
    (hs : grammar.IsJSONTextOf (json.Value.object ms) data.data)
    (hN : grammar.NestedWithin json.maxNestingDepth (json.Value.object ms))
    (hp : ∀ f : json.Field, (f.name, json.given a p t n f) ∈ ms)
    (hu : ∀ kv ∈ ms, ∀ f : json.Field,
      json.foldName kv.1 = json.foldName f.name → kv.2 = json.given a p t n f)
    (hx : strconv.ParseFloat n = some x) :
    ParseJSONOutput data = (⟨a, p, t, x⟩, none) ∧
    ∀ (neg : Bool) (ds : List Char), n = ⟨(if neg then ['-'] else []) ++ ds⟩ →
      grammar.IsDigits ds → strconv.digitsValue ds < 2 ^ 53 →
      x.toRat = (if neg then -1 else 1) * (strconv.digitsValue ds : ℚ) := by
  constructor
  · rw [ParseJSONOutput_of_scan data _ (json.scan_complete data.data _ hs hN)]
    have hg := json.decodeMembers_given a p t n x hx ms ⟨TEvent.zero, none⟩ rfl
      fun kv hkv f hf => hu kv hkv f (json.foldName_of_findField kv.1 f hf)
    simp only [json.decodeValue]
    rw [hg.1]
    have hev : (json.decodeMembers ⟨TEvent.zero, none⟩ ms).event = ⟨a, p, t, x⟩ := by
      apply json.event_eq_of_values
      intro f
      rcases hg.2 f with h | ⟨_, h2⟩
      · exact h
      · exact absurd (json.findField_name f) (h2 _ (hp f))
    rw [hev]
    rfl
  · intro neg ds hn hds hv
    obtain ⟨y, hy, hr⟩ := strconv.ParseFloat_integer neg ds hds.1 hds.2 hv
    rw [← hn, hx] at hy
    rw [Option.some.inj hy]
    exact hr

/-- Witness of C7 as amended: the first valid sample of `TestParseJSONOutputNoErr`; the
integer literal `5` gives the float `5.0`, that is `1.25 * 2 ^ 2`, whose value is 5. -/
theorem ParseJSONOutput_fields_witness :
    ParseJSONOutput
        "\x7b\"Action\":\"run\", \"Package\":\"pkg1\", \"Test\":\"tst1\",\"Elapsed\":5\x7d" =
      (⟨"run", "pkg1", "tst1", ⟨false, 1025, 2 ^ 50⟩⟩, none) ∧
    Float64.toRat ⟨false, 1025, 2 ^ 50⟩ = 5 :=
  have hsc : json.scan
      "\x7b\"Action\":\"run\", \"Package\":\"pkg1\", \"Test\":\"tst1\",\"Elapsed\":5\x7d".data =
      some (json.Value.object
        [("Action", json.Value.string "run"), ("Package", json.Value.string "pkg1"),
         ("Test", json.Value.string "tst1"), ("Elapsed", json.Value.number "5")]) := by rfl
  have h := ParseJSONOutput_fields
    "\x7b\"Action\":\"run\", \"Package\":\"pkg1\", \"Test\":\"tst1\",\"Elapsed\":5\x7d"
    [("Action", json.Value.string "run"), ("Package", json.Value.string "pkg1"),
     ("Test", json.Value.string "tst1"), ("Elapsed", json.Value.number "5")]
    "run" "pkg1" "tst1" "5" ⟨false, 1025, 2 ^ 50⟩
    (json.scan_sound _ _ hsc) (json.scan_nested _ _ hsc)
    (by intro f; cases f <;> simp [json.given, json.Field.name])
    (by
      intro kv hkv f hf
      simp only [List.mem_cons, List.mem_singleton, List.not_mem_nil, or_false] at hkv
      rcases hkv with rfl | rfl | rfl | rfl <;> cases f <;>
        first
        | rfl
        | exact absurd hf (by decide))
    (by decide)
  ⟨h.1, by
    have h5 := h.2 false ['5'] rfl ⟨by simp, by simp⟩ (by decide)
    simpa [strconv.digitsValue] using h5⟩

/-- C7 is false as stated.  In the first object the four keys hold three strings and the
number `1e999`, which no 64-bit float holds: an error is returned.  In the second the key
`Action` holds `a`, and the action returned is `b`, for the later key `action` selects the
same field. -/
theorem ParseJSONOutput_fields_counterexample :
    (grammar.IsJSONTextOf
        (json.Value.object
          [("Action", json.Value.string "a"), ("Package", json.Value.string "p"),
           ("Test", json.Value.string "t"), ("Elapsed", json.Value.number "1e999")])
        "\x7b\"Action\":\"a\",\"Package\":\"p\",\"Test\":\"t\",\"Elapsed\":1e999\x7d".data ∧
     (ParseJSONOutput
        "\x7b\"Action\":\"a\",\"Package\":\"p\",\"Test\":\"t\",\"Elapsed\":1e999\x7d").2 ≠
      none) ∧
    (grammar.IsJSONTextOf
        (json.Value.object
          [("Action", json.Value.string "a"), ("Package", json.Value.string "p"),
           ("Test", json.Value.string "t"), ("Elapsed", json.Value.number "1"),
           ("action", json.Value.string "b")])
        "\x7b\"Action\":\"a\",\"Package\":\"p\",\"Test\":\"t\",\"Elapsed\":1,\"action\":\"b\"\x7d".data ∧
     ParseJSONOutput
        "\x7b\"Action\":\"a\",\"Package\":\"p\",\"Test\":\"t\",\"Elapsed\":1,\"action\":\"b\"\x7d" =
      (⟨"b", "p", "t", ⟨false, 1023, 0⟩⟩, none)) :=
  ⟨⟨json.scan_sound _ _ (by rfl), by decide!⟩, ⟨json.scan_sound _ _ (by rfl), by decide⟩⟩

/-- C8 (as the code has it): for every well-formed JSON object, each of the four fields whose
name no key of the object equals up to letter case is returned as its zero value; when the
object is nested no deeper than the limit of the scanner and no key of it equals the name of a
field up to letter case, as for the empty object, the result is the all-zero event and a nil
error. -/
theorem ParseJSONOutput_absent_keys (data : String) (ms : List (String × json.Value))
    (hs : grammar.IsJSONTextOf (json.Value.object ms) data.data) :
    (∀ f : json.Field, (∀ kv ∈ ms, json.foldName kv.1 ≠ json.foldName f.name) →
        f.value (ParseJSONOutput data).1 = f.value TEvent.zero) ∧
    (grammar.NestedWithin json.maxNestingDepth (json.Value.object ms) →
      (∀ kv ∈ ms, ∀ f : json.Field, json.foldName kv.1 ≠ json.foldName f.name) →
      ParseJSONOutput data = (TEvent.zero, none)) := by
  constructor
  · intro f hf
    cases hsc : json.scan data.data with
    | none => rw [ParseJSONOutput_of_scan_none data hsc]
    | some v1 =>
      have e1 : v1 = json.Value.object ms := json.scan_agrees data.data _ v1 hs hsc
      subst e1
      rw [ParseJSONOutput_of_scan data _ hsc]
      exact json.decodeMembers_value_of_not_selected f ms _ fun kv hkv e =>
        hf kv hkv (json.foldName_of_findField kv.1 f e)
  · intro hN hn
    rw [ParseJSONOutput_of_scan data _ (json.scan_complete data.data _ hs hN)]
    simp only [json.decodeValue, json.decodeMembers_of_none_selected ms _
      fun kv hkv => findField_none_of_foldName kv.1 (hn kv hkv)]
    rfl

/-- Witness of C8 as amended: the empty object of `TestParseJSONOutputNoErr`. -/
theorem ParseJSONOutput_absent_keys_witness :
    ParseJSONOutput "\x7b\x7d" = (TEvent.zero, none) :=
  have hsc : json.scan "\x7b\x7d".data = some (json.Value.object []) := by rfl
  (ParseJSONOutput_absent_keys "\x7b\x7d" [] (json.scan_sound _ _ hsc)).2
    (json.scan_nested _ _ hsc) (by simp)

/-- C8 is false as stated: the object has no key `Action`, and the event returned for it has
the action `pass`, for the key `action` selects the field `Action`. -/
theorem ParseJSONOutput_absent_keys_counterexample :
    grammar.IsJSONTextOf (json.Value.object [("action", json.Value.string "pass")])
      "\x7b\"action\":\"pass\"\x7d".data ∧
    ParseJSONOutput "\x7b\"action\":\"pass\"\x7d" = (⟨"pass", "", "", Float64.zero⟩, none) :=
  ⟨json.scan_sound _ _ (by rfl), by decide⟩

/-- C9 (as the code has it): for every input that is valid JSON and whose top-level value is
an array, a string, a number, `true` or `false`, `ParseJSONOutput` returns a non-nil error. -/
theorem ParseJSONOutput_not_object (data : String) (v : json.Value)
    (hs : grammar.IsJSONTextOf v data.data)
    (hv : (∃ xs, v = json.Value.array xs) ∨ (∃ x, v = json.Value.string x) ∨
          (∃ lit, v = json.Value.number lit) ∨ (∃ b, v = json.Value.bool b)) :
    (ParseJSONOutput data).2 ≠ none := by
  cases hsc : json.scan data.data with
  | none =>
    rw [ParseJSONOutput_of_scan_none data hsc]
    simp
  | some v1 =>
    have e1 : v1 = v := json.scan_agrees data.data v v1 hs hsc
    subst e1
    rw [ParseJSONOutput_of_scan data _ hsc]
    rcases hv with ⟨_, e⟩ | ⟨_, e⟩ | ⟨_, e⟩ | ⟨_, e⟩ <;> subst e <;>
      simp [json.decodeValue, json.saveError]

/-- Witness of C9 as amended: an array of two numbers. -/
theorem ParseJSONOutput_not_object_witness :
    (ParseJSONOutput "[1, 2]").2 ≠ none :=
  ParseJSONOutput_not_object "[1, 2]"
    (json.Value.array [json.Value.number "1", json.Value.number "2"])
    (json.scan_sound _ _ (by rfl)) (Or.inl ⟨_, rfl⟩)

/-- C9 is false as stated: `null` is valid JSON, its top-level value is not an object, and
`ParseJSONOutput` returns the zero event and a nil error for it. -/
theorem ParseJSONOutput_not_object_counterexample :
    grammar.IsJSONTextOf json.Value.null "null".data ∧
    ParseJSONOutput "null" = (TEvent.zero, none) :=
  ⟨⟨[], ['n', 'u', 'l', 'l'], [], rfl, json.IsWS_nil, grammar.IsValue.null, json.IsWS_nil⟩,
    by decide⟩

/-- C10: for every well-formed JSON object in which the key `Elapsed` holds a JSON string, or
one of the keys `Action`, `Package`, `Test` holds a number, a boolean, an array or an object,
`ParseJSONOutput` returns a non-nil error. -/
theorem ParseJSONOutput_type_mismatch (data : String) (ms : List (String × json.Value))
    (key : String) (v : json.Value)
    (hs : grammar.IsJSONTextOf (json.Value.object ms) data.data)
    (hm : (key, v) ∈ ms)
    (hv : (key = "Elapsed" ∧ ∃ x, v = json.Value.string x) ∨
          ((key = "Action" ∨ key = "Package" ∨ key = "Test") ∧
            ((∃ lit, v = json.Value.number lit) ∨ (∃ b, v = json.Value.bool b) ∨
             (∃ xs, v = json.Value.array xs) ∨ (∃ o, v = json.Value.object o)))) :
    (ParseJSONOutput data).2 ≠ none := by
  cases hsc : json.scan data.data with
  | none =>
    rw [ParseJSONOutput_of_scan_none data hsc]
    simp
  | some v1 =>
    have e1 : v1 = json.Value.object ms := json.scan_agrees data.data _ v1 hs hsc
    subst e1
    rw [ParseJSONOutput_of_scan data _ hsc]
    have key_ok : ∃ f, json.findField key = some f ∧ json.Mismatch f v := by
      rcases hv with ⟨hk, x, hx⟩ | ⟨hk, hx⟩
      · subst hk; subst hx
        exact ⟨json.Field.Elapsed, by decide, trivial⟩
      · rcases hk with hk | hk | hk <;> subst hk
        · refine ⟨json.Field.Action, by decide, ?_⟩
          rcases hx with ⟨_, e⟩ | ⟨_, e⟩ | ⟨_, e⟩ | ⟨_, e⟩ <;> subst e <;> trivial
        · refine ⟨json.Field.Package, by decide, ?_⟩
          rcases hx with ⟨_, e⟩ | ⟨_, e⟩ | ⟨_, e⟩ | ⟨_, e⟩ <;> subst e <;> trivial
        · refine ⟨json.Field.Test, by decide, ?_⟩
          rcases hx with ⟨_, e⟩ | ⟨_, e⟩ | ⟨_, e⟩ | ⟨_, e⟩ <;> subst e <;> trivial
    obtain ⟨f, hf, hmis⟩ := key_ok
    have := json.decodeMembers_mismatch ms ⟨TEvent.zero, none⟩ key v f hm hf hmis
    simpa [json.decodeValue] using this

/-- Witness of C10: a string for `Elapsed`. -/
theorem ParseJSONOutput_type_mismatch_witness :
    (ParseJSONOutput "\x7b\"Action\":\"pass\",\"Test\":\"T\",\"Elapsed\":\"x\"\x7d").2 ≠ none :=
  ParseJSONOutput_type_mismatch _
    [("Action", json.Value.string "pass"), ("Test", json.Value.string "T"),
     ("Elapsed", json.Value.string "x")] "Elapsed" (json.Value.string "x")
    (json.scan_sound _ _ (by rfl)) (by simp) (Or.inl ⟨rfl, _, rfl⟩)

/-! ### The formatter: totality and the displayed piece -/

namespace strings

/-- The first piece of a split is the text before the first separator. -/
theorem splitChars_head (sep : Char) (s : List Char) :
    ∃ rest, splitChars sep s = s.takeWhile (fun c => !decide (c = sep)) :: rest := by
  induction s with
  | nil => exact ⟨[], rfl⟩
  | cons c cs ih =>
    obtain ⟨rest, hr⟩ := ih
    by_cases hc : c = sep
    · exact ⟨splitChars sep cs, by simp [splitChars, hc]⟩
    · exact ⟨rest, by simp [splitChars, hc, hr]⟩

/-- A text that has the separator reads `p ++ sep :: r` with no separator in `p`. -/
theorem exists_first_sep (sep : Char) (s : List Char) (h : sep ∈ s) :
    ∃ p r, sep ∉ p ∧ s = p ++ sep :: r := by
  induction s with
  | nil => simp at h
  | cons c cs ih =>
    by_cases hc : c = sep
    · exact ⟨[], cs, by simp, by simp [hc]⟩
    · have hcs : sep ∈ cs := by
        rcases List.mem_cons.1 h with e | e
        · exact absurd e.symm hc
        · exact e
      obtain ⟨p, r, hp, hs⟩ := ih hcs
      refine ⟨c :: p, r, ?_, by simp [hs]⟩
      intro hm
      rcases List.mem_cons.1 hm with e | e
      · exact hc e.symm
      · exact hp e

/-- A text that has the separator splits into two pieces at least, the second one being
the text between the first separator and the next. -/
theorem splitChars_of_mem (sep : Char) (p r : List Char) (hp : sep ∉ p) :
    ∃ rest, splitChars sep (p ++ sep :: r) =
      p :: r.takeWhile (fun c => !decide (c = sep)) :: rest := by
  obtain ⟨rest, hr⟩ := splitChars_head sep r
  exact ⟨rest, by rw [splitChars_append sep p r hp, hr]⟩

/-- No separator is left in the text up to the first separator. -/
theorem not_mem_takeWhile (sep : Char) (s : List Char) :
    sep ∉ s.takeWhile (fun c => !decide (c = sep)) := by
  intro h
  have := List.mem_takeWhile_imp h
  simp at this

end strings

/-- The display name of a test name with a `/` in it: the piece between the first `/` and
the next, underscores replaced. -/
theorem name_of_first_slash (t : String) (p r : List Char) (ht : t.data = p ++ '/' :: r)
    (hp : '/' ∉ p) :
    (if strings.Contains (strings.ReplaceAll t '_' ' ') '/'
     then (strings.Split (strings.ReplaceAll t '_' ' ') '/')[1]?
     else some (strings.ReplaceAll t '_' ' ')) =
      some (strings.ReplaceAll ⟨r.takeWhile (fun c => !decide (c = '/'))⟩ '_' ' ') := by
  obtain ⟨rest, hr⟩ := strings.splitChars_of_mem '/' p r hp
  rw [← ht] at hr
  exact name_of_slash t p _ rest hr (by rw [ht]; simp)

/-- The derived name of any test name exists: the split has a second piece whenever the
name has a `/`. -/
theorem name_exists (t : String) :
    ∃ name, (if strings.Contains (strings.ReplaceAll t '_' ' ') '/'
     then (strings.Split (strings.ReplaceAll t '_' ' ') '/')[1]?
     else some (strings.ReplaceAll t '_' ' ')) = some name := by
  by_cases h : '/' ∈ t.data
  · obtain ⟨p, r, hp, hs⟩ := strings.exists_first_sep '/' t.data h
    exact ⟨_, name_of_first_slash t p r hs hp⟩
  · exact ⟨_, name_of_no_slash t h⟩

/-- C14: `TEvent.String` is total. For every event the call returns a string (the model
returns `none` only for an index out of range), because the split of a name that contains
`/` has two pieces at least, so index 1 is in range. -/
theorem String_total (tEvt : TEvent) :
    (∃ s, tEvt.String = some s) ∧
    (strings.Contains (strings.ReplaceAll tEvt.Test '_' ' ') '/' = true →
      1 < (strings.Split (strings.ReplaceAll tEvt.Test '_' ' ') '/').length) := by
  obtain ⟨name, hn⟩ := name_exists tEvt.Test
  refine ⟨⟨_, String_eq_of_name tEvt name hn⟩, ?_⟩
  intro hc
  rw [if_pos hc] at hn
  by_contra hlen
  have : (strings.Split (strings.ReplaceAll tEvt.Test '_' ' ') '/')[1]? = none :=
    List.getElem?_eq_none (by omega)
  rw [this] at hn
  exact Option.noConfusion hn

/-- C14 at concrete events: the name `/` splits into two empty pieces, and the event is
rendered with an empty display name; a name that ends in `/` is rendered as well. -/
theorem String_total_witness :
    ((∃ s, (⟨"fail", "pkg", "/", Float64.zero⟩ : TEvent).String = some s) ∧
      1 < (strings.Split (strings.ReplaceAll "/" '_' ' ') '/').length) ∧
    ((∃ s, (⟨"pass", "pkg", "A_b//c/", Float64.zero⟩ : TEvent).String = some s) ∧
      1 < (strings.Split (strings.ReplaceAll "A_b//c/" '_' ' ') '/').length) :=
  ⟨⟨(String_total ⟨"fail", "pkg", "/", Float64.zero⟩).1,
    (String_total ⟨"fail", "pkg", "/", Float64.zero⟩).2 (by decide)⟩,
   ⟨(String_total ⟨"pass", "pkg", "A_b//c/", Float64.zero⟩).1,
    (String_total ⟨"pass", "pkg", "A_b//c/", Float64.zero⟩).2 (by decide)⟩⟩

/-- The string returned, from the derived name and the result of `isPassed`. -/
theorem String_eq_of_name_isPassed (tEvt : TEvent) (name : String)
    (h : (if strings.Contains (strings.ReplaceAll tEvt.Test '_' ' ') '/'
          then (strings.Split (strings.ReplaceAll tEvt.Test '_' ' ') '/')[1]?
          else some (strings.ReplaceAll tEvt.Test '_' ' ')) = some name) :
    tEvt.String =
      some ((if tEvt.isPassed = true then "\x1b[32m✓ " else "\x1b[31m✗ ") ++ name ++
        "\x1b[0m") := by
  dsimp only [TEvent.String]
  rw [h]
  dsimp only [Sprintf]
  by_cases hp : tEvt.isPassed = true
  · rw [if_pos hp, if_pos hp]
  · rw [if_neg hp, if_neg hp]

/-- The text between the first `/` and the next, taken from a name with its underscores
replaced, is the text taken from the name, with its underscores replaced. -/
theorem piece_of_replaced (t : List Char) (h : '/' ∈ t) :
    ∃ p r, '/' ∉ p ∧ t = p ++ '/' :: r ∧
      List.takeWhile (fun c => !decide (c = '/'))
        (List.drop 1 (List.dropWhile (fun c => !decide (c = '/'))
          (t.map fun c => if c = '_' then ' ' else c))) =
      (r.takeWhile (fun c => !decide (c = '/'))).map fun c => if c = '_' then ' ' else c := by
  obtain ⟨p, r, hp, hs⟩ := strings.exists_first_sep '/' t h
  refine ⟨p, r, hp, hs, ?_⟩
  have hf : ∀ x : Char, (if x = '_' then ' ' else x) = '/' ↔ x = '/' := by
    intro x
    by_cases hx : x = '_'
    · subst hx; simp
    · simp [hx]
  have hdw : ∀ (p : List Char), '/' ∉ p → ∀ rest : List Char,
      List.dropWhile (fun c => !decide (c = '/')) (p ++ '/' :: rest) = '/' :: rest := by
    intro p
    induction p with
    | nil => intro _ rest; simp [List.dropWhile]
    | cons c cs ih =>
      intro hc rest
      have h1 : c ≠ '/' := fun e => hc (by simp [e])
      have h2 : '/' ∉ cs := fun e => hc (by simp [e])
      simp [List.dropWhile, h1, ih h2 rest]
  have htw : ∀ (l : List Char),
      List.takeWhile (fun c => !decide (c = '/')) (l.map fun c => if c = '_' then ' ' else c) =
        (l.takeWhile (fun c => !decide (c = '/'))).map fun c => if c = '_' then ' ' else c := by
    intro l
    induction l with
    | nil => rfl
    | cons c cs ih =>
      by_cases hc : c = '/'
      · subst hc
        simp [List.takeWhile]
      · have hc1 : ¬ (if c = '_' then ' ' else c) = '/' := fun e => hc ((hf c).1 e)
        simp [List.takeWhile, hc, hc1, ih]
  rw [hs, List.map_append, List.map_cons,
    show (if '/' = '_' then ' ' else '/') = '/' from by decide,
    hdw _ (strings.not_mem_map_replace '/' '_' ' ' p (by decide) hp) _]
  simp only [List.drop_succ_cons, List.drop_zero]
  exact htw r

/-- C15: when the test name has a `/`, that is, it reads `p ++ "/" ++ r` with no `/` in
`p`, the display name is the text of `r` up to its first `/` (all of `r` when it has none)
with every underscore turned into a space, which is the text between the first `/` and the
second of the underscore-replaced name, and the display name has no `/` in it. -/
theorem String_between_separators (tEvt : TEvent) (p r : String)
    (hT : tEvt.Test = p ++ "/" ++ r) (hp : '/' ∉ p.data) :
    tEvt.String =
      some ((if tEvt.Action = "pass" then "\x1b[32m✓ " else "\x1b[31m✗ ") ++
        String.mk ((r.data.takeWhile (fun c => !decide (c = '/'))).map
          fun c => if c = '_' then ' ' else c) ++
        "\x1b[0m") ∧
    '/' ∉ (r.data.takeWhile (fun c => !decide (c = '/'))).map
      fun c => if c = '_' then ' ' else c := by
  have ht : tEvt.Test.data = p.data ++ '/' :: r.data := by
    rw [hT]; simp [String.data_append]
  refine ⟨String_eq_of_name tEvt _ (name_of_first_slash tEvt.Test p.data r.data ht hp), ?_⟩
  exact strings.not_mem_map_replace '/' '_' ' ' _ (by decide)
    (strings.not_mem_takeWhile '/' r.data)

/-- C15 at concrete events: `Top/mid_one/leaf` is displayed as `mid one`, and
`Parent_Test/Child_Case`, with one `/` only, as `Child Case`. -/
theorem String_between_separators_witness :
    (TEvent.String ⟨"fail", "pkg", "Top/mid_one/leaf", Float64.zero⟩ =
        some "\x1b[31m✗ mid one\x1b[0m" ∧
      '/' ∉ "mid one".data) ∧
    (TEvent.String ⟨"pass", "pkg", "Parent_Test/Child_Case", Float64.zero⟩ =
        some "\x1b[32m✓ Child Case\x1b[0m" ∧
      '/' ∉ "Child Case".data) :=
  ⟨⟨(String_between_separators ⟨"fail", "pkg", "Top/mid_one/leaf", Float64.zero⟩ "Top"
      "mid_one/leaf" (by decide) (by decide)).1.trans (by decide),
    (String_between_separators ⟨"fail", "pkg", "Top/mid_one/leaf", Float64.zero⟩ "Top"
      "mid_one/leaf" (by decide) (by decide)).2⟩,
   ⟨(String_between_separators ⟨"pass", "pkg", "Parent_Test/Child_Case", Float64.zero⟩
      "Parent_Test" "Child_Case" (by decide) (by decide)).1.trans (by decide),
    (String_between_separators ⟨"pass", "pkg", "Parent_Test/Child_Case", Float64.zero⟩
      "Parent_Test" "Child_Case" (by decide) (by decide)).2⟩⟩

/-- C16: `TEvent.String` does not look at relevance. For every event for which `isPassed`
returns false, whatever its test name, it returns the red cross form: ESC `[31m`, the cross,
one space, the display name and ESC `[0m`, where the display name is the test name with every
underscore turned into a space, cut down to the text between its first `/` and the next when
it has a `/`. -/
theorem String_not_passed (tEvt : TEvent) (h : tEvt.isPassed = false) :
    tEvt.String =
      some ("\x1b[31m✗ " ++
        String.mk
          (if '/' ∈ tEvt.Test.data.map (fun c => if c = '_' then ' ' else c) then
            List.takeWhile (fun c => !decide (c = '/'))
              (List.drop 1 (List.dropWhile (fun c => !decide (c = '/'))
                (tEvt.Test.data.map fun c => if c = '_' then ' ' else c)))
          else tEvt.Test.data.map fun c => if c = '_' then ' ' else c) ++
        "\x1b[0m") := by
  have hnp : ¬ tEvt.isPassed = true := by rw [h]; decide
  by_cases hs : '/' ∈ tEvt.Test.data
  · have hm : '/' ∈ tEvt.Test.data.map (fun c => if c = '_' then ' ' else c) :=
      List.mem_map.2 ⟨'/', hs, by decide⟩
    obtain ⟨p, r, hp, ht, he⟩ := piece_of_replaced tEvt.Test.data hs
    rw [String_eq_of_name_isPassed tEvt _ (name_of_first_slash tEvt.Test p r ht hp),
      if_neg hnp, if_pos hm, he]
    rfl
  · have hm : '/' ∉ tEvt.Test.data.map (fun c => if c = '_' then ' ' else c) :=
      strings.not_mem_map_replace '/' '_' ' ' _ (by decide) hs
    rw [String_eq_of_name_isPassed tEvt _ (name_of_no_slash tEvt.Test hs), if_neg hnp,
      if_neg hm]
    rfl

/-- C16 at concrete events: a failed event without a test name, which is not a relevant one,
is rendered as a red cross with an empty name; with `isPassed` as modelled, a `run` event and
a `skip` event of a subtest are rendered in the red cross form as well. -/
theorem String_not_passed_witness :
    (TEvent.IsRelevant ⟨"fail", "pkg", "", Float64.zero⟩ = false ∧
      TEvent.String ⟨"fail", "pkg", "", Float64.zero⟩ = some "\x1b[31m✗ \x1b[0m") ∧
    TEvent.String ⟨"run", "pkg", "A_test", Float64.zero⟩ = some "\x1b[31m✗ A test\x1b[0m" ∧
    TEvent.String ⟨"skip", "pkg", "Top_x/a_b/c", Float64.zero⟩ = some "\x1b[31m✗ a b\x1b[0m" :=
  ⟨⟨by decide,
    (String_not_passed ⟨"fail", "pkg", "", Float64.zero⟩ (by decide)).trans (by decide)⟩,
   (String_not_passed ⟨"run", "pkg", "A_test", Float64.zero⟩ (by decide)).trans (by decide),
   (String_not_passed ⟨"skip", "pkg", "Top_x/a_b/c", Float64.zero⟩ (by decide)).trans
     (by decide)⟩

/-! ## Keys and letter case, errors, and what an error leaves in the event -/

namespace json

/-- Two fields whose names are equal up to case folding are the same field. -/
theorem Field.eq_of_foldName (f g : Field) (h : foldName g.name = foldName f.name) : g = f := by
  cases f <;> cases g <;> first | rfl | exact absurd h (by decide)

/-- A key equal to the name of a field up to case folding selects that field. -/
theorem findField_of_foldName (key : String) (f : Field)
    (h : foldName key = foldName f.name) : findField key = some f := by
  unfold findField
  split
  · rename_i g hg
    have hg0 := List.find?_some hg
    have hg1 := of_decide_eq_true hg0
    rw [Field.eq_of_foldName f g (by rw [hg1, h])]
  · cases hg : fields.find? (fun g => decide (foldName g.name = foldName key)) with
    | some g =>
      have hg0 := List.find?_some hg
      have hg1 := of_decide_eq_true hg0
      rw [Field.eq_of_foldName f g (by rw [hg1, h])]
    | none =>
      have hall := List.find?_eq_none.1 hg f (by cases f <;> simp [fields])
      exact absurd (decide_eq_true h.symm) hall

/-- Storing the value a field is given sets the field, whatever was saved before. -/
theorem storeValue_given_value (a p t n : String) (x : Float64)
    (hx : strconv.ParseFloat n = some x) (d : decodeState) (f : Field) :
    f.value (storeValue d f (given a p t n f)).event = f.value ⟨a, p, t, x⟩ := by
  cases f <;> simp [given, storeValue, storeString, storeNumber, hx, Field.value]

/-- Decoding an object in which every key that selects the field `f` holds the value given
for it: the field has the value given, or no key selects it and it is as before. -/
theorem decodeMembers_field_given (a p t n : String) (x : Float64)
    (hx : strconv.ParseFloat n = some x) (f : Field) (ms : List (String × Value))
    (d : decodeState)
    (hu : ∀ kv ∈ ms, findField kv.1 = some f → kv.2 = given a p t n f) :
    f.value (decodeMembers d ms).event = f.value ⟨a, p, t, x⟩ ∨
      (f.value (decodeMembers d ms).event = f.value d.event ∧
        ∀ kv ∈ ms, findField kv.1 ≠ some f) := by
  induction ms generalizing d with
  | nil => exact Or.inr ⟨rfl, fun _ h => absurd h (List.not_mem_nil _)⟩
  | cons kv ms ih =>
    obtain ⟨key, v⟩ := kv
    have hu2 : ∀ kv ∈ ms, findField kv.1 = some f → kv.2 = given a p t n f :=
      fun kv hkv => hu kv (List.mem_cons_of_mem _ hkv)
    cases hk : findField key with
    | none =>
      have e : decodeMembers d ((key, v) :: ms) = decodeMembers d ms := by
        rw [decodeMembers, hk]
      rw [e]
      rcases ih d hu2 with h | ⟨h1, h2⟩
      · exact Or.inl h
      · refine Or.inr ⟨h1, fun kv hkv => ?_⟩
        rcases List.mem_cons.1 hkv with e1 | e1
        · rw [e1, hk]; simp
        · exact h2 kv e1
    | some g =>
      have e : decodeMembers d ((key, v) :: ms) = decodeMembers (storeValue d g v) ms := by
        rw [decodeMembers, hk]
      rw [e]
      rcases ih (storeValue d g v) hu2 with h | ⟨h1, h2⟩
      · exact Or.inl h
      · by_cases hfg : g = f
        · subst hfg
          have hv : v = given a p t n g := hu (key, v) (List.mem_cons_self _ _) hk
          subst hv
          exact Or.inl (h1.trans (storeValue_given_value a p t n x hx d g))
        · refine Or.inr ⟨h1.trans (storeValue_value_of_ne d f g _ hfg), fun kv hkv => ?_⟩
          rcases List.mem_cons.1 hkv with e1 | e1
          · rw [e1, hk]
            exact fun e2 => hfg (Option.some.inj e2)
          · exact h2 kv e1

end json

/-- The message of the error `ParseJSONOutput` builds around `err`. -/
theorem Errorf_Error (err : json.Error) (errorText : json.Error → String) :
    (Errorf "failed to decode JSON. %w" err).Error errorText =
      "failed to decode JSON. " ++ errorText err := by
  apply String.ext
  simp [wrapError.Error, Errorf, formatVerb]

/-- C11 is false as stated: the keys `action` and `test` differ from `Action` and `Test` in
letter case only, and the object decodes to the event with action `pass` and test `T`, not to
the all-zero event. -/
theorem ParseJSONOutput_key_case_counterexample :
    grammar.IsJSONTextOf
      (json.Value.object [("action", json.Value.string "pass"), ("test", json.Value.string "T")])
      "\x7b\"action\":\"pass\",\"test\":\"T\"\x7d".data ∧
    ParseJSONOutput "\x7b\"action\":\"pass\",\"test\":\"T\"\x7d" =
      (⟨"pass", "", "T", Float64.zero⟩, none) ∧
    (ParseJSONOutput "\x7b\"action\":\"pass\",\"test\":\"T\"\x7d").1 ≠ TEvent.zero :=
  ⟨json.scan_sound _ _ (by rfl), by decide, by decide⟩

/-- C11 (as the code has it): keys are matched to the fields without regard to letter case.
A key equal to the name of a field `f` up to letter case selects `f`, and for every
well-formed JSON object, nested no deeper than the limit of the scanner, that has such a key,
and in which every such key holds the value given for `f` (the JSON string `a`, `p` or `t`
for `Action`, `Package` or `Test`, the JSON number `n`, for which `ParseFloat` returns `x`,
for `Elapsed`), the event returned has that value in the field `f`. -/
theorem ParseJSONOutput_key_case (data : String) (ms : List (String × json.Value))
    (a p t n : String) (x : Float64) (f : json.Field)
    (hs : grammar.IsJSONTextOf (json.Value.object ms) data.data)
    (hN : grammar.NestedWithin json.maxNestingDepth (json.Value.object ms))
    (hm : ∃ kv ∈ ms, json.foldName kv.1 = json.foldName f.name)
    (hu : ∀ kv ∈ ms, json.foldName kv.1 = json.foldName f.name → kv.2 = json.given a p t n f)
    (hx : strconv.ParseFloat n = some x) :
    (∀ key, json.foldName key = json.foldName f.name → json.findField key = some f) ∧
    f.value (ParseJSONOutput data).1 = f.value ⟨a, p, t, x⟩ := by
  refine ⟨fun key hk => json.findField_of_foldName key f hk, ?_⟩
  rw [ParseJSONOutput_of_scan data _ (json.scan_complete data.data _ hs hN)]
  simp only [json.decodeValue]
  rcases json.decodeMembers_field_given a p t n x hx f ms ⟨TEvent.zero, none⟩
    (fun kv hkv hf => hu kv hkv (json.foldName_of_findField kv.1 f hf)) with h | ⟨_, h2⟩
  · exact h
  · obtain ⟨kv, hkv, hf⟩ := hm
    exact absurd (json.findField_of_foldName kv.1 f hf) (h2 kv hkv)

/-- Witness of C11 as amended: the key `test` sets the field `Test`, and the key written
`Pac`, the Kelvin sign U+212A, `age`, which differs from `Package` in letter case only, sets
the field `Package`. -/
theorem ParseJSONOutput_key_case_witness :
    ((∀ key, json.foldName key = json.foldName json.Field.Test.name →
        json.findField key = some json.Field.Test) ∧
      json.Field.Test.value
          (ParseJSONOutput "\x7b\"action\":\"pass\",\"test\":\"T\"\x7d").1 =
        Sum.inl "T") ∧
    ((∀ key, json.foldName key = json.foldName json.Field.Package.name →
        json.findField key = some json.Field.Package) ∧
      json.Field.Package.value
          (ParseJSONOutput "\x7b\"package\":\"q\",\"Pac\u212aage\":\"q\"\x7d").1 =
        Sum.inl "q") :=
  have hsc : json.scan "\x7b\"action\":\"pass\",\"test\":\"T\"\x7d".data =
      some (json.Value.object
        [("action", json.Value.string "pass"), ("test", json.Value.string "T")]) := by rfl
  have hsk : json.scan "\x7b\"package\":\"q\",\"Pac\u212aage\":\"q\"\x7d".data =
      some (json.Value.object
        [("package", json.Value.string "q"), ("Pac\u212aage", json.Value.string "q")]) := by
    rfl
  ⟨ParseJSONOutput_key_case "\x7b\"action\":\"pass\",\"test\":\"T\"\x7d"
      [("action", json.Value.string "pass"), ("test", json.Value.string "T")]
      "" "" "T" "0" Float64.zero json.Field.Test
      (json.scan_sound _ _ hsc) (json.scan_nested _ _ hsc)
      ⟨("test", json.Value.string "T"), by simp, by decide⟩
      (by
        intro kv hkv hf
        simp only [List.mem_cons, List.mem_singleton, List.not_mem_nil, or_false] at hkv
        rcases hkv with rfl | rfl
        · exact absurd hf (by decide)
        · rfl)
      (by decide),
   ParseJSONOutput_key_case "\x7b\"package\":\"q\",\"Pac\u212aage\":\"q\"\x7d"
      [("package", json.Value.string "q"), ("Pac\u212aage", json.Value.string "q")]
      "" "q" "" "0" Float64.zero json.Field.Package
      (json.scan_sound _ _ hsk) (json.scan_nested _ _ hsk)
      ⟨("Pac\u212aage", json.Value.string "q"), by simp, by decide⟩
      (by
        intro kv hkv hf
        simp only [List.mem_cons, List.mem_singleton, List.not_mem_nil, or_false] at hkv
        rcases hkv with rfl | rfl
        · rfl
        · rfl)
      (by decide)⟩

/-- C17: whenever `ParseJSONOutput` returns an error, the error wraps the one
`json.Unmarshal` returned: unwrapping it yields that error, and its message is
`failed to decode JSON. ` followed by the message of that error, whatever the messages of
the errors of `encoding/json` are. -/
theorem ParseJSONOutput_wraps (errorText : json.Error → String) (data : String)
    (w : wrapError) (h : (ParseJSONOutput data).2 = some w) :
    (json.Unmarshal data TEvent.zero).2 = some w.Unwrap ∧
    w.Error errorText = "failed to decode JSON. " ++ errorText w.Unwrap := by
  dsimp only [ParseJSONOutput] at h
  generalize json.Unmarshal data TEvent.zero = r at h ⊢
  obtain ⟨ev, e⟩ := r
  cases e with
  | none => simp at h
  | some err =>
    simp only [Option.some.injEq] at h
    subst h
    exact ⟨rfl, Errorf_Error err errorText⟩

/-- C17 at a concrete input: the error returned for `N.A.` wraps the syntax error, and its
message is the prefix followed by the message of the syntax error. -/
theorem ParseJSONOutput_wraps_witness :
    (ParseJSONOutput "N.A.").2 = some (Errorf "failed to decode JSON. %w" json.Error.SyntaxError) ∧
    (json.Unmarshal "N.A." TEvent.zero).2 =
      some (Errorf "failed to decode JSON. %w" json.Error.SyntaxError).Unwrap ∧
    (Errorf "failed to decode JSON. %w" json.Error.SyntaxError).Error
        (fun _ => "invalid character 'N' looking for beginning of value") =
      "failed to decode JSON. " ++ (fun _ => "invalid character 'N' looking for beginning of value")
        (Errorf "failed to decode JSON. %w" json.Error.SyntaxError).Unwrap :=
  ⟨by decide, ParseJSONOutput_wraps
    (fun _ => "invalid character 'N' looking for beginning of value") "N.A."
    (Errorf "failed to decode JSON. %w" json.Error.SyntaxError) (by decide)⟩

/-- C18: `ParseJSONOutput` is not atomic on failure. For the object whose `Elapsed` holds the
string `x`, it returns a non-nil error, the type error of that string, together with an event
that is not the zero value: the fields `Action` and `Test` are set. -/
theorem ParseJSONOutput_not_atomic :
    ParseJSONOutput "\x7b\"Action\":\"pass\",\"Test\":\"T\",\"Elapsed\":\"x\"\x7d" =
      (⟨"pass", "", "T", Float64.zero⟩,
       some (Errorf "failed to decode JSON. %w"
         (json.Error.UnmarshalTypeError "string" "Elapsed"))) ∧
    (ParseJSONOutput "\x7b\"Action\":\"pass\",\"Test\":\"T\",\"Elapsed\":\"x\"\x7d").2 ≠ none ∧
    (ParseJSONOutput "\x7b\"Action\":\"pass\",\"Test\":\"T\",\"Elapsed\":\"x\"\x7d").1 ≠
      TEvent.zero :=
  ⟨by decide, by decide, by decide⟩

/-! ## Keys that select no field, and the nesting limit -/

namespace json

open grammar

/-- Decoding the members of an object, one run after the other. -/
theorem decodeMembers_append (ms1 ms2 : List (String × Value)) (d : decodeState) :
    decodeMembers d (ms1 ++ ms2) = decodeMembers (decodeMembers d ms1) ms2 := by
  induction ms1 generalizing d with
  | nil => rfl
  | cons kv ms ih =>
    obtain ⟨key, v⟩ := kv
    rw [List.cons_append, decodeMembers, decodeMembers]
    cases findField key with
    | none => exact ih d
    | some f => exact ih _

/-- A member whose key selects no field has no effect on the decoding, wherever it stands. -/
theorem decodeMembers_insert (ms1 ms2 : List (String × Value)) (key : String) (v : Value)
    (d : decodeState) (h : findField key = none) :
    decodeMembers d (ms1 ++ (key, v) :: ms2) = decodeMembers d (ms1 ++ ms2) := by
  rw [decodeMembers_append, decodeMembers_append]
  conv_lhs => rw [decodeMembers, h]

/-- An object is nested within `n + 1` when its members are nested within `n`. -/
theorem NestedWithin_object_iff (n : Nat) (ms : List (String × Value)) :
    NestedWithin (n + 1) (.object ms) ↔ ∀ kv, kv ∈ ms → NestedWithin n kv.2 := by
  constructor
  · intro h
    cases h with
    | object _ _ hm => exact hm
  · exact NestedWithin.object n ms

/-- The array `nestedArray k` is nested `k + 1` deep. -/
theorem nestedArray_depth (k n : Nat) (h : NestedWithin n (nestedArray k)) : k < n := by
  induction k generalizing n with
  | zero =>
    unfold nestedArray at h
    cases h with
    | array m _ _ => omega
  | succ k ih =>
    unfold nestedArray at h
    cases h with
    | array m _ hm =>
      have := ih m (hm _ (List.mem_singleton.2 rfl))
      omega

theorem nestedArrayText_succ (k : Nat) :
    nestedArrayText (k + 1) = '[' :: (nestedArrayText k ++ [']']) := by
  unfold nestedArrayText
  rw [List.replicate_succ, List.replicate_succ' (k + 1) ']']
  simp

/-- The text `nestedArrayText k` is a JSON value of the grammar, and denotes
`nestedArray k`. -/
theorem nestedArray_IsValue (k : Nat) : IsValue (nestedArray k) (nestedArrayText k) := by
  induction k with
  | zero => exact IsValue.emptyArray [] (by intro c hc; simp at hc)
  | succ k ih =>
    rw [nestedArrayText_succ]
    unfold nestedArray
    have he := IsElements.one (nestedArray k) [] (nestedArrayText k) []
      (by intro c hc; simp at hc) ih (by intro c hc; simp at hc)
    simp only [List.nil_append, List.append_nil] at he
    exact IsValue.array _ _ he

/-- An object that holds `nestedArray k` under one key: its text is a JSON text of the
grammar. -/
theorem nestedArray_member (k : Nat) :
    IsJSONTextOf (.object [("x", nestedArray k)])
      ("\x7b\"x\":".data ++ nestedArrayText k ++ "\x7d".data) := by
  have hm := IsMembers.one (nestedArray k) [] ['x'] [] [] (nestedArrayText k) []
    (by intro c hc; simp at hc)
    (IsChars.unescaped 'x' [] (by decide) (by decide) (by decide) IsChars.nil)
    (by intro c hc; simp at hc) (by intro c hc; simp at hc) (nestedArray_IsValue k)
    (by intro c hc; simp at hc)
  have hv := IsValue.object _ _ hm
  refine ⟨[], _, [], ?_, by intro c hc; simp at hc, hv, by intro c hc; simp at hc⟩
  simp

/-- The scanner refuses the object that holds `nestedArray k` when `k + 2` exceeds its
nesting limit. -/
theorem scan_nestedArray_member (k : Nat) (h : maxNestingDepth ≤ k + 1) :
    scan ("\x7b\"x\":".data ++ nestedArrayText k ++ "\x7d".data) = none := by
  cases hs : scan ("\x7b\"x\":".data ++ nestedArrayText k ++ "\x7d".data) with
  | none => rfl
  | some v =>
    have e := scan_agrees _ _ v (nestedArray_member k) hs
    have hn := scan_nested _ _ hs
    rw [e] at hn
    unfold maxNestingDepth at hn h
    have hn1 := (NestedWithin_object_iff 9999 _).1 hn ("x", nestedArray k) (List.mem_singleton.2 rfl)
    have := nestedArray_depth k 9999 hn1
    omega

end json

/-- C12 is false as stated, twice over.  The key `action` is none of the four names, and
adding it changes the action returned from `a` to `b`.  The key `x` is none of the four names
either, its value of 10000 nested arrays is well-formed JSON, and adding it to the empty
object turns the nil error into a syntax error, for the scanner allows 10000 levels of
nesting and the object is one more. -/
theorem ParseJSONOutput_unknown_key_counterexample :
    (grammar.IsJSONTextOf (json.Value.object [("Action", json.Value.string "a")])
        "\x7b\"Action\":\"a\"\x7d".data ∧
     grammar.IsJSONTextOf
        (json.Value.object [("Action", json.Value.string "a"), ("action", json.Value.string "b")])
        "\x7b\"Action\":\"a\",\"action\":\"b\"\x7d".data ∧
     ParseJSONOutput "\x7b\"Action\":\"a\"\x7d" = (⟨"a", "", "", Float64.zero⟩, none) ∧
     ParseJSONOutput "\x7b\"Action\":\"a\",\"action\":\"b\"\x7d" =
       (⟨"b", "", "", Float64.zero⟩, none)) ∧
    (grammar.IsJSONTextOf (json.Value.object []) "\x7b\x7d".data ∧
     grammar.IsJSONTextOf (json.Value.object [("x", json.nestedArray 9999)])
        ("\x7b\"x\":".data ++ json.nestedArrayText 9999 ++ "\x7d".data) ∧
     ParseJSONOutput "\x7b\x7d" = (TEvent.zero, none) ∧
     ParseJSONOutput ⟨"\x7b\"x\":".data ++ json.nestedArrayText 9999 ++ "\x7d".data⟩ =
       (TEvent.zero, some (Errorf "failed to decode JSON. %w" json.Error.SyntaxError))) :=
  ⟨⟨json.scan_sound _ _ (by rfl), json.scan_sound _ _ (by rfl), by decide, by decide⟩,
   ⟨json.scan_sound _ _ (by rfl), json.nestedArray_member 9999, by decide,
    ParseJSONOutput_of_scan_none _
      (json.scan_nestedArray_member 9999 (by unfold json.maxNestingDepth; omega))⟩⟩

/-- C12 (as the code has it): for every well-formed JSON object, adding a member whose key
equals none of the four field names even up to letter case, with any well-formed JSON value,
anywhere among the members, changes neither the event returned nor whether an error is
returned, provided that the object with the member added is nested no deeper than the limit
of the scanner. -/
theorem ParseJSONOutput_unknown_key (data data1 : String) (ms1 ms2 : List (String × json.Value))
    (key : String) (v : json.Value)
    (hs : grammar.IsJSONTextOf (json.Value.object (ms1 ++ ms2)) data.data)
    (hs1 : grammar.IsJSONTextOf (json.Value.object (ms1 ++ (key, v) :: ms2)) data1.data)
    (hN : grammar.NestedWithin json.maxNestingDepth (json.Value.object (ms1 ++ (key, v) :: ms2)))
    (hk : ∀ f : json.Field, json.foldName key ≠ json.foldName f.name) :
    (ParseJSONOutput data1).1 = (ParseJSONOutput data).1 ∧
    ((ParseJSONOutput data1).2 = none ↔ (ParseJSONOutput data).2 = none) := by
  have hN0 : grammar.NestedWithin json.maxNestingDepth (json.Value.object (ms1 ++ ms2)) := by
    unfold json.maxNestingDepth at hN ⊢
    show grammar.NestedWithin (9999 + 1) _
    have hN9 : grammar.NestedWithin (9999 + 1) (json.Value.object (ms1 ++ (key, v) :: ms2)) := hN
    rw [json.NestedWithin_object_iff 9999] at hN9 ⊢
    intro kv hkv
    apply hN9 kv
    rcases List.mem_append.1 hkv with h | h
    · exact List.mem_append_left _ h
    · exact List.mem_append_right _ (List.mem_cons_of_mem _ h)
  rw [ParseJSONOutput_of_scan data1 _ (json.scan_complete data1.data _ hs1 hN),
    ParseJSONOutput_of_scan data _ (json.scan_complete data.data _ hs hN0)]
  simp only [json.decodeValue]
  rw [json.decodeMembers_insert ms1 ms2 key v _ (findField_none_of_foldName key hk)]
  exact ⟨rfl, Iff.rfl⟩

/-- Witness of C12 as amended: the key `Output`, holding an array, added after `Action`;
the event is the same, with the action `pass` and the test `T`, and no error either way. -/
theorem ParseJSONOutput_unknown_key_witness :
    ((ParseJSONOutput
          "\x7b\"Action\":\"pass\",\"Output\":[1,\x7b\"a\":null\x7d],\"Test\":\"T\"\x7d").1 =
        (ParseJSONOutput "\x7b\"Action\":\"pass\",\"Test\":\"T\"\x7d").1 ∧
      ((ParseJSONOutput
          "\x7b\"Action\":\"pass\",\"Output\":[1,\x7b\"a\":null\x7d],\"Test\":\"T\"\x7d").2 =
          none ↔
        (ParseJSONOutput "\x7b\"Action\":\"pass\",\"Test\":\"T\"\x7d").2 = none)) ∧
    ParseJSONOutput "\x7b\"Action\":\"pass\",\"Test\":\"T\"\x7d" =
      (⟨"pass", "", "T", Float64.zero⟩, none) :=
  have hsc : json.scan "\x7b\"Action\":\"pass\",\"Test\":\"T\"\x7d".data =
      some (json.Value.object
        ([("Action", json.Value.string "pass")] ++ [("Test", json.Value.string "T")])) := by rfl
  have hsc1 : json.scan
      "\x7b\"Action\":\"pass\",\"Output\":[1,\x7b\"a\":null\x7d],\"Test\":\"T\"\x7d".data =
      some (json.Value.object
        ([("Action", json.Value.string "pass")] ++
          ("Output", json.Value.array
            [json.Value.number "1", json.Value.object [("a", json.Value.null)]]) ::
          [("Test", json.Value.string "T")])) := by rfl
  ⟨ParseJSONOutput_unknown_key _ _ _ _ "Output" _
    (json.scan_sound _ _ hsc) (json.scan_sound _ _ hsc1) (json.scan_nested _ _ hsc1)
    (by intro f; cases f <;> decide), by decide⟩

/-! ## Every finite `float64` has a number literal -/

namespace strconv

/-- The length of the binary numeral of a positive number, as bounds on the number. -/
theorem bitLen_bounds (n : Nat) (hn : 0 < n) :
    1 ≤ bitLen n n ∧ (2 : ℚ) ^ ((bitLen n n : ℤ) - 1) ≤ n ∧ (n : ℚ) < (2 : ℚ) ^ (bitLen n n : ℤ) := by
  obtain ⟨b1, b2⟩ := bitLen_spec n n (Nat.le_refl _)
  have b2 := b2 hn
  have hL : 1 ≤ bitLen n n := by
    by_contra hlt
    have e : bitLen n n = 0 := by omega
    rw [e] at b1
    omega
  refine ⟨hL, ?_, ?_⟩
  · have e : ((bitLen n n : ℤ) - 1) = ((bitLen n n - 1 : ℕ) : ℤ) := by omega
    rw [e, zpow_natCast]
    exact_mod_cast b2
  · rw [zpow_natCast]
    exact_mod_cast b1

/-- The function `floorLog2` compares the quotient with a power of two exactly. -/
theorem floorLog2_eq (num den : Nat) (hd : 0 < den) :
    floorLog2 num den =
      if (num : ℚ) / den < (2 : ℚ) ^ ((bitLen num num : ℤ) - (bitLen den den : ℤ))
      then (bitLen num num : ℤ) - (bitLen den den : ℤ) - 1
      else (bitLen num num : ℤ) - (bitLen den den : ℤ) := by
  have hdq : (0 : ℚ) < den := by exact_mod_cast hd
  unfold floorLog2
  simp only []
  generalize (bitLen num num : ℤ) - (bitLen den den : ℤ) = e0
  by_cases h0 : 0 ≤ e0
  · obtain ⟨m, rfl⟩ := Int.eq_ofNat_of_zero_le h0
    simp only [h0, if_true, Int.toNat_ofNat, decide_eq_true_eq, zpow_natCast]
    have hiff : num < den * 2 ^ m ↔ (num : ℚ) / den < 2 ^ m := by
      rw [div_lt_iff₀ hdq]
      constructor
      · intro h
        have : ((num : ℕ) : ℚ) < ((den * 2 ^ m : ℕ) : ℚ) := by exact_mod_cast h
        push_cast at this
        linarith
      · intro h
        have : ((num : ℕ) : ℚ) < ((den * 2 ^ m : ℕ) : ℚ) := by
          push_cast
          linarith
        exact_mod_cast this
    by_cases hb : num < den * 2 ^ m
    · rw [if_pos hb, if_pos (hiff.1 hb)]
    · rw [if_neg hb, if_neg (fun h => hb (hiff.2 h))]
  · have hneg : e0 < 0 := by omega
    obtain ⟨m, hm⟩ : ∃ m : ℕ, e0 = -(m : ℤ) := ⟨(-e0).toNat, by omega⟩
    subst hm
    have ht : (- -(m : ℤ)).toNat = m := by omega
    simp only [h0, if_false, ht, decide_eq_true_eq, zpow_neg, zpow_natCast]
    have hp : (0 : ℚ) < 2 ^ m := by positivity
    have hiff : num * 2 ^ m < den ↔ (num : ℚ) / den < ((2 : ℚ) ^ m)⁻¹ := by
      rw [div_lt_iff₀ hdq, ← div_eq_inv_mul, lt_div_iff₀ hp]
      constructor
      · intro h
        have : ((num * 2 ^ m : ℕ) : ℚ) < ((den : ℕ) : ℚ) := by exact_mod_cast h
        push_cast at this
        linarith
      · intro h
        have : ((num * 2 ^ m : ℕ) : ℚ) < ((den : ℕ) : ℚ) := by
          push_cast
          linarith
        exact_mod_cast this
    by_cases hb : num * 2 ^ m < den
    · rw [if_pos hb, if_pos (hiff.1 hb)]
    · rw [if_neg hb, if_neg (fun h => hb (hiff.2 h))]

/-- The function `floorLog2` returns the exponent of the quotient: the quotient lies between
that power of two and the next. -/
theorem floorLog2_spec (num den : Nat) (hn : 0 < num) (hd : 0 < den) :
    (2 : ℚ) ^ floorLog2 num den ≤ (num : ℚ) / den ∧
    (num : ℚ) / den < (2 : ℚ) ^ (floorLog2 num den + 1) := by
  have hdq : (0 : ℚ) < den := by exact_mod_cast hd
  obtain ⟨_, n1, n2⟩ := bitLen_bounds num hn
  obtain ⟨_, d1, d2⟩ := bitLen_bounds den hd
  have h2 : (2 : ℚ) ≠ 0 := by norm_num
  have hlow : (2 : ℚ) ^ ((bitLen num num : ℤ) - (bitLen den den : ℤ) - 1) ≤ (num : ℚ) / den := by
    rw [le_div_iff₀ hdq]
    have e : (2 : ℚ) ^ ((bitLen num num : ℤ) - 1) =
        (2 : ℚ) ^ ((bitLen num num : ℤ) - (bitLen den den : ℤ) - 1) *
          (2 : ℚ) ^ (bitLen den den : ℤ) := by
      rw [← zpow_add₀ h2]
      congr 1
      ring
    have hp : (0 : ℚ) < (2 : ℚ) ^ ((bitLen num num : ℤ) - (bitLen den den : ℤ) - 1) := by
      positivity
    calc (2 : ℚ) ^ ((bitLen num num : ℤ) - (bitLen den den : ℤ) - 1) * den
        ≤ (2 : ℚ) ^ ((bitLen num num : ℤ) - (bitLen den den : ℤ) - 1) *
            (2 : ℚ) ^ (bitLen den den : ℤ) := by
          apply mul_le_mul_of_nonneg_left (le_of_lt d2) (le_of_lt hp)
      _ = (2 : ℚ) ^ ((bitLen num num : ℤ) - 1) := e.symm
      _ ≤ num := n1
  have hhigh : (num : ℚ) / den <
      (2 : ℚ) ^ ((bitLen num num : ℤ) - (bitLen den den : ℤ) + 1) := by
    rw [div_lt_iff₀ hdq]
    have e : (2 : ℚ) ^ (bitLen num num : ℤ) =
        (2 : ℚ) ^ ((bitLen num num : ℤ) - (bitLen den den : ℤ) + 1) *
          (2 : ℚ) ^ ((bitLen den den : ℤ) - 1) := by
      rw [← zpow_add₀ h2]
      congr 1
      ring
    have hp : (0 : ℚ) < (2 : ℚ) ^ ((bitLen num num : ℤ) - (bitLen den den : ℤ) + 1) := by
      positivity
    calc (num : ℚ) < (2 : ℚ) ^ (bitLen num num : ℤ) := n2
      _ = (2 : ℚ) ^ ((bitLen num num : ℤ) - (bitLen den den : ℤ) + 1) *
            (2 : ℚ) ^ ((bitLen den den : ℤ) - 1) := e
      _ ≤ (2 : ℚ) ^ ((bitLen num num : ℤ) - (bitLen den den : ℤ) + 1) * den := by
          apply mul_le_mul_of_nonneg_left d1 (le_of_lt hp)
  rw [floorLog2_eq num den hd]
  by_cases hb : (num : ℚ) / den < (2 : ℚ) ^ ((bitLen num num : ℤ) - (bitLen den den : ℤ))
  · rw [if_pos hb]
    refine ⟨hlow, ?_⟩
    have e : (bitLen num num : ℤ) - (bitLen den den : ℤ) - 1 + 1 =
        (bitLen num num : ℤ) - (bitLen den den : ℤ) := by ring
    rw [e]
    exact hb
  · rw [if_neg hb]
    exact ⟨not_lt.1 hb, hhigh⟩

/-- The exponent of a quotient that lies between a power of two and the next. -/
theorem floorLog2_unique (num den : Nat) (hn : 0 < num) (hd : 0 < den) (t : ℤ)
    (h1 : (2 : ℚ) ^ t ≤ (num : ℚ) / den) (h2 : (num : ℚ) / den < (2 : ℚ) ^ (t + 1)) :
    floorLog2 num den = t := by
  obtain ⟨s1, s2⟩ := floorLog2_spec num den hn hd
  have a : floorLog2 num den < t + 1 :=
    (zpow_lt_zpow_iff_right₀ (by norm_num : (1 : ℚ) < 2)).1 (lt_of_le_of_lt s1 h2)
  have b : t < floorLog2 num den + 1 :=
    (zpow_lt_zpow_iff_right₀ (by norm_num : (1 : ℚ) < 2)).1 (lt_of_le_of_lt h1 s2)
  omega

theorem divRoundEven_mul (q d : Nat) (hd : 0 < d) : divRoundEven (q * d) d = q := by
  unfold divRoundEven
  simp only [Nat.mul_mod_left, Nat.mul_div_cancel _ hd, Nat.mul_zero]
  rw [if_neg (by omega)]

/-- A subnormal value is packed as it is. -/
theorem pack_subnormal (neg : Bool) (q : Nat) (k : Int) (h : q < 2 ^ 52) :
    pack neg q k = some ⟨neg, 0, q⟩ := by
  have hq : ¬ q = 2 ^ 53 := by omega
  unfold pack
  simp only [hq, if_false]
  rw [if_pos h]

/-- The number of binary digits of a number between `2 ^ 52` and `2 ^ 53`. -/
theorem bitLen_normal (q : Nat) (h1 : 2 ^ 52 ≤ q) (h2 : q < 2 ^ 53) : bitLen q q = 53 := by
  obtain ⟨b1, b2⟩ := bitLen_spec q q (Nat.le_refl _)
  have b2 := b2 (by omega)
  by_contra hne
  rcases Nat.lt_or_gt_of_ne hne with hlt | hgt
  · have : 2 ^ bitLen q q ≤ 2 ^ 52 := Nat.pow_le_pow_right (by decide) (by omega)
    omega
  · have : 2 ^ 53 ≤ 2 ^ (bitLen q q - 1) := Nat.pow_le_pow_right (by decide) (by omega)
    omega

/-- The number of binary digits of a number below `2 ^ 52`. -/
theorem bitLen_subnormal (q : Nat) (h : q < 2 ^ 52) : bitLen q q ≤ 52 := by
  by_cases h0 : q = 0
  · rw [h0]
    decide
  · obtain ⟨_, b2⟩ := bitLen_spec q q (Nat.le_refl _)
    have b2 := b2 (by omega)
    by_contra hgt
    have : 2 ^ 52 ≤ 2 ^ (bitLen q q - 1) := Nat.pow_le_pow_right (by decide) (by omega)
    omega

/-- A quotient that is a binary64 value, `q * 2 ^ k` with `q` of 53 bits or `k` the least
exponent, is converted to that value: nothing is rounded. -/
theorem nearestFloat64_exact (neg : Bool) (num den q : Nat) (k : ℤ) (hd : 0 < den)
    (hq0 : 0 < q) (hq : q < 2 ^ 53) (hk : -1074 ≤ k) (hstd : 2 ^ 52 ≤ q ∨ k = -1074)
    (h : (num : ℚ) / den = (q : ℚ) * (2 : ℚ) ^ k) :
    nearestFloat64 neg num den = pack neg q k := by
  have hdq : (0 : ℚ) < den := by exact_mod_cast hd
  have hqq : (0 : ℚ) < q := by exact_mod_cast hq0
  have h2 : (2 : ℚ) ≠ 0 := by norm_num
  have hnum : 0 < num := by
    rcases Nat.eq_zero_or_pos num with e | e
    · rw [e] at h
      have hp : (0 : ℚ) < (q : ℚ) * (2 : ℚ) ^ k := by positivity
      rw [← h] at hp
      simp at hp
    · exact e
  obtain ⟨hb, q1, q2⟩ := bitLen_bounds q hq0
  have hp : (0 : ℚ) < (2 : ℚ) ^ k := by positivity
  have hfl : floorLog2 num den = (bitLen q q : ℤ) - 1 + k := by
    apply floorLog2_unique num den hnum hd
    · rw [h, zpow_add₀ h2]
      exact mul_le_mul_of_nonneg_right q1 (le_of_lt hp)
    · rw [h]
      have e : (bitLen q q : ℤ) - 1 + k + 1 = (bitLen q q : ℤ) + k := by ring
      rw [e, zpow_add₀ h2]
      exact mul_lt_mul_of_pos_right q2 hp
  have hK : max (floorLog2 num den - 52) (-1074) = k := by
    rw [hfl]
    by_cases hn : 2 ^ 52 ≤ q
    · rw [bitLen_normal q hn hq]
      omega
    · have hs : k = -1074 := by
        rcases hstd with h1 | h1
        · exact absurd h1 hn
        · exact h1
      have := bitLen_subnormal q (by omega)
      omega
  have hn0 : ¬ num = 0 := by omega
  unfold nearestFloat64
  rw [if_neg hn0]
  simp only [hK]
  by_cases hneg : k < 0
  · rw [if_pos hneg]
    obtain ⟨j, hj⟩ : ∃ j : ℕ, k = -(j : ℤ) := ⟨(-k).toNat, by omega⟩
    have ht : (-k).toNat = j := by omega
    rw [ht]
    have e : num * 2 ^ j = q * den := by
      have hpj : (0 : ℚ) < (2 : ℚ) ^ j := by positivity
      have h1 : (num : ℚ) * (2 : ℚ) ^ j = (q : ℚ) * den := by
        rw [hj, zpow_neg, zpow_natCast, div_eq_iff (ne_of_gt hdq)] at h
        rw [h]
        field_simp
      exact_mod_cast h1
    rw [e, divRoundEven_mul q den hd]
  · rw [if_neg hneg]
    obtain ⟨j, hj⟩ : ∃ j : ℕ, k = (j : ℤ) := ⟨k.toNat, by omega⟩
    have ht : k.toNat = j := by omega
    rw [ht]
    have e : num = q * (den * 2 ^ j) := by
      have h1 : (num : ℚ) = (q : ℚ) * ((den : ℚ) * (2 : ℚ) ^ j) := by
        rw [hj, zpow_natCast, div_eq_iff (ne_of_gt hdq)] at h
        rw [h]
        ring
      exact_mod_cast h1
    rw [e, divRoundEven_mul q _ (by positivity)]

open grammar

theorem digitsValue_append (ds : List Char) (c : Char) :
    digitsValue (ds ++ [c]) = 10 * digitsValue ds + (c.toNat - '0'.toNat) := by
  simp [digitsValue, List.foldl_append]

/-- The decimal digit of a number below ten. -/
theorem digit_char (d : Nat) (h : d < 10) :
    '0' ≤ Char.ofNat (48 + d) ∧ Char.ofNat (48 + d) ≤ '9' ∧
    (Char.ofNat (48 + d)).toNat - '0'.toNat = d ∧ (d ≠ 0 → Char.ofNat (48 + d) ≠ '0') := by
  revert d
  decide

/-- Every natural number has a decimal numeral without leading zeros. -/
theorem exists_digits (n : Nat) :
    ∃ ds, IsInt ds ∧ IsDigits ds ∧ digitsValue ds = n := by
  induction n using Nat.strong_induction_on with
  | _ n ih =>
    by_cases h : n < 10
    · obtain ⟨d1, d2, d3, d4⟩ := digit_char n h
      refine ⟨[Char.ofNat (48 + n)], ?_, ⟨by simp, by simpa using ⟨d1, d2⟩⟩, ?_⟩
      · by_cases h0 : n = 0
        · left
          rw [h0]
        · right
          exact ⟨⟨by simp, by simpa using ⟨d1, d2⟩⟩, by simpa using d4 h0⟩
      · simpa [digitsValue] using d3
    · obtain ⟨ds, hi, hd, hv⟩ := ih (n / 10) (by omega)
      obtain ⟨d1, d2, d3, _⟩ := digit_char (n % 10) (by omega)
      have hne : ds ≠ [] := hd.1
      have hdig : IsDigits (ds ++ [Char.ofNat (48 + n % 10)]) := by
        refine ⟨by simp, ?_⟩
        intro c hc
        rcases List.mem_append.1 hc with h1 | h1
        · exact hd.2 c h1
        · rw [List.mem_singleton.1 h1]
          exact ⟨d1, d2⟩
      refine ⟨ds ++ [Char.ofNat (48 + n % 10)], Or.inr ⟨hdig, ?_⟩, hdig, ?_⟩
      · rcases hi with h1 | h1
        · rw [h1] at hv
          have : n / 10 = 0 := by rw [← hv]; rfl
          omega
        · rcases ds with _ | ⟨c, cs⟩
          · exact absurd rfl hne
          · simpa using h1.2
      · rw [digitsValue_append, hv, d3]
        omega

theorem exponentValue_append (ds : List Char) (c : Char) :
    exponentValue (ds ++ [c]) =
      if exponentValue ds < 10000 then 10 * exponentValue ds + (c.toNat - '0'.toNat)
      else exponentValue ds := by
  simp [exponentValue, List.foldl_append]

/-- The cap on the exponent has no effect on digits whose value is below 10000. -/
theorem exponentValue_eq (ds : List Char) (h : digitsValue ds < 10000) :
    exponentValue ds = digitsValue ds := by
  induction ds using List.reverseRecOn with
  | nil => rfl
  | append_singleton ds c ih =>
    rw [digitsValue_append] at h
    have h1 : digitsValue ds < 10000 := by omega
    rw [exponentValue_append, ih h1, if_pos h1, digitsValue_append]

/-- Reading a literal written as digits, `e-` and the digits of an exponent below 10000. -/
theorem readFloat_exponent (neg : Bool) (ds js : List Char) (hd : IsDigits ds)
    (hj : digitsValue js < 10000) :
    readFloat ((if neg then ['-'] else []) ++ ds ++ 'e' :: '-' :: js) =
      (neg, digitsValue ds, -(digitsValue js : ℤ)) := by
  have hsp : json.spanDigits (ds ++ 'e' :: '-' :: js) = (ds, 'e' :: '-' :: js) :=
    json.spanDigits_append ds _ hd.2 (by
      intro c r e
      have : c = 'e' := ((List.cons.inj e).1).symm
      rw [this]
      decide)
  rcases ds with _ | ⟨c, cs⟩
  · exact absurd rfl hd.1
  · have hc : ¬ c = '-' := by
      intro e
      have := hd.2 c (List.mem_cons_self _ _)
      rw [e] at this
      exact absurd this.1 (by decide)
    have hsp1 : json.spanDigits (c :: (cs ++ 'e' :: '-' :: js)) =
        (c :: cs, 'e' :: '-' :: js) := hsp
    have hje := exponentValue_eq js hj
    cases neg
    · simp [readFloat, hc, hsp1, hje]
    · simp [readFloat, hsp1, hje]

/-- A literal written as an optional minus sign, an integer, `e-` and digits is a JSON
number. -/
theorem IsNumber_exponent (neg : Bool) (ds js : List Char) (hd : IsInt ds) (hj : IsDigits js) :
    IsNumber ((if neg then ['-'] else []) ++ ds ++ 'e' :: '-' :: js) := by
  refine ⟨if neg then ['-'] else [], ds, [], 'e' :: '-' :: js, by simp, ?_, hd, Or.inl rfl,
    Or.inr ⟨'e', ['-'], js, rfl, Or.inl rfl, Or.inr (Or.inr rfl), hj⟩⟩
  cases neg
  · exact Or.inl rfl
  · exact Or.inr rfl

open grammar

/-- A binary64 value `q * 2 ^ k`, `q` not zero, has a number literal that `ParseFloat` maps
to it: its decimal expansion, which is finite. -/
theorem exists_literal_exact (neg : Bool) (q : Nat) (k : ℤ) (hq0 : 0 < q) (hq : q < 2 ^ 53)
    (hk : -1074 ≤ k) (hstd : 2 ^ 52 ≤ q ∨ k = -1074) :
    ∃ lit : String, IsNumber lit.data ∧ ParseFloat lit = pack neg q k := by
  obtain ⟨ds, hi, hd, hv⟩ := exists_digits (q * 2 ^ k.toNat * 5 ^ (-k).toNat)
  obtain ⟨js, _, hj, hjv⟩ := exists_digits (-k).toNat
  refine ⟨⟨(if neg then ['-'] else []) ++ ds ++ 'e' :: '-' :: js⟩,
    IsNumber_exponent neg ds js hi hj, ?_⟩
  unfold ParseFloat
  simp only [readFloat_exponent neg ds js hd (by rw [hjv]; omega), hv, hjv]
  by_cases hneg : k < 0
  · obtain ⟨j, hj0⟩ : ∃ j : ℕ, k = -(j : ℤ) := ⟨(-k).toNat, by omega⟩
    have ht : (-k).toNat = j := by omega
    have ht0 : k.toNat = 0 := by omega
    have hjpos : 0 < j := by omega
    rw [ht, ht0, if_neg (by omega), pow_zero, Nat.mul_one]
    have hn : (-(-(j : ℤ))).toNat = j := by omega
    rw [hn]
    apply nearestFloat64_exact neg _ _ q k (by positivity) hq0 hq hk hstd
    rw [hj0, zpow_neg, zpow_natCast]
    push_cast
    have e : (10 : ℚ) ^ j = 5 ^ j * 2 ^ j := by
      rw [← mul_pow]
      norm_num
    rw [e]
    field_simp
    ring
  · obtain ⟨j, hj0⟩ : ∃ j : ℕ, k = (j : ℤ) := ⟨k.toNat, by omega⟩
    have ht : (-k).toNat = 0 := by omega
    have ht0 : k.toNat = j := by omega
    rw [ht, ht0, if_pos (by simp), pow_zero, Nat.mul_one]
    simp only [Nat.cast_zero, neg_zero, Int.toNat_zero, pow_zero, Nat.mul_one]
    apply nearestFloat64_exact neg _ _ q k (by decide) hq0 hq hk hstd
    rw [hj0, zpow_natCast]
    push_cast
    ring

/-- Every finite binary64 value has a JSON number literal that `ParseFloat` maps to it. -/
theorem exists_literal (x : Float64) (he : x.exp < 2047) (hf : x.frac < 2 ^ 52) :
    ∃ lit : String, IsNumber lit.data ∧ ParseFloat lit = some x := by
  obtain ⟨s, e, f⟩ := x
  simp only at he hf
  by_cases he0 : e = 0
  · subst he0
    by_cases hf0 : f = 0
    · subst hf0
      cases s
      · exact ⟨"0", ⟨[], ['0'], [], [], rfl, Or.inl rfl, Or.inl rfl, Or.inl rfl, Or.inl rfl⟩,
          by decide⟩
      · exact ⟨"-0", ⟨['-'], ['0'], [], [], rfl, Or.inr rfl, Or.inl rfl, Or.inl rfl,
          Or.inl rfl⟩, by decide⟩
    · obtain ⟨lit, h1, h2⟩ := exists_literal_exact s f (-1074) (by omega) (by omega)
        (by omega) (Or.inr rfl)
      exact ⟨lit, h1, by rw [h2, pack_subnormal s f _ hf]⟩
  · obtain ⟨lit, h1, h2⟩ := exists_literal_exact s (2 ^ 52 + f) ((e : ℤ) - 1075) (by omega)
      (by omega) (by omega) (Or.inl (by omega))
    refine ⟨lit, h1, ?_⟩
    have e1 : ((e : ℤ) - 1075 + 1075).toNat = e := by omega
    have e2 : 2 ^ 52 + f - 2 ^ 52 = f := by omega
    rw [h2, pack_normal s _ _ (by omega) (by omega) (by omega) (by omega), e1, e2]

end strconv

/-! ## The encoder and the decoder -/

namespace json

open grammar

set_option smartUnfolding false in
theorem unquote_cons_aux (c : Char) (cs : List Char) :
    ∃ x, unquote (c :: cs) = if c = '\\' then x else c :: unquote cs := ⟨_, rfl⟩

set_option smartUnfolding false in
theorem unquote_escape_aux (e : Char) (cs : List Char) :
    ∃ x, unquote ('\\' :: e :: cs) = if e = 'u' then x else unescape e :: unquote cs := ⟨_, rfl⟩

set_option smartUnfolding false in
theorem unquote_unicode_aux (h1 h2 h3 h4 : Char) (cs : List Char) :
    ∃ x, unquote ('\\' :: 'u' :: h1 :: h2 :: h3 :: h4 :: cs) =
      if 0xD800 ≤ hex4 h1 h2 h3 h4 ∧ hex4 h1 h2 h3 h4 < 0xE000 then x
      else Char.ofNat (hex4 h1 h2 h3 h4) :: unquote cs := ⟨_, rfl⟩

/-- The function `unquote` copies a character other than the backslash. -/
theorem unquote_unescaped (c : Char) (cs : List Char) (h : c ≠ '\\') :
    unquote (c :: cs) = c :: unquote cs := by
  obtain ⟨x, hx⟩ := unquote_cons_aux c cs
  rw [hx, if_neg h]

/-- The function `unquote` on a two-character escape. -/
theorem unquote_escape (e : Char) (cs : List Char) (h : e ≠ 'u') :
    unquote ('\\' :: e :: cs) = unescape e :: unquote cs := by
  obtain ⟨x, hx⟩ := unquote_escape_aux e cs
  rw [hx, if_neg h]

/-- The function `unquote` on a `\u` escape below the surrogates. -/
theorem unquote_unicode (h1 h2 h3 h4 : Char) (cs : List Char)
    (h : hex4 h1 h2 h3 h4 < 0xD800) :
    unquote ('\\' :: 'u' :: h1 :: h2 :: h3 :: h4 :: cs) =
      Char.ofNat (hex4 h1 h2 h3 h4) :: unquote cs := by
  obtain ⟨x, hx⟩ := unquote_unicode_aux h1 h2 h3 h4 cs
  rw [hx, if_neg (by omega)]

/-- An entry of the table `hex` is a hexadecimal digit and writes its index. -/
theorem hex_getD (k : Nat) (h : k < 16) :
    IsHex (hex.getD k '0') ∧ hexValue (hex.getD k '0') = k := by
  have : ∀ k, k < 16 → isHexDigit (hex.getD k '0') = true ∧ hexValue (hex.getD k '0') = k := by
    decide
  exact ⟨(isHexDigit_iff _).1 (this k h).1, (this k h).2⟩

/-- The two digits the encoder writes for a code below 256 write that code. -/
theorem hex4_hex (n : Nat) (h : n < 256) :
    hex4 '0' '0' (hex.getD (n / 16) '0') (hex.getD (n % 16) '0') = n := by
  have h0 : hexValue '0' = 0 := by decide
  unfold hex4
  rw [h0, (hex_getD (n / 16) (by omega)).2, (hex_getD (n % 16) (by omega)).2]
  omega

theorem IsHex_zero : IsHex '0' := (isHexDigit_iff _).1 (by decide)

theorem IsHex_two : IsHex '2' := (isHexDigit_iff _).1 (by decide)

/-- What the encoder writes for a character is text of a JSON string, and `unquote` reads
the character back from it. -/
theorem appendChar_spec (c : Char) (rest : List Char) (hr : IsChars rest) :
    IsChars (appendChar c ++ rest) ∧ unquote (appendChar c ++ rest) = c :: unquote rest := by
  unfold appendChar
  by_cases h1 : c.toNat < 0x80
  · rw [if_pos h1]
    by_cases h2 : htmlSafe c = true
    · rw [if_pos h2]
      simp only [htmlSafe, Bool.and_eq_true, decide_eq_true_eq, Bool.not_eq_true',
        Bool.or_eq_false_iff, decide_eq_false_iff_not] at h2
      obtain ⟨⟨h20, _⟩, ⟨⟨⟨hq, hb⟩, _⟩, _⟩, _⟩ := h2
      exact ⟨IsChars.unescaped c rest h20 hq hb hr, unquote_unescaped c rest hb⟩
    · rw [if_neg h2]
      by_cases h3 : c = '\\' ∨ c = '"'
      · rw [if_pos h3]
        refine ⟨IsChars.escape c rest (by tauto) hr, ?_⟩
        rcases h3 with rfl | rfl
        · exact unquote_escape _ rest (by decide)
        · exact unquote_escape _ rest (by decide)
      · rw [if_neg h3]
        by_cases h4 : c = '\x08'
        · rw [if_pos h4, h4]
          exact ⟨IsChars.escape 'b' rest (by tauto) hr, unquote_escape _ rest (by decide)⟩
        rw [if_neg h4]
        by_cases h5 : c = '\x0c'
        · rw [if_pos h5, h5]
          exact ⟨IsChars.escape 'f' rest (by tauto) hr, unquote_escape _ rest (by decide)⟩
        rw [if_neg h5]
        by_cases h6 : c = '\n'
        · rw [if_pos h6, h6]
          exact ⟨IsChars.escape 'n' rest (by tauto) hr, unquote_escape _ rest (by decide)⟩
        rw [if_neg h6]
        by_cases h7 : c = '\r'
        · rw [if_pos h7, h7]
          exact ⟨IsChars.escape 'r' rest (by tauto) hr, unquote_escape _ rest (by decide)⟩
        rw [if_neg h7]
        by_cases h8 : c = '\t'
        · rw [if_pos h8, h8]
          exact ⟨IsChars.escape 't' rest (by tauto) hr, unquote_escape _ rest (by decide)⟩
        rw [if_neg h8]
        have hd1 := hex_getD (c.toNat / 16) (by omega)
        have hd2 := hex_getD (c.toNat % 16) (by omega)
        have hv := hex4_hex c.toNat (by omega)
        refine ⟨IsChars.unicode _ _ _ _ rest IsHex_zero IsHex_zero hd1.1 hd2.1 hr, ?_⟩
        show unquote ('\\' :: 'u' :: '0' :: '0' :: _ :: _ :: rest) = _
        rw [unquote_unicode _ _ _ _ rest (by rw [hv]; omega), hv, Char.ofNat_toNat]
  · rw [if_neg h1]
    by_cases h2 : c.toNat = 0x2028 ∨ c.toNat = 0x2029
    · rw [if_pos h2]
      have hd2 := hex_getD (c.toNat % 16) (by omega)
      have h2v : hexValue '2' = 2 := by decide
      have h0v : hexValue '0' = 0 := by decide
      have hv : hex4 '2' '0' '2' (hex.getD (c.toNat % 16) '0') = c.toNat := by
        unfold hex4
        rw [h2v, h0v, hd2.2]
        omega
      refine ⟨IsChars.unicode _ _ _ _ rest IsHex_two IsHex_zero IsHex_two hd2.1 hr, ?_⟩
      show unquote ('\\' :: 'u' :: '2' :: '0' :: '2' :: _ :: rest) = _
      rw [unquote_unicode _ _ _ _ rest (by rw [hv]; omega), hv, Char.ofNat_toNat]
    · rw [if_neg h2]
      have hq : c ≠ '"' := fun e => h1 (by rw [e]; decide)
      have hb : c ≠ '\\' := fun e => h1 (by rw [e]; decide)
      exact ⟨IsChars.unescaped c rest (by omega) hq hb hr, unquote_unescaped c rest hb⟩

/-- The text the encoder writes between the quotes is text of a JSON string, and `unquote`
reads the string back from it. -/
theorem appendChars_spec (s : List Char) :
    IsChars (s.flatMap appendChar) ∧ unquote (s.flatMap appendChar) = s := by
  induction s with
  | nil => exact ⟨IsChars.nil, by decide⟩
  | cons c cs ih =>
    rw [List.flatMap_cons]
    have h := appendChar_spec c _ ih.1
    exact ⟨h.1, by rw [h.2, ih.2]⟩

/-- The literal the encoder writes for a string is a JSON value and denotes the string. -/
theorem appendString_IsValue (s : String) : IsValue (.string s) (appendString s) := by
  have h := IsValue.string _ (appendChars_spec s.data).1
  rw [(appendChars_spec s.data).2] at h
  exact h

/-- Characters that need no escape are text of a JSON string and stand for themselves. -/
theorem IsChars_plain (k : List Char)
    (h : ∀ c ∈ k, 0x20 ≤ c.toNat ∧ c ≠ '"' ∧ c ≠ '\\') : IsChars k ∧ unquote k = k := by
  induction k with
  | nil => exact ⟨IsChars.nil, by decide⟩
  | cons c cs ih =>
    have hc := h c (List.mem_cons_self _ _)
    have ih1 := ih fun x hx => h x (List.mem_cons_of_mem _ hx)
    exact ⟨IsChars.unescaped c cs hc.1 hc.2.1 hc.2.2 ih1.1,
      by rw [unquote_unescaped c cs hc.2.2, ih1.2]⟩

/-- The last member of an object as the encoder writes it. -/
theorem IsMembers_one_plain (k : String) (v : Value) (t : List Char)
    (hk : ∀ c ∈ k.data, 0x20 ≤ c.toNat ∧ c ≠ '"' ∧ c ≠ '\\') (hv : IsValue v t) :
    IsMembers [(k, v)] ('"' :: (k.data ++ '"' :: ':' :: t)) := by
  have h := IsMembers.one v [] k.data [] [] t [] IsWS_nil (IsChars_plain k.data hk).1 IsWS_nil
    IsWS_nil hv IsWS_nil
  rw [(IsChars_plain k.data hk).2] at h
  simpa using h

/-- A member of an object as the encoder writes it, followed by a comma and the members
after it. -/
theorem IsMembers_cons_plain (k : String) (v : Value) (t : List Char)
    (ms : List (String × Value)) (r : List Char)
    (hk : ∀ c ∈ k.data, 0x20 ≤ c.toNat ∧ c ≠ '"' ∧ c ≠ '\\') (hv : IsValue v t)
    (hr : IsMembers ms r) :
    IsMembers ((k, v) :: ms) ('"' :: (k.data ++ '"' :: ':' :: (t ++ ',' :: r))) := by
  have h := IsMembers.cons v ms [] k.data [] [] t [] r IsWS_nil (IsChars_plain k.data hk).1
    IsWS_nil IsWS_nil hv IsWS_nil hr
  rw [(IsChars_plain k.data hk).2] at h
  simpa using h

/-- The object written for an event is a JSON text of the grammar when the text written for
`Elapsed` is a JSON number, and denotes the object of the four fields with their values. -/
theorem appendEvent_IsJSONTextOf (v : TEvent) (elapsed : List Char) (hn : IsNumber elapsed) :
    IsJSONTextOf
      (.object [("Action", .string v.Action), ("Package", .string v.Package),
        ("Test", .string v.Test), ("Elapsed", .number ⟨elapsed⟩)])
      (appendEvent v elapsed).data := by
  have h4 := IsMembers_one_plain "Elapsed" (.number ⟨elapsed⟩) elapsed (by decide)
    (IsValue.number elapsed hn)
  have h3 := IsMembers_cons_plain "Test" _ _ _ _ (by decide) (appendString_IsValue v.Test) h4
  have h2 := IsMembers_cons_plain "Package" _ _ _ _ (by decide)
    (appendString_IsValue v.Package) h3
  have h1 := IsMembers_cons_plain "Action" _ _ _ _ (by decide)
    (appendString_IsValue v.Action) h2
  refine ⟨[], _, [], ?_, IsWS_nil, IsValue.object _ _ h1, IsWS_nil⟩
  simp [appendEvent]

/-- The object written for an event is nested one deep. -/
theorem appendEvent_NestedWithin (a p t n : String) :
    NestedWithin maxNestingDepth
      (.object [("Action", .string a), ("Package", .string p), ("Test", .string t),
        ("Elapsed", .number n)]) := by
  apply NestedWithin.object 9999
  intro kv hkv
  simp only [List.mem_cons, List.mem_singleton, List.not_mem_nil, or_false] at hkv
  rcases hkv with rfl | rfl | rfl | rfl
  · exact NestedWithin.string _ _
  · exact NestedWithin.string _ _
  · exact NestedWithin.string _ _
  · exact NestedWithin.number _ _

end json

/-- Decoding the object written for an event returns the event, when `ParseFloat` maps the
text written for `Elapsed` back to `Elapsed`. -/
theorem ParseJSONOutput_appendEvent (tEvt : TEvent) (elapsed : List Char)
    (hn : grammar.IsNumber elapsed)
    (hx : strconv.ParseFloat ⟨elapsed⟩ = some tEvt.Elapsed) :
    ParseJSONOutput (json.appendEvent tEvt elapsed) = (tEvt, none) := by
  rw [ParseJSONOutput_of_scan _ _ (json.scan_complete _ _
    (json.appendEvent_IsJSONTextOf tEvt elapsed hn) (json.appendEvent_NestedWithin _ _ _ _))]
  have hA : json.findField "Action" = some json.Field.Action := by decide
  have hP : json.findField "Package" = some json.Field.Package := by decide
  have hT : json.findField "Test" = some json.Field.Test := by decide
  have hE : json.findField "Elapsed" = some json.Field.Elapsed := by decide
  simp only [json.decodeValue, json.decodeMembers, hA, hP, hT, hE, json.storeValue,
    json.storeString, json.storeNumber, hx]
  rfl

/-! ## The shortest digits of a float are read back as the float -/

namespace strconv

/-- The nearest integer to a quotient, from bounds on the quotient: `q` is returned when
`n / d` is within a half of `q`, a half away only when `q` is even. -/
theorem divRoundEven_of_bounds (n d q : Nat) (hd : 0 < d)
    (h1 : 2 * q * d < 2 * n + d ∨ (2 * q * d = 2 * n + d ∧ q % 2 = 0))
    (h2 : 2 * n < 2 * q * d + d ∨ (2 * n = 2 * q * d + d ∧ q % 2 = 0)) :
    divRoundEven n d = q := by
  have hn : d * (n / d) + n % d = n := Nat.div_add_mod n d
  have hr : n % d < d := Nat.mod_lt n hd
  generalize hq0 : n / d = q0 at hn
  generalize hr0 : n % d = r at hn hr
  have hle : q0 ≤ q := by
    by_contra hc
    have : (q + 1) * d ≤ q0 * d := Nat.mul_le_mul_right d (by omega)
    have e1 : (q + 1) * d = q * d + d := by ring
    have e2 : d * q0 = q0 * d := by ring
    have e3 : 2 * q * d = 2 * (q * d) := by ring
    rcases h2 with h | ⟨h, _⟩ <;> omega
  have hge : q ≤ q0 + 1 := by
    by_contra hc
    have : (q0 + 2) * d ≤ q * d := Nat.mul_le_mul_right d (by omega)
    have e1 : (q0 + 2) * d = q0 * d + 2 * d := by ring
    have e2 : d * q0 = q0 * d := by ring
    have e3 : 2 * q * d = 2 * (q * d) := by ring
    rcases h1 with h | ⟨h, _⟩ <;> omega
  unfold divRoundEven
  simp only [hq0, hr0]
  have e2 : d * q0 = q0 * d := by ring
  have e3 : 2 * q * d = 2 * (q * d) := by ring
  by_cases hc : q0 = q
  · subst hc
    rw [if_neg]
    rcases h2 with h | ⟨h, he⟩
    · intro hh
      rcases hh with hh | ⟨hh, _⟩ <;> omega
    · intro hh
      rcases hh with hh | ⟨hh, ho⟩ <;> omega
  · have hq : q = q0 + 1 := by omega
    subst hq
    have e1 : (q0 + 1) * d = q0 * d + d := by ring
    rw [if_pos]
    rcases h1 with h | ⟨h, he⟩
    · left; omega
    · right; exact ⟨by omega, by omega⟩

/-- The nearest integer to a quotient, from bounds on the quotient as a rational number. -/
theorem divRoundEven_of_rat (n d q : Nat) (hd : 0 < d)
    (h1 : (q : ℚ) - 1 / 2 < (n : ℚ) / d ∨ ((q : ℚ) - 1 / 2 = (n : ℚ) / d ∧ q % 2 = 0))
    (h2 : (n : ℚ) / d < (q : ℚ) + 1 / 2 ∨ ((n : ℚ) / d = (q : ℚ) + 1 / 2 ∧ q % 2 = 0)) :
    divRoundEven n d = q := by
  have hdq : (0 : ℚ) < d := by exact_mod_cast hd
  apply divRoundEven_of_bounds n d q hd
  · rcases h1 with h | ⟨h, he⟩
    · left
      rw [lt_div_iff₀ hdq] at h
      have : ((2 * q * d : ℕ) : ℚ) < ((2 * n + d : ℕ) : ℚ) := by
        push_cast
        linarith
      exact_mod_cast this
    · right
      rw [eq_div_iff (ne_of_gt hdq)] at h
      refine ⟨?_, he⟩
      have : ((2 * q * d : ℕ) : ℚ) = ((2 * n + d : ℕ) : ℚ) := by
        push_cast
        linarith
      exact_mod_cast this
  · rcases h2 with h | ⟨h, he⟩
    · left
      rw [div_lt_iff₀ hdq] at h
      have : ((2 * n : ℕ) : ℚ) < ((2 * q * d + d : ℕ) : ℚ) := by
        push_cast
        linarith
      exact_mod_cast this
    · right
      rw [div_eq_iff (ne_of_gt hdq)] at h
      refine ⟨?_, he⟩
      have : ((2 * n : ℕ) : ℚ) = ((2 * q * d + d : ℕ) : ℚ) := by
        push_cast
        linarith
      exact_mod_cast this

/-- The quotient scaled by a power of two and rounded to the nearest integer, as
`nearestFloat64` computes it. -/
theorem round_scaled (num den Q : Nat) (K : ℤ) (hd : 0 < den)
    (h1 : (Q : ℚ) - 1 / 2 < (num : ℚ) / den / (2 : ℚ) ^ K ∨
      ((Q : ℚ) - 1 / 2 = (num : ℚ) / den / (2 : ℚ) ^ K ∧ Q % 2 = 0))
    (h2 : (num : ℚ) / den / (2 : ℚ) ^ K < (Q : ℚ) + 1 / 2 ∨
      ((num : ℚ) / den / (2 : ℚ) ^ K = (Q : ℚ) + 1 / 2 ∧ Q % 2 = 0)) :
    (if K < 0 then divRoundEven (num * 2 ^ (-K).toNat) den
      else divRoundEven num (den * 2 ^ K.toNat)) = Q := by
  have hdq : (0 : ℚ) < den := by exact_mod_cast hd
  by_cases hneg : K < 0
  · rw [if_pos hneg]
    obtain ⟨j, hj⟩ : ∃ j : ℕ, K = -(j : ℤ) := ⟨(-K).toNat, by omega⟩
    have ht : (-K).toNat = j := by omega
    rw [ht]
    have e : (num : ℚ) / den / (2 : ℚ) ^ K = ((num * 2 ^ j : ℕ) : ℚ) / den := by
      rw [hj, zpow_neg, zpow_natCast]
      push_cast
      field_simp
    rw [e] at h1 h2
    exact divRoundEven_of_rat _ _ _ hd h1 h2
  · rw [if_neg hneg]
    obtain ⟨j, hj⟩ : ∃ j : ℕ, K = (j : ℤ) := ⟨K.toNat, by omega⟩
    have ht : K.toNat = j := by omega
    rw [ht]
    have e : (num : ℚ) / den / (2 : ℚ) ^ K = (num : ℚ) / ((den * 2 ^ j : ℕ) : ℚ) := by
      rw [hj, zpow_natCast]
      push_cast
      field_simp
    rw [e] at h1 h2
    exact divRoundEven_of_rat _ _ _ (by positivity) h1 h2

/-- The value `2 ^ 53 * 2 ^ (k - 1)` is packed as `2 ^ 52 * 2 ^ k`. -/
theorem pack_carry (neg : Bool) (k : ℤ) : pack neg (2 ^ 53) (k - 1) = pack neg (2 ^ 52) k := by
  unfold pack
  have h1 : ¬ ((2 : ℕ) ^ 52 = 2 ^ 53) := by norm_num
  simp only [if_true, h1, if_false]
  have e : k - 1 + 1 = k := by ring
  rw [e]

/-- The quotient scaled, rounded and packed, as `nearestFloat64` does after it has chosen the
exponent `K`. -/
theorem pack_round_scaled (neg : Bool) (num den Q : Nat) (K : ℤ) (hd : 0 < den)
    (h1 : (Q : ℚ) - 1 / 2 < (num : ℚ) / den / (2 : ℚ) ^ K ∨
      ((Q : ℚ) - 1 / 2 = (num : ℚ) / den / (2 : ℚ) ^ K ∧ Q % 2 = 0))
    (h2 : (num : ℚ) / den / (2 : ℚ) ^ K < (Q : ℚ) + 1 / 2 ∨
      ((num : ℚ) / den / (2 : ℚ) ^ K = (Q : ℚ) + 1 / 2 ∧ Q % 2 = 0)) :
    (if K < 0 then pack neg (divRoundEven (num * 2 ^ (-K).toNat) den) K
      else pack neg (divRoundEven num (den * 2 ^ K.toNat)) K) = pack neg Q K := by
  have h := round_scaled num den Q K hd h1 h2
  by_cases hneg : K < 0
  · rw [if_pos hneg] at h ⊢
    rw [h]
  · rw [if_neg hneg] at h ⊢
    rw [h]

/-- A quotient within the rounding interval of a float is converted to that float.  The
float is `q * 2 ^ k`, with `q` of 53 bits or `k` the least exponent; the interval reaches
halfway to the next float above and halfway to the next float below, which is nearer by half
when `q` is the least of its binade, and it has its ends when `q` is even. -/
theorem nearestFloat64_of_interval (neg : Bool) (num den q : Nat) (k : ℤ) (hd : 0 < den)
    (hq0 : 0 < q) (hq : q < 2 ^ 53) (hk : -1074 ≤ k) (hstd : 2 ^ 52 ≤ q ∨ k = -1074)
    (hlow : ((q : ℚ) - (if 2 ^ 52 < q ∨ k = -1074 then 1 / 2 else 1 / 4)) * (2 : ℚ) ^ k <
        (num : ℚ) / den ∨
      (((q : ℚ) - (if 2 ^ 52 < q ∨ k = -1074 then 1 / 2 else 1 / 4)) * (2 : ℚ) ^ k =
        (num : ℚ) / den ∧ q % 2 = 0))
    (hup : (num : ℚ) / den < ((q : ℚ) + 1 / 2) * (2 : ℚ) ^ k ∨
      ((num : ℚ) / den = ((q : ℚ) + 1 / 2) * (2 : ℚ) ^ k ∧ q % 2 = 0)) :
    nearestFloat64 neg num den = pack neg q k := by
  have hdq : (0 : ℚ) < den := by exact_mod_cast hd
  have h2 : (2 : ℚ) ≠ 0 := by norm_num
  have hP : (0 : ℚ) < (2 : ℚ) ^ k := by positivity
  have hq1 : (1 : ℚ) ≤ q := by exact_mod_cast hq0
  have hq2 : (q : ℚ) ≤ 2 ^ 53 - 1 := by
    have : q + 1 ≤ 2 ^ 53 := hq
    have h3 : ((q + 1 : ℕ) : ℚ) ≤ ((2 ^ 53 : ℕ) : ℚ) := by exact_mod_cast this
    push_cast at h3
    linarith
  generalize hv : (num : ℚ) / den = v at hlow hup
  have hle : ((q : ℚ) - (if 2 ^ 52 < q ∨ k = -1074 then 1 / 2 else 1 / 4)) * (2 : ℚ) ^ k ≤ v := by
    rcases hlow with h | ⟨h, _⟩
    · exact le_of_lt h
    · exact le_of_eq h
  have hge : v ≤ ((q : ℚ) + 1 / 2) * (2 : ℚ) ^ k := by
    rcases hup with h | ⟨h, _⟩
    · exact le_of_lt h
    · exact le_of_eq h
  have hc12 : (if 2 ^ 52 < q ∨ k = -1074 then (1 : ℚ) / 2 else 1 / 4) ≤ 1 / 2 := by
    split <;> norm_num
  have hvpos : 0 < v := by
    have : (0 : ℚ) < ((q : ℚ) - (if 2 ^ 52 < q ∨ k = -1074 then 1 / 2 else 1 / 4)) * (2 : ℚ) ^ k :=
      mul_pos (by linarith) hP
    linarith
  have hnum : 0 < num := by
    rcases Nat.eq_zero_or_pos num with e | e
    · rw [e] at hv
      simp at hv
      rw [← hv] at hvpos
      exact absurd hvpos (lt_irrefl _)
    · exact e
  have hvlt : v < (2 : ℚ) ^ 53 * (2 : ℚ) ^ k := by
    have : ((q : ℚ) + 1 / 2) * (2 : ℚ) ^ k < (2 : ℚ) ^ 53 * (2 : ℚ) ^ k :=
      mul_lt_mul_of_pos_right (by linarith) hP
    linarith
  obtain ⟨s1, s2⟩ := floorLog2_spec num den hnum hd
  rw [hv] at s1 s2
  have hn0 : ¬ num = 0 := by omega
  have e53 : (2 : ℚ) ^ (53 + k) = (2 : ℚ) ^ 53 * (2 : ℚ) ^ k := by
    rw [zpow_add₀ h2]; norm_cast
  have e52 : (2 : ℚ) ^ (52 + k) = (2 : ℚ) ^ 52 * (2 : ℚ) ^ k := by
    rw [zpow_add₀ h2]; norm_cast
  have hfl_le : floorLog2 num den < 53 + k := by
    apply (zpow_lt_zpow_iff_right₀ (by norm_num : (1 : ℚ) < 2)).1
    rw [e53]
    exact lt_of_le_of_lt s1 hvlt
  -- the quotient divided by the unit is within a half of `q`, from the upper side
  have hupq : v / (2 : ℚ) ^ k < (q : ℚ) + 1 / 2 ∨
      (v / (2 : ℚ) ^ k = (q : ℚ) + 1 / 2 ∧ q % 2 = 0) := by
    rcases hup with h | ⟨h, he⟩
    · left
      rw [div_lt_iff₀ hP]
      exact h
    · right
      exact ⟨by rw [div_eq_iff (ne_of_gt hP)]; exact h, he⟩
  -- and from the lower side, when the lower bound is half a unit below the float
  have hlowq : (2 ^ 52 < q ∨ k = -1074) ∨ (2 : ℚ) ^ 52 * (2 : ℚ) ^ k ≤ v →
      ((q : ℚ) - 1 / 2 < v / (2 : ℚ) ^ k ∨
        ((q : ℚ) - 1 / 2 = v / (2 : ℚ) ^ k ∧ q % 2 = 0)) := by
    intro hor
    by_cases hcond : 2 ^ 52 < q ∨ k = -1074
    · rw [if_pos hcond] at hlow
      rcases hlow with h | ⟨h, he⟩
      · left
        rw [lt_div_iff₀ hP]
        exact h
      · right
        exact ⟨by rw [eq_div_iff (ne_of_gt hP)]; exact h, he⟩
    · have hc1 : (2 : ℚ) ^ 52 * (2 : ℚ) ^ k ≤ v := by
        rcases hor with h | h
        · exact absurd h hcond
        · exact h
      have hq52 : q = 2 ^ 52 := by
        have h1 : ¬ 2 ^ 52 < q := fun h => hcond (Or.inl h)
        have h3 : ¬ k = -1074 := fun h => hcond (Or.inr h)
        rcases hstd with h | h
        · omega
        · exact absurd h h3
      left
      rw [lt_div_iff₀ hP]
      have e : ((q : ℚ)) = 2 ^ 52 := by rw [hq52]; norm_cast
      have : ((q : ℚ) - 1 / 2) * (2 : ℚ) ^ k < (q : ℚ) * (2 : ℚ) ^ k :=
        mul_lt_mul_of_pos_right (by linarith) hP
      rw [e] at this ⊢
      linarith
  unfold nearestFloat64
  rw [if_neg hn0]
  by_cases hc : (2 : ℚ) ^ 52 * (2 : ℚ) ^ k ≤ v
  · -- the quotient is in the binade of the float
    have hfl : floorLog2 num den = 52 + k := by
      have : 52 + k < floorLog2 num den + 1 := by
        apply (zpow_lt_zpow_iff_right₀ (by norm_num : (1 : ℚ) < 2)).1
        rw [e52]
        exact lt_of_le_of_lt hc s2
      omega
    have hK : max (floorLog2 num den - 52) (-1074) = k := by
      rw [hfl]; omega
    simp only [hK]
    rw [← hv] at hupq hlowq
    exact pack_round_scaled neg num den q k hd (hlowq (Or.inr (by rw [hv]; exact hc))) hupq
  · have hc1 : v < (2 : ℚ) ^ 52 * (2 : ℚ) ^ k := not_le.1 hc
    have hfl_lt : floorLog2 num den < 52 + k := by
      apply (zpow_lt_zpow_iff_right₀ (by norm_num : (1 : ℚ) < 2)).1
      rw [e52]
      exact lt_of_le_of_lt s1 hc1
    by_cases hkm : k = -1074
    · -- the least exponent: the unit stays `2 ^ -1074`
      have hK : max (floorLog2 num den - 52) (-1074) = k := by omega
      simp only [hK]
      rw [← hv] at hupq hlowq
      exact pack_round_scaled neg num den q k hd (hlowq (Or.inl (Or.inr hkm))) hupq
    · -- the quotient is below the binade of the float, which is the least of its binade
      have hq52 : q = 2 ^ 52 := by
        by_contra hne
        have hgt : 2 ^ 52 < q := by
          rcases hstd with h | h
          · omega
          · exact absurd h hkm
        have hgt1 : 2 ^ 52 + 1 ≤ q := hgt
        have hgq : ((2 : ℚ) ^ 52 + 1) ≤ (q : ℚ) := by exact_mod_cast hgt1
        rw [if_pos (Or.inl hgt)] at hle
        have : (2 : ℚ) ^ 52 * (2 : ℚ) ^ k < ((q : ℚ) - 1 / 2) * (2 : ℚ) ^ k :=
          mul_lt_mul_of_pos_right (by linarith) hP
        linarith
      have hcond : ¬ (2 ^ 52 < q ∨ k = -1074) := by
        rintro (h | h)
        · omega
        · exact hkm h
      have eq : ((q : ℚ)) = 2 ^ 52 := by rw [hq52]; norm_cast
      rw [if_neg hcond, eq] at hlow hle
      have e51 : (2 : ℚ) ^ (51 + k) = (2 : ℚ) ^ 51 * (2 : ℚ) ^ k := by
        rw [zpow_add₀ h2]; norm_cast
      have hfl : floorLog2 num den = 51 + k := by
        have : 51 + k < floorLog2 num den + 1 := by
          apply (zpow_lt_zpow_iff_right₀ (by norm_num : (1 : ℚ) < 2)).1
          rw [e51]
          have : (2 : ℚ) ^ 51 * (2 : ℚ) ^ k ≤ ((2 : ℚ) ^ 52 - 1 / 4) * (2 : ℚ) ^ k :=
            mul_le_mul_of_nonneg_right (by norm_num) (le_of_lt hP)
          exact lt_of_le_of_lt (le_trans this hle) s2
        omega
      have hK : max (floorLog2 num den - 52) (-1074) = k - 1 := by
        rw [hfl]; omega
      simp only [hK]
      have ek : (2 : ℚ) ^ (k - 1) = (2 : ℚ) ^ k / 2 := by
        rw [zpow_sub₀ h2]; norm_num
      have hPk : (0 : ℚ) < (2 : ℚ) ^ (k - 1) := by positivity
      rw [hq52, ← pack_carry neg k]
      rw [← hv] at hlow hc1
      apply pack_round_scaled neg num den (2 ^ 53) (k - 1) hd
      · rcases hlow with h | ⟨h, he⟩
        · left
          rw [lt_div_iff₀ hPk, ek]
          push_cast
          linarith
        · right
          refine ⟨?_, by norm_num⟩
          rw [eq_div_iff (ne_of_gt hPk), ek]
          push_cast
          linarith
      · left
        rw [div_lt_iff₀ hPk, ek]
        push_cast
        linarith

/-- A step of the walk returns digits that round `d` within the bounds. -/
theorem roundAt_spec (lower d upper : Nat) (inclusive : Bool) (p c : Nat) (h1 : lower < d)
    (h2 : d < upper) (h : roundAt lower d upper inclusive p = some c) :
    (lower < c * 10 ^ p ∨ (inclusive = true ∧ lower = c * 10 ^ p)) ∧
    (c * 10 ^ p < upper ∨ (inclusive = true ∧ c * 10 ^ p = upper)) := by
  have ht : 0 < 10 ^ p := by positivity
  have hlo : d / 10 ^ p * 10 ^ p ≤ d := Nat.div_mul_le_self d (10 ^ p)
  have hhi : d < (d / 10 ^ p + 1) * 10 ^ p := by
    have := Nat.div_add_mod d (10 ^ p)
    have hm := Nat.mod_lt d ht
    have e : (d / 10 ^ p + 1) * 10 ^ p = 10 ^ p * (d / 10 ^ p) + 10 ^ p := by ring
    omega
  have hdown : (decide (lower < d / 10 ^ p * 10 ^ p) ||
      (inclusive && decide (lower = d / 10 ^ p * 10 ^ p))) = true →
      (lower < d / 10 ^ p * 10 ^ p ∨ (inclusive = true ∧ lower = d / 10 ^ p * 10 ^ p)) ∧
      (d / 10 ^ p * 10 ^ p < upper ∨
        (inclusive = true ∧ d / 10 ^ p * 10 ^ p = upper)) := by
    intro hd
    refine ⟨?_, Or.inl (by omega)⟩
    simpa using hd
  have hup : (decide ((d / 10 ^ p + 1) * 10 ^ p < upper) ||
      (inclusive && decide ((d / 10 ^ p + 1) * 10 ^ p = upper))) = true →
      (lower < (d / 10 ^ p + 1) * 10 ^ p ∨
        (inclusive = true ∧ lower = (d / 10 ^ p + 1) * 10 ^ p)) ∧
      ((d / 10 ^ p + 1) * 10 ^ p < upper ∨
        (inclusive = true ∧ (d / 10 ^ p + 1) * 10 ^ p = upper)) := by
    intro hu
    refine ⟨Or.inl (by omega), ?_⟩
    simpa using hu
  unfold roundAt at h
  simp only [] at h
  split at h
  · rename_i hb
    rw [Bool.and_eq_true] at hb
    split at h
    · rw [← Option.some.inj h]
      exact hup hb.2
    · rw [← Option.some.inj h]
      exact hdown hb.1
  · split at h
    · rename_i _ hb
      rw [← Option.some.inj h]
      exact hdown hb
    · split at h
      · rename_i _ _ hb
        rw [← Option.some.inj h]
        exact hup hb
      · exact Option.noConfusion h

/-- The walk returns digits that round `d` within the bounds, at a digit not above the one it
started from. -/
theorem walk_spec (lower d upper : Nat) (inclusive : Bool) (h1 : lower < d) (h2 : d < upper)
    (p : Nat) :
    (lower < (walk lower d upper inclusive p).1 * 10 ^ (walk lower d upper inclusive p).2 ∨
      (inclusive = true ∧
        lower = (walk lower d upper inclusive p).1 * 10 ^ (walk lower d upper inclusive p).2)) ∧
    ((walk lower d upper inclusive p).1 * 10 ^ (walk lower d upper inclusive p).2 < upper ∨
      (inclusive = true ∧
        (walk lower d upper inclusive p).1 * 10 ^ (walk lower d upper inclusive p).2 =
          upper)) := by
  induction p with
  | zero =>
    unfold walk
    cases hr : roundAt lower d upper inclusive 0 with
    | some c => exact roundAt_spec lower d upper inclusive 0 c h1 h2 hr
    | none =>
      simp only [pow_zero, Nat.mul_one]
      exact ⟨Or.inl h1, Or.inl h2⟩
  | succ p ih =>
    unfold walk
    cases hr : roundAt lower d upper inclusive (p + 1) with
    | some c => exact roundAt_spec lower d upper inclusive (p + 1) c h1 h2 hr
    | none => exact ih

open grammar

/-- The digits `digitsAux` puts in front of the accumulator: the numeral of `n`. -/
theorem digitsAux_spec (fuel : Nat) : ∀ (n : Nat) (acc : List Char), n ≤ fuel →
    ∃ ds, digitsAux fuel n acc = ds ++ acc ∧ (∀ c ∈ ds, '0' ≤ c ∧ c ≤ '9') ∧
      digitsValue ds = n ∧ (n ≠ 0 → ds ≠ [] ∧ ds.head? ≠ some '0') ∧
      n < 10 ^ ds.length ∧ (n ≠ 0 → 10 ^ (ds.length - 1) ≤ n) ∧ (n = 0 → ds = []) := by
  induction fuel with
  | zero =>
    intro n acc hn
    have : n = 0 := by omega
    subst this
    exact ⟨[], rfl, by simp, rfl, by simp, by simp, by simp, by simp⟩
  | succ fuel ih =>
    intro n acc hn
    by_cases h0 : n = 0
    · subst h0
      exact ⟨[], by simp [digitsAux], by simp, rfl, by simp, by simp, by simp, by simp⟩
    · obtain ⟨d1, d2, d3, d4⟩ := digit_char (n % 10) (by omega)
      have e48 : '0'.toNat = 48 := rfl
      obtain ⟨ds, hds, hdig, hv, hne, hlt, hge, hz⟩ :=
        ih (n / 10) (Char.ofNat (48 + n % 10) :: acc) (by omega)
      refine ⟨ds ++ [Char.ofNat (48 + n % 10)], ?_, ?_, ?_, ?_, ?_, ?_, ?_⟩
      · rw [digitsAux, if_neg h0, e48, hds]
        simp
      · intro c hc
        rcases List.mem_append.1 hc with h | h
        · exact hdig c h
        · rw [List.mem_singleton.1 h]
          exact ⟨d1, d2⟩
      · rw [digitsValue_append, hv, d3]
        omega
      · intro _
        refine ⟨by simp, ?_⟩
        by_cases h10 : n / 10 = 0
        · rw [hz h10]
          have hn10 : n % 10 ≠ 0 := by omega
          simpa using d4 hn10
        · obtain ⟨hn1, hn2⟩ := hne h10
          rcases ds with _ | ⟨c, cs⟩
          · exact absurd rfl hn1
          · simpa using hn2
      · rw [List.length_append, List.length_singleton, pow_succ]
        omega
      · intro _
        rw [List.length_append, List.length_singleton, Nat.add_sub_cancel]
        by_cases h10 : n / 10 = 0
        · rw [hz h10]
          simp
          omega
        · have := hge h10
          have hl : 1 ≤ ds.length := by
            rcases ds with _ | ⟨c, cs⟩
            · exact absurd rfl (hne h10).1
            · simp
          have e : ds.length = (ds.length - 1) + 1 := by omega
          rw [e, pow_succ]
          omega
      · intro h
        exact absurd h h0

/-- The numeral `natDigits` writes for a number that is not zero: digits without a leading
zero, whose value is the number and whose count tells its size. -/
theorem natDigits_spec (n : Nat) (hn : n ≠ 0) :
    IsDigits (natDigits n) ∧ (natDigits n).head? ≠ some '0' ∧
    digitsValue (natDigits n) = n ∧ n < 10 ^ (natDigits n).length ∧
    10 ^ ((natDigits n).length - 1) ≤ n := by
  obtain ⟨ds, hds, hdig, hv, hne, hlt, hge, _⟩ := digitsAux_spec n n [] (Nat.le_refl _)
  have e : natDigits n = ds := by
    unfold natDigits
    rw [hds, List.append_nil]
  rw [e]
  exact ⟨⟨(hne hn).1, hdig⟩, (hne hn).2, hv, hlt, hge hn⟩

/-- The value of digits followed by zeros. -/
theorem digitsValue_zeros (ds : List Char) (z : Nat) :
    digitsValue (ds ++ List.replicate z '0') = digitsValue ds * 10 ^ z := by
  induction z with
  | zero => simp
  | succ z ih =>
    rw [List.replicate_succ', ← List.append_assoc, digitsValue_append, ih, pow_succ]
    have : '0'.toNat - '0'.toNat = 0 := rfl
    rw [this]
    ring

/-- The value of zeros followed by digits. -/
theorem digitsValue_leading_zeros (z : Nat) (ds : List Char) :
    digitsValue (List.replicate z '0' ++ ds) = digitsValue ds := by
  have h0 : ∀ z : Nat, digitsValue (List.replicate z '0') = 0 := by
    intro z
    have := digitsValue_zeros [] z
    simpa [digitsValue] using this
  unfold digitsValue at h0 ⊢
  rw [List.foldl_append, h0 z]

/-- The digits are the trimmed digits followed by zeros, and the trimmed digits do not end
in a zero. -/
theorem trim_spec (ds : List Char) :
    ∃ z, ds = trim ds ++ List.replicate z '0' ∧ (trim ds).getLast? ≠ some '0' := by
  unfold trim
  have h := List.takeWhile_append_dropWhile (fun c => decide (c = '0')) ds.reverse
  have ht : ∀ c ∈ ds.reverse.takeWhile (fun c => decide (c = '0')), c = '0' := by
    intro c hc
    have := List.mem_takeWhile_imp hc
    simpa using this
  have hrep : ds.reverse.takeWhile (fun c => decide (c = '0')) =
      List.replicate (ds.reverse.takeWhile (fun c => decide (c = '0'))).length '0' :=
    List.eq_replicate_of_mem ht
  refine ⟨(ds.reverse.takeWhile (fun c => decide (c = '0'))).length, ?_, ?_⟩
  · have h1 : ds = (ds.reverse.dropWhile (fun c => decide (c = '0'))).reverse ++
        (ds.reverse.takeWhile (fun c => decide (c = '0'))).reverse := by
      rw [← List.reverse_append, h, List.reverse_reverse]
    rw [hrep, List.reverse_replicate] at h1
    simpa using h1
  · rw [List.getLast?_reverse]
    intro hh
    have := List.head?_dropWhile_not (fun c => decide (c = '0')) ds.reverse
    rw [hh] at this
    simp at this

/-- Trimming keeps the first digit of digits that do not start with a zero. -/
theorem trim_head (ds : List Char) (hne : ds ≠ []) (hh : ds.head? ≠ some '0') :
    trim ds ≠ [] ∧ (trim ds).head? = ds.head? := by
  obtain ⟨z, hz, _⟩ := trim_spec ds
  have hn : trim ds ≠ [] := by
    intro e
    rw [e, List.nil_append] at hz
    rw [hz] at hh hne
    rcases z with _ | z
    · exact hne rfl
    · exact hh (by simp [List.replicate_succ])
  refine ⟨hn, ?_⟩
  conv_rhs => rw [hz]
  rcases htd : trim ds with _ | ⟨c, cs⟩
  · exact absurd htd hn
  · simp

open grammar

/-- The unit of `roundShortest`, as a rational number: `2 ^ e` times `10 ^ s`. -/
theorem unit_cast (e : ℤ) :
    ((2 ^ e.toNat * 5 ^ (-e).toNat : ℕ) : ℚ) = (2 : ℚ) ^ e * (10 : ℚ) ^ (-e).toNat := by
  have h2 : (2 : ℚ) ≠ 0 := by norm_num
  by_cases h : 0 ≤ e
  · obtain ⟨j, rfl⟩ := Int.eq_ofNat_of_zero_le h
    have e1 : (-(j : ℤ)).toNat = 0 := by omega
    rw [e1]
    simp
  · obtain ⟨j, hj⟩ : ∃ j : ℕ, e = -(j : ℤ) := ⟨(-e).toNat, by omega⟩
    subst hj
    have e1 : (-(j : ℤ)).toNat = 0 := by omega
    have e2 : (- -(j : ℤ)).toNat = j := by omega
    rw [e1, e2, zpow_neg, zpow_natCast]
    push_cast
    have e3 : (10 : ℚ) ^ j = 5 ^ j * 2 ^ j := by
      rw [← mul_pow]; norm_num
    rw [e3]
    field_simp

/-- What `roundShortest` returns: digits that start and end with a digit other than zero, and
that denote a number within the rounding interval of the float `mant * 2 ^ (exp - 52)`; the
decimal point is where the range of the floats has it. -/
theorem roundShortest_spec (mant : Nat) (exp : ℤ) (hm0 : 0 < mant) (hm : mant < 2 ^ 53)
    (he1 : -1022 ≤ exp) (he2 : exp ≤ 1023) :
    IsDigits (roundShortest mant exp).d ∧ (roundShortest mant exp).d.head? ≠ some '0' ∧
    ((((mant : ℚ) - (if 2 ^ 52 < mant ∨ exp - 52 = -1074 then 1 / 2 else 1 / 4)) *
          (2 : ℚ) ^ (exp - 52) <
        (digitsValue (roundShortest mant exp).d : ℚ) *
          (10 : ℚ) ^ ((roundShortest mant exp).dp - ((roundShortest mant exp).d.length : ℤ))) ∨
      ((((mant : ℚ) - (if 2 ^ 52 < mant ∨ exp - 52 = -1074 then 1 / 2 else 1 / 4)) *
          (2 : ℚ) ^ (exp - 52) =
        (digitsValue (roundShortest mant exp).d : ℚ) *
          (10 : ℚ) ^ ((roundShortest mant exp).dp - ((roundShortest mant exp).d.length : ℤ))) ∧
        mant % 2 = 0)) ∧
    (((digitsValue (roundShortest mant exp).d : ℚ) *
          (10 : ℚ) ^ ((roundShortest mant exp).dp - ((roundShortest mant exp).d.length : ℤ)) <
        ((mant : ℚ) + 1 / 2) * (2 : ℚ) ^ (exp - 52)) ∨
      (((digitsValue (roundShortest mant exp).d : ℚ) *
          (10 : ℚ) ^ ((roundShortest mant exp).dp - ((roundShortest mant exp).d.length : ℤ)) =
        ((mant : ℚ) + 1 / 2) * (2 : ℚ) ^ (exp - 52)) ∧ mant % 2 = 0)) ∧
    -324 < (roundShortest mant exp).dp ∧ (roundShortest mant exp).dp ≤ 309 := by
  have h2 : (2 : ℚ) ≠ 0 := by norm_num
  have h10 : (10 : ℚ) ≠ 0 := by norm_num
  have hrs : roundShortest mant exp =
      ⟨trim (natDigits (walk
          ((if 2 ^ 52 < mant ∨ exp = -1022 then 4 * mant - 2 else 4 * mant - 1) *
            (2 ^ (exp - 54).toNat * 5 ^ (-(exp - 54)).toNat))
          (4 * mant * (2 ^ (exp - 54).toNat * 5 ^ (-(exp - 54)).toNat))
          ((4 * mant + 2) * (2 ^ (exp - 54).toNat * 5 ^ (-(exp - 54)).toNat))
          (decide (mant % 2 = 0))
          (natDigits ((4 * mant + 2) *
            (2 ^ (exp - 54).toNat * 5 ^ (-(exp - 54)).toNat))).length).1),
        ((natDigits (walk
          ((if 2 ^ 52 < mant ∨ exp = -1022 then 4 * mant - 2 else 4 * mant - 1) *
            (2 ^ (exp - 54).toNat * 5 ^ (-(exp - 54)).toNat))
          (4 * mant * (2 ^ (exp - 54).toNat * 5 ^ (-(exp - 54)).toNat))
          ((4 * mant + 2) * (2 ^ (exp - 54).toNat * 5 ^ (-(exp - 54)).toNat))
          (decide (mant % 2 = 0))
          (natDigits ((4 * mant + 2) *
            (2 ^ (exp - 54).toNat * 5 ^ (-(exp - 54)).toNat))).length).1).length : ℤ) +
        ((walk
          ((if 2 ^ 52 < mant ∨ exp = -1022 then 4 * mant - 2 else 4 * mant - 1) *
            (2 ^ (exp - 54).toNat * 5 ^ (-(exp - 54)).toNat))
          (4 * mant * (2 ^ (exp - 54).toNat * 5 ^ (-(exp - 54)).toNat))
          ((4 * mant + 2) * (2 ^ (exp - 54).toNat * 5 ^ (-(exp - 54)).toNat))
          (decide (mant % 2 = 0))
          (natDigits ((4 * mant + 2) *
            (2 ^ (exp - 54).toNat * 5 ^ (-(exp - 54)).toNat))).length).2 : ℤ) -
        ((-(exp - 54)).toNat : ℤ)⟩ := rfl
  rw [hrs]
  clear hrs
  simp only []
  have hucast := unit_cast (exp - 54)
  generalize hu : 2 ^ (exp - 54).toNat * 5 ^ (-(exp - 54)).toNat = unit at hucast ⊢
  have hupos : 0 < unit := by rw [← hu]; positivity
  generalize hs : (-(exp - 54)).toNat = s at hucast ⊢
  generalize hlo4 : (if 2 ^ 52 < mant ∨ exp = -1022 then 4 * mant - 2 else 4 * mant - 1) = lo4
  have hlo4lt : lo4 < 4 * mant := by
    rw [← hlo4]; split <;> omega
  have hlo4pos : 0 < lo4 := by
    rw [← hlo4]; split <;> omega
  have hlt1 : lo4 * unit < 4 * mant * unit := Nat.mul_lt_mul_of_pos_right hlo4lt hupos
  have hlt2 : 4 * mant * unit < (4 * mant + 2) * unit :=
    Nat.mul_lt_mul_of_pos_right (by omega) hupos
  have hw := walk_spec (lo4 * unit) (4 * mant * unit) ((4 * mant + 2) * unit)
    (decide (mant % 2 = 0)) hlt1 hlt2 (natDigits ((4 * mant + 2) * unit)).length
  generalize hr : walk (lo4 * unit) (4 * mant * unit) ((4 * mant + 2) * unit)
    (decide (mant % 2 = 0)) (natDigits ((4 * mant + 2) * unit)).length = r at hw ⊢
  obtain ⟨c, p⟩ := r
  simp only [] at hw ⊢
  have hcpos : c ≠ 0 := by
    intro e
    rw [e] at hw
    have hl : 0 < lo4 * unit := Nat.mul_pos hlo4pos hupos
    rcases hw.1 with h | ⟨_, h⟩ <;> simp at h <;> omega
  obtain ⟨hdig, hhead, hval, hclt, hcge⟩ := natDigits_spec c hcpos
  obtain ⟨z, hz, _⟩ := trim_spec (natDigits c)
  obtain ⟨htn, hth⟩ := trim_head (natDigits c) hdig.1 hhead
  generalize hds : natDigits c = ds at hdig hhead hval hclt hcge hz htn hth
  generalize hd : trim ds = d at hz htn hth
  have hlen : ds.length = d.length + z := by
    conv_lhs => rw [hz]
    simp
  have hvald : digitsValue d * 10 ^ z = c := by
    rw [← hval]
    conv_rhs => rw [hz]
    rw [digitsValue_zeros]
  have hdd : IsDigits d := by
    refine ⟨htn, fun x hx => hdig.2 x ?_⟩
    rw [hz]
    exact List.mem_append_left _ hx
  refine ⟨hdd, by rw [hth]; exact hhead, ?_⟩
  -- the value of the digits
  have hV : (digitsValue d : ℚ) * (10 : ℚ) ^ ((ds.length : ℤ) + (p : ℤ) - (s : ℤ) - (d.length : ℤ)) =
      ((c * 10 ^ p : ℕ) : ℚ) / (10 : ℚ) ^ s := by
    rw [← hvald, hlen]
    have e : ((d.length + z : ℕ) : ℤ) + (p : ℤ) - (s : ℤ) - (d.length : ℤ) =
        (z : ℤ) + (p : ℤ) - (s : ℤ) := by push_cast; ring
    rw [e, zpow_sub₀ h10, zpow_add₀ h10, zpow_natCast, zpow_natCast, zpow_natCast]
    push_cast
    field_simp
    ring
  have hP : (0 : ℚ) < (10 : ℚ) ^ s := by positivity
  have hk : (2 : ℚ) ^ (exp - 52) = 4 * (2 : ℚ) ^ (exp - 54) := by
    have e : exp - 52 = (exp - 54) + 2 := by ring
    rw [e, zpow_add₀ h2]
    norm_num
    ring
  have hL : ((mant : ℚ) - (if 2 ^ 52 < mant ∨ exp - 52 = -1074 then 1 / 2 else 1 / 4)) *
      (2 : ℚ) ^ (exp - 52) = ((lo4 * unit : ℕ) : ℚ) / (10 : ℚ) ^ s := by
    rw [← hlo4]
    by_cases hc : 2 ^ 52 < mant ∨ exp = -1022
    · have hc1 : 2 ^ 52 < mant ∨ exp - 52 = -1074 := by
        rcases hc with h | h
        · exact Or.inl h
        · exact Or.inr (by omega)
      rw [if_pos hc, if_pos hc1, eq_div_iff (ne_of_gt hP), hk, Nat.cast_mul,
        Nat.cast_sub (by omega), hucast]
      push_cast
      ring
    · have hc1 : ¬ (2 ^ 52 < mant ∨ exp - 52 = -1074) := by
        intro h
        apply hc
        rcases h with h | h
        · exact Or.inl h
        · exact Or.inr (by omega)
      rw [if_neg hc, if_neg hc1, eq_div_iff (ne_of_gt hP), hk, Nat.cast_mul,
        Nat.cast_sub (by omega), hucast]
      push_cast
      ring
  have hU : ((mant : ℚ) + 1 / 2) * (2 : ℚ) ^ (exp - 52) =
      (((4 * mant + 2) * unit : ℕ) : ℚ) / (10 : ℚ) ^ s := by
    rw [eq_div_iff (ne_of_gt hP), hk]
    push_cast
    rw [hucast]
    ring
  have heven : decide (mant % 2 = 0) = true ↔ mant % 2 = 0 := by simp
  have hlow : ((lo4 * unit : ℕ) : ℚ) / (10 : ℚ) ^ s < ((c * 10 ^ p : ℕ) : ℚ) / (10 : ℚ) ^ s ∨
      (((lo4 * unit : ℕ) : ℚ) / (10 : ℚ) ^ s = ((c * 10 ^ p : ℕ) : ℚ) / (10 : ℚ) ^ s ∧
        mant % 2 = 0) := by
    rcases hw.1 with h | ⟨h1, h⟩
    · left
      exact div_lt_div_of_pos_right (by exact_mod_cast h) hP
    · right
      exact ⟨by rw [h], heven.1 h1⟩
  have hupp : ((c * 10 ^ p : ℕ) : ℚ) / (10 : ℚ) ^ s <
        (((4 * mant + 2) * unit : ℕ) : ℚ) / (10 : ℚ) ^ s ∨
      (((c * 10 ^ p : ℕ) : ℚ) / (10 : ℚ) ^ s =
        (((4 * mant + 2) * unit : ℕ) : ℚ) / (10 : ℚ) ^ s ∧ mant % 2 = 0) := by
    rcases hw.2 with h | ⟨h1, h⟩
    · left
      exact div_lt_div_of_pos_right (by exact_mod_cast h) hP
    · right
      exact ⟨by rw [h], heven.1 h1⟩
  rw [hV, hL, hU]
  refine ⟨hlow, hupp, ?_, ?_⟩
  · -- the value is below a power of ten, and above the least rounding bound
    have hlen1 : 1 ≤ ds.length := by
      cases ds with
      | nil => exact absurd rfl hdig.1
      | cons x xs => simp
    have h1 : ((c * 10 ^ p : ℕ) : ℚ) / (10 : ℚ) ^ s <
        (10 : ℚ) ^ ((ds.length : ℤ) + (p : ℤ) - (s : ℤ)) := by
      rw [zpow_sub₀ h10, zpow_add₀ h10, zpow_natCast, zpow_natCast, zpow_natCast]
      apply div_lt_div_of_pos_right _ hP
      have : c * 10 ^ p < 10 ^ ds.length * 10 ^ p :=
        Nat.mul_lt_mul_of_pos_right hclt (by positivity)
      exact_mod_cast this
    have h2a : (2 : ℚ) ^ (-1075 : ℤ) ≤ ((lo4 * unit : ℕ) : ℚ) / (10 : ℚ) ^ s := by
      rw [← hL]
      have e1 : (2 : ℚ) ^ (-1075 : ℤ) = (1 / 2) * (2 : ℚ) ^ (-1074 : ℤ) := by
        have e : (-1075 : ℤ) = -1074 + -1 := by norm_num
        rw [e, zpow_add₀ h2]
        norm_num
      rw [e1]
      have hz1 : (2 : ℚ) ^ (-1074 : ℤ) ≤ (2 : ℚ) ^ (exp - 52) :=
        zpow_le_zpow_right₀ (by norm_num) (by omega)
      have hz0 : (0 : ℚ) < (2 : ℚ) ^ (-1074 : ℤ) := by positivity
      have hm1 : (1 : ℚ) ≤ (mant : ℚ) := by exact_mod_cast hm0
      have hc : (1 / 2 : ℚ) ≤ (mant : ℚ) -
          (if 2 ^ 52 < mant ∨ exp - 52 = -1074 then 1 / 2 else 1 / 4) := by
        split <;> linarith
      calc (1 / 2 : ℚ) * (2 : ℚ) ^ (-1074 : ℤ)
          ≤ (1 / 2 : ℚ) * (2 : ℚ) ^ (exp - 52) := by
            apply mul_le_mul_of_nonneg_left hz1; norm_num
        _ ≤ _ := by
            apply mul_le_mul_of_nonneg_right hc; positivity
    have h3 : (10 : ℚ) ^ (-324 : ℤ) < (2 : ℚ) ^ (-1075 : ℤ) := by
      rw [zpow_neg, zpow_neg, zpow_ofNat, zpow_ofNat,
        inv_lt_inv₀ (by positivity) (by positivity)]
      norm_num
    have h4 : (10 : ℚ) ^ (-324 : ℤ) < (10 : ℚ) ^ ((ds.length : ℤ) + (p : ℤ) - (s : ℤ)) := by
      have hle : ((lo4 * unit : ℕ) : ℚ) / (10 : ℚ) ^ s ≤ ((c * 10 ^ p : ℕ) : ℚ) / (10 : ℚ) ^ s := by
        rcases hlow with h | h
        · exact le_of_lt h
        · exact le_of_eq h.1
      exact (h3.trans_le (h2a.trans hle)).trans h1
    exact (zpow_lt_zpow_iff_right₀ (by norm_num : (1 : ℚ) < 10)).1 h4
  · have hlen1 : 1 ≤ ds.length := by
      cases ds with
      | nil => exact absurd rfl hdig.1
      | cons x xs => simp
    have h1 : (10 : ℚ) ^ ((ds.length : ℤ) + (p : ℤ) - (s : ℤ) - 1) ≤
        ((c * 10 ^ p : ℕ) : ℚ) / (10 : ℚ) ^ s := by
      have e : (ds.length : ℤ) + (p : ℤ) - (s : ℤ) - 1 =
          ((ds.length - 1 : ℕ) : ℤ) + (p : ℤ) - (s : ℤ) := by
        rw [Nat.cast_sub hlen1]; push_cast; ring
      rw [e, zpow_sub₀ h10, zpow_add₀ h10, zpow_natCast, zpow_natCast, zpow_natCast]
      apply div_le_div_of_nonneg_right _ (le_of_lt hP)
      have : 10 ^ (ds.length - 1) * 10 ^ p ≤ c * 10 ^ p :=
        Nat.mul_le_mul_right _ hcge
      exact_mod_cast this
    have h2a : (((4 * mant + 2) * unit : ℕ) : ℚ) / (10 : ℚ) ^ s < (2 : ℚ) ^ (1024 : ℤ) := by
      rw [← hU]
      have hz1 : (2 : ℚ) ^ (exp - 52) ≤ (2 : ℚ) ^ (971 : ℤ) :=
        zpow_le_zpow_right₀ (by norm_num) (by omega)
      have hm1 : (mant : ℚ) + 1 / 2 < (2 : ℚ) ^ (53 : ℤ) := by
        have : (mant : ℚ) + 1 ≤ (2 : ℚ) ^ 53 := by exact_mod_cast hm
        rw [zpow_ofNat]
        linarith
      have e : (2 : ℚ) ^ (1024 : ℤ) = (2 : ℚ) ^ (53 : ℤ) * (2 : ℚ) ^ (971 : ℤ) := by
        rw [← zpow_add₀ h2]; norm_num
      rw [e]
      calc ((mant : ℚ) + 1 / 2) * (2 : ℚ) ^ (exp - 52)
          ≤ ((mant : ℚ) + 1 / 2) * (2 : ℚ) ^ (971 : ℤ) := by
            apply mul_le_mul_of_nonneg_left hz1; positivity
        _ < _ := by
            apply mul_lt_mul_of_pos_right hm1; positivity
    have h3 : (2 : ℚ) ^ (1024 : ℤ) < (10 : ℚ) ^ (309 : ℤ) := by
      rw [zpow_ofNat, zpow_ofNat]
      norm_num
    have h4 : (10 : ℚ) ^ ((ds.length : ℤ) + (p : ℤ) - (s : ℤ) - 1) < (10 : ℚ) ^ (309 : ℤ) := by
      have hle : ((c * 10 ^ p : ℕ) : ℚ) / (10 : ℚ) ^ s ≤
          (((4 * mant + 2) * unit : ℕ) : ℚ) / (10 : ℚ) ^ s := by
        rcases hupp with h | h
        · exact le_of_lt h
        · exact le_of_eq h.1
      exact lt_of_le_of_lt (h1.trans hle) (h2a.trans h3)
    have := (zpow_lt_zpow_iff_right₀ (by norm_num : (1 : ℚ) < 10)).1 h4
    omega

open grammar

/-- Reading a literal written as an optional minus sign, digits, an optional fraction and an
optional exponent with its sign. -/
theorem readFloat_literal (neg : Bool) (ip fp js : List Char) (dot ex : Bool) (sg : Char)
    (hip : IsDigits ip) (hfp : ∀ c ∈ fp, '0' ≤ c ∧ c ≤ '9') (hdot : dot = false → fp = [])
    (hsg : sg = '-' ∨ sg = '+') :
    readFloat ((if neg then ['-'] else []) ++ ip ++ (if dot then '.' :: fp else []) ++
        (if ex then 'e' :: sg :: js else [])) =
      (neg, digitsValue (ip ++ fp),
        (if ex then (if sg = '-' then -(exponentValue js : ℤ) else (exponentValue js : ℤ))
          else 0) - (fp.length : ℤ)) := by
  have hE : ∀ c r, (if ex then 'e' :: sg :: js else []) = c :: r → json.isDigit c = false := by
    intro c r e
    cases ex
    · exact absurd e (by simp)
    · have : c = 'e' := ((List.cons.inj e).1).symm
      rw [this]
      decide
  have hR : ∀ c r, (if dot then '.' :: fp else []) ++ (if ex then 'e' :: sg :: js else []) =
      c :: r → json.isDigit c = false := by
    intro c r e
    cases dot
    · exact hE c r e
    · have : c = '.' := ((List.cons.inj e).1).symm
      rw [this]
      decide
  have hsp := json.spanDigits_append ip _ hip.2 hR
  have hsp2 := json.spanDigits_append fp _ hfp hE
  rcases ip with _ | ⟨c, cs⟩
  · exact absurd rfl hip.1
  · have hc : ¬ c = '-' := by
      intro e
      have := hip.2 c (List.mem_cons_self _ _)
      rw [e] at this
      exact absurd this.1 (by decide)
    have hc2 : ¬ c = '.' := by
      intro e
      have := hip.2 c (List.mem_cons_self _ _)
      rw [e] at this
      exact absurd this.1 (by decide)
    have hsp1 : json.spanDigits (c :: (cs ++ ((if dot then '.' :: fp else []) ++
        (if ex then 'e' :: sg :: js else [])))) =
        (c :: cs, (if dot then '.' :: fp else []) ++ (if ex then 'e' :: sg :: js else [])) := hsp
    have hsgp : sg = '+' → ¬ sg = '-' := by
      intro e; rw [e]; decide
    cases dot
    · have hf := hdot rfl
      subst hf
      cases ex
      · simp only [Bool.false_eq_true, if_false, List.append_nil] at hsp1 ⊢
        cases neg
        · simp [readFloat, hc, hsp1]
        · simp [readFloat, hsp1]
      · simp only [Bool.false_eq_true, if_false, if_true, List.append_nil,
          List.nil_append] at hsp1 ⊢
        cases neg
        · rcases hsg with h | h <;> subst h <;> simp [readFloat, hc, hsp1]
        · rcases hsg with h | h <;> subst h <;> simp [readFloat, hsp1]
    · cases ex
      · simp only [Bool.false_eq_true, if_false, if_true, List.append_nil,
          List.append_assoc, List.cons_append] at hsp1 hsp2 ⊢
        cases neg
        · simp [readFloat, hc, hsp1, hsp2]
        · simp [readFloat, hsp1, hsp2]
      · simp only [Bool.false_eq_true, if_false, if_true, List.append_nil,
          List.append_assoc, List.cons_append] at hsp1 hsp2 ⊢
        cases neg
        · rcases hsg with h | h <;> subst h <;> simp [readFloat, hc, hsp1, hsp2]
        · rcases hsg with h | h <;> subst h <;> simp [readFloat, hsp1, hsp2]

/-- A literal written as an optional minus sign, an integer, an optional fraction and an
optional exponent with its sign is a JSON number. -/
theorem IsNumber_literal (neg : Bool) (ip fp js : List Char) (dot ex : Bool) (sg : Char)
    (hip : IsInt ip) (hfp : dot = true → IsDigits fp) (hjs : ex = true → IsDigits js)
    (hsg : sg = '-' ∨ sg = '+') :
    IsNumber ((if neg then ['-'] else []) ++ ip ++ (if dot then '.' :: fp else []) ++
        (if ex then 'e' :: sg :: js else [])) := by
  refine ⟨if neg then ['-'] else [], ip, if dot then '.' :: fp else [],
    if ex then 'e' :: sg :: js else [], rfl, ?_, hip, ?_, ?_⟩
  · cases neg
    · exact Or.inl rfl
    · exact Or.inr rfl
  · cases dot
    · exact Or.inl rfl
    · exact Or.inr ⟨fp, rfl, hfp rfl⟩
  · cases ex
    · exact Or.inl rfl
    · refine Or.inr ⟨'e', [sg], js, rfl, Or.inl rfl, ?_, hjs rfl⟩
      rcases hsg with h | h
      · exact Or.inr (Or.inr (by rw [h]))
      · exact Or.inr (Or.inl (by rw [h]))

open grammar

/-- The digits `fmtF` writes after the decimal point: zeros up to the first digit when the
decimal point is in front of the digits, then the digits after the point. -/
theorem fmtF_fraction (d : List Char) (dp : ℤ) :
    ((List.range ((d.length : ℤ) - dp).toNat).map fun i : ℕ =>
        if 0 ≤ dp + (i : ℤ) ∧ dp + (i : ℤ) < (d.length : ℤ)
        then d.getD (dp + (i : ℤ)).toNat '0' else '0') =
      List.replicate (-dp).toNat '0' ++ d.drop dp.toNat := by
  apply List.ext_getElem?
  intro n
  by_cases hn : n < ((d.length : ℤ) - dp).toNat
  · rw [List.getElem?_map, List.getElem?_range hn]
    simp only [Option.map_some']
    by_cases hz : n < (-dp).toNat
    · rw [List.getElem?_append_left (by simpa using hz), if_neg (by omega)]
      simp [List.getElem?_replicate, hz]
    · rw [List.getElem?_append_right (by simpa using hz), if_pos (by omega)]
      simp only [List.length_replicate, List.getElem?_drop, List.getD_eq_getElem?_getD]
      have e : dp.toNat + (n - (-dp).toNat) = (dp + (n : ℤ)).toNat := by omega
      rw [e]
      have hlt : (dp + (n : ℤ)).toNat < d.length := by omega
      rw [List.getElem?_eq_getElem hlt]
      rfl
  · rw [List.getElem?_eq_none (by simpa using hn), List.getElem?_eq_none]
    simp only [List.length_append, List.length_replicate, List.length_drop]
    omega

/-- The shape of what `fmtF` writes with as many digits after the point as the digits have:
an integer part, and a fraction when digits are left. -/
theorem fmtF_eq (neg : Bool) (d : List Char) (dp : ℤ) :
    fmtF neg ⟨d, dp⟩ ((d.length : ℤ) - dp).toNat =
      (if neg then ['-'] else []) ++
        (if 0 < dp then d.take (min d.length dp.toNat) ++
            List.replicate (dp.toNat - min d.length dp.toNat) '0' else ['0']) ++
        (if 0 < ((d.length : ℤ) - dp).toNat then
          '.' :: (List.replicate (-dp).toNat '0' ++ d.drop dp.toNat) else []) := by
  unfold fmtF
  simp only []
  rw [fmtF_fraction]

/-- What `fmtF` writes for digits that do not start with a zero is a JSON number, and
`readFloat` reads the number of the digits from it. -/
theorem fmtF_spec (neg : Bool) (d : List Char) (dp : ℤ) (hd : IsDigits d)
    (hh : d.head? ≠ some '0') :
    IsNumber (fmtF neg ⟨d, dp⟩ ((d.length : ℤ) - dp).toNat) ∧
    ∃ M E, readFloat (fmtF neg ⟨d, dp⟩ ((d.length : ℤ) - dp).toNat) = (neg, M, E) ∧
      (M : ℚ) * (10 : ℚ) ^ E = (digitsValue d : ℚ) * (10 : ℚ) ^ (dp - (d.length : ℤ)) := by
  have h10 : (10 : ℚ) ≠ 0 := by norm_num
  have hlen : 0 < d.length := List.length_pos.2 hd.1
  have key : ∀ (ip fp : List Char) (dot : Bool),
      (if neg then ['-'] else []) ++
        (if 0 < dp then d.take (min d.length dp.toNat) ++
            List.replicate (dp.toNat - min d.length dp.toNat) '0' else ['0']) ++
        (if 0 < ((d.length : ℤ) - dp).toNat then
          '.' :: (List.replicate (-dp).toNat '0' ++ d.drop dp.toNat) else []) =
        (if neg then ['-'] else []) ++ ip ++ (if dot then '.' :: fp else []) ++
          (if false then 'e' :: '+' :: [] else []) →
      IsInt ip → IsDigits ip → (∀ c ∈ fp, '0' ≤ c ∧ c ≤ '9') → (dot = false → fp = []) →
      (dot = true → fp ≠ []) →
      (digitsValue (ip ++ fp) : ℚ) * (10 : ℚ) ^ (-(fp.length : ℤ)) =
        (digitsValue d : ℚ) * (10 : ℚ) ^ (dp - (d.length : ℤ)) →
      IsNumber (fmtF neg ⟨d, dp⟩ ((d.length : ℤ) - dp).toNat) ∧
      ∃ M E, readFloat (fmtF neg ⟨d, dp⟩ ((d.length : ℤ) - dp).toNat) = (neg, M, E) ∧
        (M : ℚ) * (10 : ℚ) ^ E = (digitsValue d : ℚ) * (10 : ℚ) ^ (dp - (d.length : ℤ)) := by
    intro ip fp dot e hint hip hfp hdot hdot1 hv
    rw [fmtF_eq, e]
    refine ⟨IsNumber_literal neg ip fp [] dot false '+' hint (fun h => ⟨hdot1 h, hfp⟩)
      (fun h => absurd h (by decide)) (Or.inr rfl), _, _,
      readFloat_literal neg ip fp [] dot false '+' hip hfp hdot (Or.inr rfl), ?_⟩
    simp only [Bool.false_eq_true, if_false, zero_sub]
    exact hv
  by_cases hA : (d.length : ℤ) ≤ dp
  · -- the decimal point is after the digits
    have hip : IsDigits (d ++ List.replicate (dp.toNat - d.length) '0') := by
      refine ⟨by simp [hd.1], ?_⟩
      intro c hc
      rcases List.mem_append.1 hc with h | h
      · exact hd.2 c h
      · rw [List.eq_of_mem_replicate h]; decide
    refine key (d ++ List.replicate (dp.toNat - d.length) '0') [] false ?_
      (Or.inr ⟨hip, ?_⟩) hip (by simp) (fun _ => rfl) (fun h => absurd h (by decide)) ?_
    · have e1 : min d.length dp.toNat = d.length := by omega
      have e2 : ((d.length : ℤ) - dp).toNat = 0 := by omega
      rw [if_pos (show 0 < dp by omega), e1, e2, List.take_length]
      simp
    · rcases d with _ | ⟨c, cs⟩
      · exact absurd rfl hd.1
      · simpa using hh
    · rw [List.append_nil, digitsValue_zeros]
      push_cast
      have e : dp - (d.length : ℤ) = ((dp.toNat - d.length : ℕ) : ℤ) := by omega
      rw [e, zpow_natCast]
      simp
  · by_cases hB : 0 < dp
    · -- the decimal point is within the digits
      have hip : IsDigits (d.take dp.toNat) := by
        refine ⟨?_, fun c hc => hd.2 c (List.mem_of_mem_take hc)⟩
        rcases d with _ | ⟨c, cs⟩
        · exact absurd rfl hd.1
        · obtain ⟨j, hj⟩ : ∃ j, dp.toNat = j + 1 := ⟨dp.toNat - 1, by omega⟩
          rw [hj]
          simp
      refine key (d.take dp.toNat) (d.drop dp.toNat) true ?_ (Or.inr ⟨hip, ?_⟩) hip
        (fun c hc => hd.2 c (List.mem_of_mem_drop hc)) (fun h => absurd h (by decide)) ?_ ?_
      · have e1 : min d.length dp.toNat = dp.toNat := by omega
        have e2 : (-dp).toNat = 0 := by omega
        rw [if_pos hB, e1, if_pos (show 0 < ((d.length : ℤ) - dp).toNat by omega), e2]
        simp
      · rcases d with _ | ⟨c, cs⟩
        · exact absurd rfl hd.1
        · obtain ⟨j, hj⟩ : ∃ j, dp.toNat = j + 1 := ⟨dp.toNat - 1, by omega⟩
          rw [hj]
          simpa using hh
      · intro _ e
        have := congrArg List.length e
        rw [List.length_drop] at this
        simp at this
        omega
      · rw [List.take_append_drop, List.length_drop]
        have e : -((d.length - dp.toNat : ℕ) : ℤ) = dp - (d.length : ℤ) := by omega
        rw [e]
    · -- the decimal point is in front of the digits
      have hz : ∀ c ∈ List.replicate (-dp).toNat '0' ++ d, '0' ≤ c ∧ c ≤ '9' := by
        intro c hc
        rcases List.mem_append.1 hc with h | h
        · rw [List.eq_of_mem_replicate h]; decide
        · exact hd.2 c h
      refine key ['0'] (List.replicate (-dp).toNat '0' ++ d) true ?_ (Or.inl rfl)
        ⟨by simp, by intro c hc; rw [List.mem_singleton.1 hc]; decide⟩ hz
        (fun h => absurd h (by decide)) (fun _ => by simp [hd.1]) ?_
      · have e1 : dp.toNat = 0 := by omega
        rw [if_neg hB, if_pos (show 0 < ((d.length : ℤ) - dp).toNat by omega), e1]
        simp
      · have e0 : ['0'] ++ (List.replicate (-dp).toNat '0' ++ d) =
            List.replicate ((-dp).toNat + 1) '0' ++ d := by
          rw [List.replicate_succ]; simp
        rw [e0, digitsValue_leading_zeros]
        simp only [List.length_append, List.length_replicate]
        have e : -(((-dp).toNat + d.length : ℕ) : ℤ) = dp - (d.length : ℤ) := by omega
        rw [e]

end strconv

namespace json

open grammar strconv

/-- An exponent of one digit written with two loses its zero. -/
theorem cleanExponent_short (pre : List Char) (sg x : Char) (hsg : sg = '-' ∨ sg = '+') :
    cleanExponent (pre ++ ['e', sg, '0', x]) = pre ++ ['e', sg, x] := by
  unfold cleanExponent
  simp [hsg]

/-- An exponent of two digits is left as it is. -/
theorem cleanExponent_two (pre : List Char) (sg a b : Char) (ha : a ≠ '0') :
    cleanExponent (pre ++ ['e', sg, a, b]) = pre ++ ['e', sg, a, b] := by
  unfold cleanExponent
  simp [ha]

/-- An exponent of three digits is left as it is. -/
theorem cleanExponent_three (pre : List Char) (sg a b c : Char) (hsg : sg = '-' ∨ sg = '+') :
    cleanExponent (pre ++ ['e', sg, a, b, c]) = pre ++ ['e', sg, a, b, c] := by
  have h : sg ≠ 'e' := by
    rcases hsg with h | h <;> rw [h] <;> decide
  unfold cleanExponent
  simp [h]

/-- The shape of what `fmtE` writes with all the digits: the first digit, the others after
the point if there are any, and the exponent. -/
theorem fmtE_eq (neg : Bool) (c : Char) (cs : List Char) (dp : ℤ) :
    fmtE neg ⟨c :: cs, dp⟩ cs.length =
      ((if neg then ['-'] else []) ++ [c] ++ (if decide (0 < cs.length) then '.' :: cs else [])) ++
        'e' :: (if dp - 1 < 0 then '-' else '+') ::
          (if (dp - 1).natAbs < 10 then ['0', digitByte (dp - 1).natAbs]
            else if (dp - 1).natAbs < 100 then
              [digitByte ((dp - 1).natAbs / 10), digitByte ((dp - 1).natAbs % 10)]
            else [digitByte ((dp - 1).natAbs / 100), digitByte ((dp - 1).natAbs / 10 % 10),
              digitByte ((dp - 1).natAbs % 10)]) := by
  unfold fmtE
  simp

/-- What the encoder makes of the output of `fmtE` for digits that do not start with a zero is
a JSON number, and `readFloat` reads the number of the digits from it. -/
theorem fmtE_spec (neg : Bool) (d : List Char) (dp : ℤ) (hd : IsDigits d)
    (hh : d.head? ≠ some '0') (h1 : -1000 < dp - 1) (h2 : dp - 1 < 1000) :
    IsNumber (cleanExponent (fmtE neg ⟨d, dp⟩ (d.length - 1))) ∧
    ∃ M E, readFloat (cleanExponent (fmtE neg ⟨d, dp⟩ (d.length - 1))) = (neg, M, E) ∧
      (M : ℚ) * (10 : ℚ) ^ E = (digitsValue d : ℚ) * (10 : ℚ) ^ (dp - (d.length : ℤ)) := by
  rcases d with _ | ⟨c, cs⟩
  · exact absurd rfl hd.1
  have hc0 : c ≠ '0' := by simpa using hh
  have hcd : IsDigits [c] :=
    ⟨by simp, fun x hx => by rw [List.mem_singleton.1 hx]; exact hd.2 c (List.mem_cons_self _ _)⟩
  have hcs : ∀ x ∈ cs, '0' ≤ x ∧ x ≤ '9' := fun x hx => hd.2 x (List.mem_cons_of_mem _ hx)
  have hsg : (if dp - 1 < 0 then '-' else '+') = '-' ∨ (if dp - 1 < 0 then '-' else '+') = '+' := by
    split
    · exact Or.inl rfl
    · exact Or.inr rfl
  generalize hn : (dp - 1).natAbs = n
  have hn3 : n < 1000 := by omega
  -- the digits of the exponent the encoder leaves
  have key : ∀ js : List Char, IsDigits js → digitsValue js = n →
      cleanExponent
        (((if neg then ['-'] else []) ++ [c] ++ (if decide (0 < cs.length) then '.' :: cs else [])) ++
          'e' :: (if dp - 1 < 0 then '-' else '+') ::
            (if n < 10 then ['0', digitByte n]
              else if n < 100 then [digitByte (n / 10), digitByte (n % 10)]
              else [digitByte (n / 100), digitByte (n / 10 % 10), digitByte (n % 10)])) =
        ((if neg then ['-'] else []) ++ [c] ++ (if decide (0 < cs.length) then '.' :: cs else [])) ++
          (if true then 'e' :: (if dp - 1 < 0 then '-' else '+') :: js else []) →
      IsNumber (cleanExponent (fmtE neg ⟨c :: cs, dp⟩ cs.length)) ∧
      ∃ M E, readFloat (cleanExponent (fmtE neg ⟨c :: cs, dp⟩ cs.length)) = (neg, M, E) ∧
        (M : ℚ) * (10 : ℚ) ^ E =
          (digitsValue (c :: cs) : ℚ) * (10 : ℚ) ^ (dp - ((c :: cs).length : ℤ)) := by
    intro js hjs hv e
    rw [fmtE_eq, hn, e]
    refine ⟨IsNumber_literal neg [c] cs js (decide (0 < cs.length)) true _
        (Or.inr ⟨hcd, by simpa using hc0⟩) ?_ (fun _ => hjs) hsg, _, _,
      readFloat_literal neg [c] cs js (decide (0 < cs.length)) true _ hcd hcs ?_ hsg, ?_⟩
    · intro h
      refine ⟨?_, hcs⟩
      intro e0
      rw [e0] at h
      exact absurd h (by decide)
    · intro h
      have : ¬ 0 < cs.length := by simpa using h
      exact List.length_eq_zero.1 (by omega)
    · have he := exponentValue_eq js (by omega)
      rw [he, hv]
      simp only [if_true, List.singleton_append, List.length_cons]
      have e1 : (if (if dp - 1 < 0 then '-' else '+') = '-' then -(n : ℤ) else (n : ℤ)) = dp - 1 := by
        by_cases hneg : dp - 1 < 0
        · rw [if_pos hneg, if_pos rfl]; omega
        · rw [if_neg hneg, if_neg (by decide)]; omega
      rw [e1]
      congr 2
      push_cast
      ring
  show IsNumber (cleanExponent (fmtE neg ⟨c :: cs, dp⟩ cs.length)) ∧
    ∃ M E, readFloat (cleanExponent (fmtE neg ⟨c :: cs, dp⟩ cs.length)) = (neg, M, E) ∧
      (M : ℚ) * (10 : ℚ) ^ E =
        (digitsValue (c :: cs) : ℚ) * (10 : ℚ) ^ (dp - ((c :: cs).length : ℤ))
  by_cases c1 : n < 10
  · obtain ⟨d1, d2, d3, _⟩ := digit_char n c1
    refine key [digitByte n] ⟨by simp, fun x hx => by
      rw [List.mem_singleton.1 hx]; exact ⟨d1, d2⟩⟩ ?_ ?_
    · show 10 * 0 + ((Char.ofNat (48 + n)).toNat - '0'.toNat) = n
      rw [d3]; omega
    · rw [if_pos c1]
      exact cleanExponent_short _ _ _ hsg
  · by_cases c2 : n < 100
    · obtain ⟨a1, a2, a3, a4⟩ := digit_char (n / 10) (by omega)
      obtain ⟨b1, b2, b3, _⟩ := digit_char (n % 10) (by omega)
      refine key [digitByte (n / 10), digitByte (n % 10)] ⟨by simp, fun x hx => by
        rcases List.mem_cons.1 hx with h | h
        · rw [h]; exact ⟨a1, a2⟩
        · rw [List.mem_singleton.1 h]; exact ⟨b1, b2⟩⟩ ?_ ?_
      · show 10 * (10 * 0 + ((Char.ofNat (48 + n / 10)).toNat - '0'.toNat)) +
          ((Char.ofNat (48 + n % 10)).toNat - '0'.toNat) = n
        rw [a3, b3]; omega
      · rw [if_neg c1, if_pos c2]
        exact cleanExponent_two _ _ _ _ (a4 (by omega))
    · obtain ⟨a1, a2, a3, _⟩ := digit_char (n / 100) (by omega)
      obtain ⟨b1, b2, b3, _⟩ := digit_char (n / 10 % 10) (by omega)
      obtain ⟨e1, e2, e3, _⟩ := digit_char (n % 10) (by omega)
      refine key [digitByte (n / 100), digitByte (n / 10 % 10), digitByte (n % 10)]
        ⟨by simp, fun x hx => by
          rcases List.mem_cons.1 hx with h | h
          · rw [h]; exact ⟨a1, a2⟩
          · rcases List.mem_cons.1 h with h | h
            · rw [h]; exact ⟨b1, b2⟩
            · rw [List.mem_singleton.1 h]; exact ⟨e1, e2⟩⟩ ?_ ?_
      · show 10 * (10 * (10 * 0 + ((Char.ofNat (48 + n / 100)).toNat - '0'.toNat)) +
            ((Char.ofNat (48 + n / 10 % 10)).toNat - '0'.toNat)) +
          ((Char.ofNat (48 + n % 10)).toNat - '0'.toNat) = n
        rw [a3, b3, e3]; omega
      · rw [if_neg c1, if_neg c2]
        exact cleanExponent_three _ _ _ _ _ hsg

end json

namespace strconv

open grammar

/-- `ParseFloat` on a literal that `readFloat` reads as a number within the rounding interval
of a float returns that float. -/
theorem ParseFloat_of_interval (lit : List Char) (neg : Bool) (M : Nat) (E : ℤ) (q : Nat) (k : ℤ)
    (hr : readFloat lit = (neg, M, E))
    (hq0 : 0 < q) (hq : q < 2 ^ 53) (hk : -1074 ≤ k) (hstd : 2 ^ 52 ≤ q ∨ k = -1074)
    (hlow : ((q : ℚ) - (if 2 ^ 52 < q ∨ k = -1074 then 1 / 2 else 1 / 4)) * (2 : ℚ) ^ k <
        (M : ℚ) * (10 : ℚ) ^ E ∨
      (((q : ℚ) - (if 2 ^ 52 < q ∨ k = -1074 then 1 / 2 else 1 / 4)) * (2 : ℚ) ^ k =
        (M : ℚ) * (10 : ℚ) ^ E ∧ q % 2 = 0))
    (hup : (M : ℚ) * (10 : ℚ) ^ E < ((q : ℚ) + 1 / 2) * (2 : ℚ) ^ k ∨
      ((M : ℚ) * (10 : ℚ) ^ E = ((q : ℚ) + 1 / 2) * (2 : ℚ) ^ k ∧ q % 2 = 0)) :
    ParseFloat ⟨lit⟩ = pack neg q k := by
  have h10 : (10 : ℚ) ≠ 0 := by norm_num
  unfold ParseFloat
  simp only [hr]
  by_cases hE : 0 ≤ E
  · rw [if_pos hE]
    have e : (M : ℚ) * (10 : ℚ) ^ E = ((M * 10 ^ E.toNat : ℕ) : ℚ) / ((1 : ℕ) : ℚ) := by
      obtain ⟨j, rfl⟩ := Int.eq_ofNat_of_zero_le hE
      simp
    rw [e] at hlow hup
    exact nearestFloat64_of_interval neg _ 1 q k (by decide) hq0 hq hk hstd hlow hup
  · rw [if_neg hE]
    have e : (M : ℚ) * (10 : ℚ) ^ E = ((M : ℕ) : ℚ) / ((10 ^ (-E).toNat : ℕ) : ℚ) := by
      obtain ⟨j, hj⟩ : ∃ j : ℕ, E = -(j : ℤ) := ⟨(-E).toNat, by omega⟩
      subst hj
      have e2 : (- -(j : ℤ)).toNat = j := by omega
      rw [e2, zpow_neg, zpow_natCast]
      push_cast
      rw [div_eq_mul_inv]
    rw [e] at hlow hup
    exact nearestFloat64_of_interval neg _ _ q k (by positivity) hq0 hq hk hstd hlow hup

end strconv

namespace json

open grammar strconv

/-- The text the encoder writes for a finite float is a JSON number that `ParseFloat` maps
back to the float. -/
theorem floatEncoder_spec (x : Float64) (he : x.exp < 2047) (hf : x.frac < 2 ^ 52) :
    ∃ lit, floatEncoder x = some lit ∧ IsNumber lit ∧ ParseFloat ⟨lit⟩ = some x := by
  obtain ⟨sign, exp, frac⟩ := x
  simp only [] at he hf
  by_cases hz : exp = 0 ∧ frac = 0
  · obtain ⟨h1, h2⟩ := hz
    subst h1 h2
    cases sign
    · exact ⟨"0".data, by decide, by
        exact ⟨[], ['0'], [], [], rfl, Or.inl rfl, Or.inl rfl, Or.inl rfl, Or.inl rfl⟩, by decide⟩
    · exact ⟨"-0".data, by decide, by
        exact ⟨['-'], ['0'], [], [], rfl, Or.inr rfl, Or.inl rfl, Or.inl rfl, Or.inl rfl⟩,
        by decide⟩
  · generalize hm : (if exp = 0 then frac else 2 ^ 52 + frac) = mant
    generalize hx : (if exp = 0 then 1 else (exp : ℤ)) - 1023 = e
    have hm0 : 0 < mant := by
      rw [← hm]; split <;> omega
    have hm1 : mant < 2 ^ 53 := by
      rw [← hm]; split <;> omega
    have he1 : -1022 ≤ e := by
      rw [← hx]; split <;> omega
    have he2 : e ≤ 1023 := by
      rw [← hx]; split <;> omega
    have hstd : 2 ^ 52 ≤ mant ∨ e - 52 = -1074 := by
      rw [← hm, ← hx]
      by_cases h0 : exp = 0
      · right; rw [if_pos h0]; norm_num
      · left; rw [if_neg h0]; omega
    have hpack : pack sign mant (e - 52) = some ⟨sign, exp, frac⟩ := by
      by_cases h0 : exp = 0
      · rw [if_pos h0] at hm
        rw [pack_subnormal sign mant _ (by omega), h0, hm]
      · rw [if_neg h0] at hm hx
        rw [pack_normal sign mant _ (by omega) hm1 (by omega) (by omega)]
        have e1 : (e - 52 + 1075).toNat = exp := by omega
        have e2 : mant - 2 ^ 52 = frac := by omega
        rw [e1, e2]
    obtain ⟨hd, hh, hlow, hup, hdp1, hdp2⟩ := roundShortest_spec mant e hm0 hm1 he1 he2
    have hF : ∀ fmt, FormatFloat ⟨sign, exp, frac⟩ fmt =
        if fmt = 'e' then fmtE sign (roundShortest mant e) ((roundShortest mant e).d.length - 1)
        else fmtF sign (roundShortest mant e)
          (((roundShortest mant e).d.length : ℤ) - (roundShortest mant e).dp).toNat := by
      intro fmt
      unfold FormatFloat
      simp only []
      rw [if_neg (show ¬ exp = 2047 by omega), hm, hx]
      simp only [if_neg (show ¬ mant = 0 by omega)]
    generalize roundShortest mant e = r at hd hh hlow hup hdp1 hdp2 hF
    obtain ⟨d, dp⟩ := r
    simp only [] at hd hh hlow hup hdp1 hdp2 hF
    have fin : ∀ lit : List Char, (IsNumber lit ∧ ∃ M E, readFloat lit = (sign, M, E) ∧
        (M : ℚ) * (10 : ℚ) ^ E = (digitsValue d : ℚ) * (10 : ℚ) ^ (dp - (d.length : ℤ))) →
        IsNumber lit ∧ ParseFloat ⟨lit⟩ = some ⟨sign, exp, frac⟩ := by
      rintro lit ⟨hn, M, E, hr, hv⟩
      rw [← hv] at hlow hup
      exact ⟨hn, by
        rw [ParseFloat_of_interval lit sign M E mant (e - 52) hr hm0 hm1 (by omega) hstd hlow hup,
          hpack]⟩
    unfold floatEncoder
    rw [if_neg (show ¬ 2047 ≤ exp by omega)]
    split
    · refine ⟨_, rfl, ?_⟩
      rw [hF, if_pos rfl]
      exact fin _ (fmtE_spec sign d dp hd hh (by omega) (by omega))
    · refine ⟨_, rfl, ?_⟩
      rw [hF, if_neg (by decide)]
      exact fin _ (fmtF_spec sign d dp hd hh)

/-- The encoder on some floats: the two zeros, numbers at the bounds of the two formats, the
least and the greatest positive float, and numbers with one to seventeen digits. -/
theorem floatEncoder_examples :
    floatEncoder ⟨false, 0, 0⟩ = some "0".data ∧
    floatEncoder ⟨true, 0, 0⟩ = some "-0".data ∧
    floatEncoder ⟨false, 1022, 0⟩ = some "0.5".data ∧
    floatEncoder ⟨false, 1092, 3125794903879504⟩ = some "1e+21".data ∧
    floatEncoder ⟨false, 1003, 218766855499149⟩ = some "0.000001".data ∧
    floatEncoder ⟨false, 999, 3052186745220936⟩ = some "1e-7".data ∧
    floatEncoder ⟨false, 0, 1⟩ = some "5e-324".data ∧
    floatEncoder ⟨false, 2046, 4503599627370495⟩ = some "1.7976931348623157e+308".data ∧
    floatEncoder ⟨false, 1026, 2674012278751232⟩ = some "12.75".data ∧
    floatEncoder ⟨false, 1029, 2533274790395904⟩ = some "100".data ∧
    floatEncoder ⟨false, 1019, 2702159776422298⟩ = some "0.1".data ∧
    floatEncoder ⟨false, 1076, 0⟩ = some "9007199254740992".data ∧
    floatEncoder ⟨false, 1021, 1501199875790165⟩ = some "0.3333333333333333".data ∧
    floatEncoder ⟨false, 1, 0⟩ = some "2.2250738585072014e-308".data ∧
    floatEncoder ⟨true, 1049, 3781445235507200⟩ = some "-123456789".data ∧
    floatEncoder ⟨false, 1092, 3125794903879503⟩ = some "999999999999999900000".data ∧
    floatEncoder ⟨false, 1096, 264771954660754⟩ = some "1e+22".data ∧
    floatEncoder ⟨false, 1025, 394064967394918⟩ = some "4.35".data ∧
    floatEncoder ⟨false, 993, 332103651088021⟩ = some "1e-9".data ∧
    floatEncoder ⟨false, 990, 1299244306779724⟩ = some "1.5e-10".data ∧
    floatEncoder ⟨false, 1356, 643957962097533⟩ = some "2e+100".data := by
  decide!

end json

/-- C13: the decode round trip. For every event whose `Elapsed` is a finite `float64` (its
strings are valid UTF-8, as all strings of the model are), `json.Marshal` serializes the
event, with the shortest digits of `strconv.FormatFloat` for `Elapsed`, and `ParseJSONOutput`
applied to the serialization returns that event and a nil error. -/
theorem ParseJSONOutput_Marshal (tEvt : TEvent) (he : tEvt.Elapsed.exp < 2047)
    (hf : tEvt.Elapsed.frac < 2 ^ 52) :
    ∃ data, json.Marshal tEvt = some data ∧ ParseJSONOutput data = (tEvt, none) := by
  obtain ⟨lit, h1, hn, hx⟩ := json.floatEncoder_spec tEvt.Elapsed he hf
  refine ⟨json.appendEvent tEvt lit, ?_, ParseJSONOutput_appendEvent tEvt lit hn hx⟩
  unfold json.Marshal
  rw [h1]
  rfl

/-- C13 at two concrete events: one whose strings need escapes and whose `Elapsed` is 0.5, one
whose `Elapsed` is a tenth of a microsecond, written with an exponent. The serializations are
the texts shown, and decoding them returns the events. -/
theorem ParseJSONOutput_Marshal_witness :
    (json.Marshal ⟨"run", "pkg\\1", "Top/a_\"b\"<c>\n", ⟨false, 1022, 0⟩⟩ =
        some "\x7b\"Action\":\"run\",\"Package\":\"pkg\\\\1\",\"Test\":\"Top/a_\\\"b\\\"\\u003cc\\u003e\\n\",\"Elapsed\":0.5\x7d" ∧
      ParseJSONOutput
          "\x7b\"Action\":\"run\",\"Package\":\"pkg\\\\1\",\"Test\":\"Top/a_\\\"b\\\"\\u003cc\\u003e\\n\",\"Elapsed\":0.5\x7d" =
        (⟨"run", "pkg\\1", "Top/a_\"b\"<c>\n", ⟨false, 1022, 0⟩⟩, none)) ∧
    (json.Marshal ⟨"pass", "p", "T", ⟨true, 999, 3052186745220936⟩⟩ =
        some "\x7b\"Action\":\"pass\",\"Package\":\"p\",\"Test\":\"T\",\"Elapsed\":-1e-7\x7d" ∧
      ParseJSONOutput
          "\x7b\"Action\":\"pass\",\"Package\":\"p\",\"Test\":\"T\",\"Elapsed\":-1e-7\x7d" =
        (⟨"pass", "p", "T", ⟨true, 999, 3052186745220936⟩⟩, none)) := by
  have h1 : json.Marshal ⟨"run", "pkg\\1", "Top/a_\"b\"<c>\n", ⟨false, 1022, 0⟩⟩ =
      some "\x7b\"Action\":\"run\",\"Package\":\"pkg\\\\1\",\"Test\":\"Top/a_\\\"b\\\"\\u003cc\\u003e\\n\",\"Elapsed\":0.5\x7d" := by
    decide!
  have h2 : json.Marshal ⟨"pass", "p", "T", ⟨true, 999, 3052186745220936⟩⟩ =
      some "\x7b\"Action\":\"pass\",\"Package\":\"p\",\"Test\":\"T\",\"Elapsed\":-1e-7\x7d" := by
    decide!
  refine ⟨⟨h1, ?_⟩, ⟨h2, ?_⟩⟩
  · obtain ⟨data, e1, e2⟩ := ParseJSONOutput_Marshal
      ⟨"run", "pkg\\1", "Top/a_\"b\"<c>\n", ⟨false, 1022, 0⟩⟩ (by decide) (by decide)
    rw [h1] at e1
    cases e1
    exact e2
  · obtain ⟨data, e1, e2⟩ := ParseJSONOutput_Marshal
      ⟨"pass", "p", "T", ⟨true, 999, 3052186745220936⟩⟩ (by decide) (by decide)
    rw [h2] at e1
    cases e1
    exact e2

end gotest
